import Mathlib

/-! ## Component-based entity system (CppCon 2015 tutorial, `p7.cpp`)

A shallow embedding of `ecs::Manager` and of the types it is built from.

* `std::vector` is a `List`; `v[i]` is `List.getD` (read) and `List.set` (write).
  The invariant `Manager.Inv` bounds the indices that the code uses by the lengths of the
  vectors.
* `std::size_t` indices are natural numbers.  The only place where the code
  decrements an index without a syntactic guard (`--iA` after the swap in
  `refreshImpl`) is modelled as a failure when the index is `0`.
* The loop counter of `clear` is `auto i(0u)`, an `unsigned` of 32 bits that is compared
  with the `std::size_t` capacity: the model increments it modulo `2 ^ 32`, and `clear`
  returns `none` when the loop does not end.
* `Counter` is a strong typedef of `int`; it is an `Int` here, and `++` on it is
  `Counter.incr`, which wraps from `INT_MAX` to `INT_MIN`.
* An `assert` is modelled as a failure: an operation whose assertion fails
  returns `none`.
* Component, tag and signature kinds (C++ types) are natural-number codes.
-/

namespace ecs

/-- A component, tag or signature kind: the code of a C++ type. -/
abbrev Kind := Nat

/-- The compile-time configuration `ecs::Settings<ComponentList, TagList, SignatureList>`. -/
structure Settings where
  componentList : List Kind
  tagList : List Kind
  signatureList : List (List Kind)
deriving DecidableEq

namespace Settings

/-- Modelled from the spec: `MPL::Contains<T, ComponentList>` (the header `Other.hpp` is
not part of the sources); membership of the kind in the component list. -/
def isComponent (S : Settings) (T : Kind) : Bool := S.componentList.contains T

/-- Modelled from the spec: `MPL::Contains<T, TagList>`; membership of the kind in the tag list. -/
def isTag (S : Settings) (T : Kind) : Bool := S.tagList.contains T

/-- Modelled from the spec: `MPL::size<ComponentList>()`; the number of component kinds. -/
def componentCount (S : Settings) : Nat := S.componentList.length

/-- Modelled from the spec: `MPL::size<TagList>()`; the number of tag kinds. -/
def tagCount (S : Settings) : Nat := S.tagList.length

/-- Modelled from the spec: `MPL::IndexOf<T, ComponentList>`; the zero-based position of the
kind in the component list. -/
def componentID (S : Settings) (T : Kind) : Nat := S.componentList.indexOf T

/-- Modelled from the spec: `MPL::IndexOf<T, TagList>`; the zero-based position of the kind in
the tag list. -/
def tagID (S : Settings) (T : Kind) : Nat := S.tagList.indexOf T

/-- Model of `Settings::componentBit<T>()`. -/
def componentBit (S : Settings) (T : Kind) : Nat := S.componentID T

/-- Model of `Settings::tagBit<T>()`. -/
def tagBit (S : Settings) (T : Kind) : Nat := S.componentCount + S.tagID T

/-- The width of `Settings::Bitset = std::bitset<componentCount() + tagCount()>`. -/
def bitCount (S : Settings) : Nat := S.componentCount + S.tagCount

end Settings

/-- Model of `std::bitset<N>`, least significant bit first. -/
abbrev Bitset := List Bool

/-- Model of `bitset.reset()` on a bitset of width `n`: every bit is cleared. -/
def Bitset.reset (n : Nat) : Bitset := List.replicate n false

/-- Model of `Impl::Entity`: the metadata record of an entity. -/
structure Entity where
  dataIndex : Nat
  handleDataIndex : Nat
  bitset : Bitset
  alive : Bool
deriving DecidableEq

/-- Model of `++` on a `Counter`, which is a C++ `int` of 32 bits: the successor in two's
complement, which wraps from `INT_MAX = 2147483647` to `INT_MIN = -2147483648`.  (The C++
standard leaves the signed overflow undefined; the wrap is what the compiled code does.) -/
def Counter.incr (c : Int) : Int := (c + 1 + 2147483648) % 4294967296 - 2147483648

/-- Model of `Impl::HandleData`: a slot of the handle table. -/
structure HandleData where
  entityIndex : Nat
  counter : Int
deriving DecidableEq

/-- Model of `Impl::Handle`: the value held by the caller. -/
structure Handle where
  handleDataIndex : Nat
  counter : Int
deriving DecidableEq

/-- A value-initialised `Entity`, as produced by `std::vector::resize`. -/
def Entity.zero : Entity :=
  { dataIndex := 0, handleDataIndex := 0, bitset := [], alive := false }

/-- A value-initialised `HandleData`, as produced by `std::vector::resize`. -/
def HandleData.zero : HandleData := { entityIndex := 0, counter := 0 }

/-- The record written by the loop bodies of `growTo` and `clear`:
`e.dataIndex = i; e.bitset.reset(); e.alive = false; e.handleDataIndex = i;`. -/
def Entity.init (S : Settings) (i : Nat) : Entity :=
  { dataIndex := i, handleDataIndex := i, bitset := Bitset.reset S.bitCount, alive := false }

/-- The slot written by the loop bodies of `growTo` and `clear`:
`h.counter = 0; h.entityIndex = i;`. -/
def HandleData.init (i : Nat) : HandleData := { entityIndex := i, counter := 0 }

/-- The data members of `ecs::Manager`.  `components` holds one vector per component kind, in
the order of the component list (`ComponentStorage::vectors`). -/
structure Manager (Val : Type) where
  capacity : Nat
  size : Nat
  sizeNext : Nat
  entities : List Entity
  components : List (List Val)
  handleData : List HandleData
deriving DecidableEq

/-- Model of `std::vector::resize(n)`: truncate, or pad with value-initialised elements. -/
def resize {α : Type} (l : List α) (n : Nat) (d : α) : List α :=
  l.take n ++ List.replicate (n - l.length) d

/-- The loop `for(i = start; <count more iterations>; ++i) body(i)`. -/
def forLoop {σ : Type} (body : Nat → σ → σ) : Nat → Nat → σ → σ
  | 0, _, s => s
  | k + 1, i, s => forLoop body k (i + 1) (body i s)

namespace Manager

variable {Val : Type}

/-- The read `entities[i]`. -/
def ent (m : Manager Val) (i : Nat) : Entity := m.entities.getD i Entity.zero

/-- The read `handleData[j]`. -/
def hd (m : Manager Val) (j : Nat) : HandleData := m.handleData.getD j HandleData.zero

/-- The write `entities[i] = e`. -/
def setEnt (m : Manager Val) (i : Nat) (e : Entity) : Manager Val :=
  { m with entities := m.entities.set i e }

/-- The write `handleData[j] = d`. -/
def setHd (m : Manager Val) (j : Nat) (d : HandleData) : Manager Val :=
  { m with handleData := m.handleData.set j d }

/-- The members of a `Manager` before the body of its constructor runs: all sizes are `0`,
the vectors are empty, and there is one (empty) component vector per component kind. -/
def empty (S : Settings) : Manager Val :=
  { capacity := 0, size := 0, sizeNext := 0, entities := [],
    components := List.replicate S.componentCount [], handleData := [] }

/-- The body shared by the loops of `growTo` and `clear`: re-initialise entity record `i` and
handle slot `i`. -/
def initSlot (S : Settings) (i : Nat) (m : Manager Val) : Manager Val :=
  (m.setEnt i (Entity.init S i)).setHd i (HandleData.init i)

/-- Model of `Manager::growTo`. -/
def growTo [Inhabited Val] (S : Settings) (m : Manager Val) (mNewCapacity : Nat) :
    Option (Manager Val) :=
  if mNewCapacity > m.capacity then
    let m1 : Manager Val :=
      { m with
        entities := resize m.entities mNewCapacity Entity.zero
        components := m.components.map (fun v => resize v mNewCapacity default)
        handleData := resize m.handleData mNewCapacity HandleData.zero }
    let m2 := forLoop (initSlot S) (mNewCapacity - m.capacity) m.capacity m1
    some { m2 with capacity := mNewCapacity }
  else none

/-- Model of `Manager::growIfNeeded`. -/
def growIfNeeded [Inhabited Val] (S : Settings) (m : Manager Val) : Option (Manager Val) :=
  if m.capacity > m.sizeNext then some m
  else growTo S m ((m.capacity + 10) * 2)

/-- Model of `Manager::getEntity`. -/
def getEntity (m : Manager Val) (mI : Nat) : Option Entity :=
  if m.sizeNext > mI then some (m.ent mI) else none

/-- Model of `Manager::getHandleData(HandleDataIndex)`. -/
def getHandleData (m : Manager Val) (mI : Nat) : Option HandleData :=
  if m.handleData.length > mI then some (m.hd mI) else none

/-- The constructor `Manager() { growTo(100); }`. -/
def new [Inhabited Val] (S : Settings) : Option (Manager Val) := growTo S (empty S) 100

/-- Model of `Manager::isHandleValid`. -/
def isHandleValid (m : Manager Val) (mX : Handle) : Option Bool :=
  match m.getHandleData mX.handleDataIndex with
  | some d => some (decide (mX.counter = d.counter))
  | none => none

/-- Model of `Manager::getEntityIndex`. -/
def getEntityIndex (m : Manager Val) (mX : Handle) : Option Nat :=
  match m.isHandleValid mX with
  | some true =>
    match m.getHandleData mX.handleDataIndex with
    | some d => some d.entityIndex
    | none => none
  | _ => none

/-- Model of `Manager::isAlive(EntityIndex)`. -/
def isAlive (m : Manager Val) (mI : Nat) : Option Bool :=
  match m.getEntity mI with
  | some e => some e.alive
  | none => none

/-- Model of `Manager::isAlive(const Handle&)`. -/
def isAliveH (m : Manager Val) (mX : Handle) : Option Bool :=
  match m.getEntityIndex mX with
  | some i => m.isAlive i
  | none => none

/-- Model of `Manager::kill(EntityIndex)`. -/
def kill (m : Manager Val) (mI : Nat) : Option (Manager Val) :=
  match m.getEntity mI with
  | some e => some (m.setEnt mI { e with alive := false })
  | none => none

/-- Model of `Manager::kill(const Handle&)`. -/
def killH (m : Manager Val) (mX : Handle) : Option (Manager Val) :=
  match m.getEntityIndex mX with
  | some i => m.kill i
  | none => none

/-- Model of `Manager::hasTag<T>(EntityIndex)`. -/
def hasTag (S : Settings) (m : Manager Val) (T : Kind) (mI : Nat) : Option Bool :=
  if S.isTag T then
    match m.getEntity mI with
    | some e => some (e.bitset.getD (S.tagBit T) false)
    | none => none
  else none

/-- Model of `Manager::hasTag<T>(const Handle&)`. -/
def hasTagH (S : Settings) (m : Manager Val) (T : Kind) (mX : Handle) : Option Bool :=
  match m.getEntityIndex mX with
  | some i => hasTag S m T i
  | none => none

/-- Model of `Manager::addTag<T>(EntityIndex)`. -/
def addTag (S : Settings) (m : Manager Val) (T : Kind) (mI : Nat) : Option (Manager Val) :=
  if S.isTag T then
    match m.getEntity mI with
    | some e => some (m.setEnt mI { e with bitset := e.bitset.set (S.tagBit T) true })
    | none => none
  else none

/-- Model of `Manager::addTag<T>(const Handle&)`. -/
def addTagH (S : Settings) (m : Manager Val) (T : Kind) (mX : Handle) : Option (Manager Val) :=
  match m.getEntityIndex mX with
  | some i => addTag S m T i
  | none => none

/-- Model of `Manager::delTag<T>(EntityIndex)`. -/
def delTag (S : Settings) (m : Manager Val) (T : Kind) (mI : Nat) : Option (Manager Val) :=
  if S.isTag T then
    match m.getEntity mI with
    | some e => some (m.setEnt mI { e with bitset := e.bitset.set (S.tagBit T) false })
    | none => none
  else none

/-- Model of `Manager::delTag<T>(const Handle&)`. -/
def delTagH (S : Settings) (m : Manager Val) (T : Kind) (mX : Handle) : Option (Manager Val) :=
  match m.getEntityIndex mX with
  | some i => delTag S m T i
  | none => none

/-- Model of `Manager::hasComponent<T>(EntityIndex)`. -/
def hasComponent (S : Settings) (m : Manager Val) (T : Kind) (mI : Nat) : Option Bool :=
  if S.isComponent T then
    match m.getEntity mI with
    | some e => some (e.bitset.getD (S.componentBit T) false)
    | none => none
  else none

/-- Model of `Manager::hasComponent<T>(const Handle&)`. -/
def hasComponentH (S : Settings) (m : Manager Val) (T : Kind) (mX : Handle) : Option Bool :=
  match m.getEntityIndex mX with
  | some i => hasComponent S m T i
  | none => none

/-- Model of `ComponentStorage::getComponent<T>(DataIndex)` as a read: the vector of kind `T` is the one
at position `componentID<T>()` of the tuple. -/
def readComponent [Inhabited Val] (S : Settings) (m : Manager Val) (T : Kind) (di : Nat) : Val :=
  (m.components.getD (S.componentID T) []).getD di default

/-- Model of `ComponentStorage::getComponent<T>(DataIndex)` as a write target. -/
def writeComponent (S : Settings) (m : Manager Val) (T : Kind) (di : Nat) (v : Val) :
    Manager Val :=
  let c := S.componentID T
  { m with components := m.components.set c ((m.components.getD c []).set di v) }

/-- Model of `Manager::addComponent<T>(EntityIndex, args...)`; `v` is the value `T(args...)`. -/
def addComponent (S : Settings) (m : Manager Val) (T : Kind) (mI : Nat) (v : Val) :
    Option (Manager Val) :=
  if S.isComponent T then
    match m.getEntity mI with
    | some e =>
      let m1 := m.setEnt mI { e with bitset := e.bitset.set (S.componentBit T) true }
      some (writeComponent S m1 T e.dataIndex v)
    | none => none
  else none

/-- Model of `Manager::addComponent<T>(const Handle&, args...)`. -/
def addComponentH (S : Settings) (m : Manager Val) (T : Kind) (mX : Handle) (v : Val) :
    Option (Manager Val) :=
  match m.getEntityIndex mX with
  | some i => addComponent S m T i v
  | none => none

/-- Model of `Manager::getComponent<T>(EntityIndex)`, read through the returned reference. -/
def getComponent [Inhabited Val] (S : Settings) (m : Manager Val) (T : Kind) (mI : Nat) :
    Option Val :=
  if S.isComponent T then
    match hasComponent S m T mI with
    | some true =>
      match m.getEntity mI with
      | some e => some (readComponent S m T e.dataIndex)
      | none => none
    | _ => none
  else none

/-- Model of `Manager::getComponent<T>(const Handle&)`. -/
def getComponentH [Inhabited Val] (S : Settings) (m : Manager Val) (T : Kind) (mX : Handle) :
    Option Val :=
  match m.getEntityIndex mX with
  | some i => getComponent S m T i
  | none => none

/-- Model of `Manager::delComponent<T>(EntityIndex)`. -/
def delComponent (S : Settings) (m : Manager Val) (T : Kind) (mI : Nat) :
    Option (Manager Val) :=
  if S.isComponent T then
    match m.getEntity mI with
    | some e => some (m.setEnt mI { e with bitset := e.bitset.set (S.componentBit T) false })
    | none => none
  else none

/-- Model of `Manager::delComponent<T>(const Handle&)`. -/
def delComponentH (S : Settings) (m : Manager Val) (T : Kind) (mX : Handle) :
    Option (Manager Val) :=
  match m.getEntityIndex mX with
  | some i => delComponent S m T i
  | none => none

/-- Model of `Manager::createIndex`: the returned index and the new state. -/
def createIndex [Inhabited Val] (S : Settings) (m : Manager Val) : Option (Nat × Manager Val) :=
  match growIfNeeded S m with
  | some m1 =>
    let freeIndex := m1.sizeNext
    let m2 : Manager Val := { m1 with sizeNext := m1.sizeNext + 1 }
    match m2.isAlive freeIndex with
    | some false =>
      let e := m2.ent freeIndex
      some (freeIndex, m2.setEnt freeIndex
        { e with alive := true, bitset := Bitset.reset S.bitCount })
    | _ => none
  | none => none

/-- Model of `Manager::createHandle`: the returned handle and the new state. -/
def createHandle [Inhabited Val] (S : Settings) (m : Manager Val) :
    Option (Handle × Manager Val) :=
  match createIndex S m with
  | some (freeIndex, m1) =>
    match m1.isAlive freeIndex with
    | some true =>
      let e := m1.ent freeIndex
      let hd := m1.hd e.handleDataIndex
      let m2 := m1.setHd e.handleDataIndex { hd with entityIndex := freeIndex }
      let h : Handle := { handleDataIndex := e.handleDataIndex, counter := hd.counter }
      match m2.isHandleValid h with
      | some true => some (h, m2)
      | _ => none
    | _ => none
  | none => none

/-- The loop `for(auto i(0u); i < capacity; ++i)` of `Manager::clear`, one iteration per unit
of fuel.  The counter `i` is an `unsigned` of 32 bits, so `++i` is taken modulo `2 ^ 32`, while
`capacity` is a `std::size_t`; `none` means that the fuel ran out. -/
def clearLoop (S : Settings) : Nat → Nat → Manager Val → Option (Manager Val)
  | 0, _, _ => none
  | fuel + 1, i, m =>
    if i < m.capacity then clearLoop S fuel ((i + 1) % 4294967296) (initSlot S i m)
    else some m

/-- Model of `Manager::clear`.  When the loop ends it does so after `capacity` iterations, so
`capacity + 1` units of fuel are enough; with `capacity >= 2 ^ 32` the counter wraps to `0`
before it reaches `capacity`, the loop does not end and the result is `none`
(`clearLoop_diverges`: no amount of fuel is enough). -/
def clear (S : Settings) (m : Manager Val) : Option (Manager Val) :=
  match clearLoop S (m.capacity + 1) 0 m with
  | some m1 => some { m1 with size := 0, sizeNext := 0 }
  | none => none

/-- The state in which `clear()` returns when it returns: every slot below `capacity`
initialised, `size` and `sizeNext` zero (`clear_eq`). -/
def cleared (S : Settings) (m : Manager Val) : Manager Val :=
  let m1 := forLoop (initSlot S) m.capacity 0 m
  { m1 with size := 0, sizeNext := 0 }

/-- Model of `Manager::invalidateHandle`; `++hd.counter` is `Counter.incr`. -/
def invalidateHandle (m : Manager Val) (mX : Nat) : Manager Val :=
  let j := (m.ent mX).handleDataIndex
  let hd := m.hd j
  m.setHd j { hd with counter := Counter.incr hd.counter }

/-- Model of `Manager::refreshHandle`. -/
def refreshHandle (m : Manager Val) (mX : Nat) : Manager Val :=
  let j := (m.ent mX).handleDataIndex
  let hd := m.hd j
  m.setHd j { hd with entityIndex := mX }

/-- Model of `std::swap(entities[a], entities[b])`. -/
def swapEnt (m : Manager Val) (a b : Nat) : Manager Val :=
  let ea := m.ent a
  let eb := m.ent b
  (m.setEnt a eb).setEnt b ea

/-- Where the control of `refreshImpl` is: in the first inner loop (looking for a dead entity
from the left) or in the second one (looking for an alive entity from the right). -/
inductive Phase where
  | scanDead
  | scanAlive
deriving DecidableEq

/-- The nested loops of `Manager::refreshImpl`, one loop iteration per unit of fuel.  The
result is the returned index and the final state; `none` means that the fuel ran out or that
`--iA` was executed at `iA == 0`. -/
def refreshLoop : Nat → Phase → Manager Val → Nat → Nat → Option (Nat × Manager Val)
  | 0, _, _, _, _ => none
  | fuel + 1, Phase.scanDead, m, iD, iA =>
    if iD > iA then some (iD, m)
    else if !(m.ent iD).alive then refreshLoop fuel Phase.scanAlive m iD iA
    else refreshLoop fuel Phase.scanDead m (iD + 1) iA
  | fuel + 1, Phase.scanAlive, m, iD, iA =>
    if (m.ent iA).alive then
      let m1 := m.swapEnt iA iD
      let m2 := m1.refreshHandle iD
      let m3 := m2.invalidateHandle iA
      let m4 := m3.refreshHandle iA
      if iA = 0 then none
      else refreshLoop fuel Phase.scanDead m4 (iD + 1) (iA - 1)
    else
      let m1 := m.invalidateHandle iA
      if iA ≤ iD then some (iD, m1)
      else refreshLoop fuel Phase.scanAlive m1 iD (iA - 1)

/-- Model of `Manager::refreshImpl`, called with `sizeNext > 0`.  Every loop iteration either returns,
or moves one of the two indices towards the other, or leaves the first inner loop for the
second one, so `2 * sizeNext + 1` iterations are enough. -/
def refreshImpl (m : Manager Val) : Option (Nat × Manager Val) :=
  refreshLoop (2 * m.sizeNext + 1) Phase.scanDead m 0 (m.sizeNext - 1)

/-- Model of `Manager::refresh`. -/
def refresh (m : Manager Val) : Option (Manager Val) :=
  if m.sizeNext = 0 then some { m with size := 0 }
  else
    match m.refreshImpl with
    | some (r, m1) => some { m1 with size := r, sizeNext := r }
    | none => none

/-- Model of `Manager::getEntityCount`. -/
def getEntityCount (m : Manager Val) : Nat := m.size

/-- Model of `Manager::getCapacity`. -/
def getCapacity (m : Manager Val) : Nat := m.capacity

end Manager

/-- A call of a state-changing public member function of `Manager`. -/
inductive Op (Val : Type) where
  | createIndex
  | createHandle
  | kill (mI : Nat)
  | killH (mX : Handle)
  | addTag (T : Kind) (mI : Nat)
  | addTagH (T : Kind) (mX : Handle)
  | delTag (T : Kind) (mI : Nat)
  | delTagH (T : Kind) (mX : Handle)
  | addComponent (T : Kind) (mI : Nat) (v : Val)
  | addComponentH (T : Kind) (mX : Handle) (v : Val)
  | delComponent (T : Kind) (mI : Nat)
  | delComponentH (T : Kind) (mX : Handle)
  | refresh
  | clear

/-- The state after a call; `none` when an assertion of the call fails or the call does not
return. -/
def Manager.step {Val : Type} [Inhabited Val] (S : Settings) (m : Manager Val) :
    Op Val → Option (Manager Val)
  | Op.createIndex => (m.createIndex S).map Prod.snd
  | Op.createHandle => (m.createHandle S).map Prod.snd
  | Op.kill mI => m.kill mI
  | Op.killH mX => m.killH mX
  | Op.addTag T mI => m.addTag S T mI
  | Op.addTagH T mX => m.addTagH S T mX
  | Op.delTag T mI => m.delTag S T mI
  | Op.delTagH T mX => m.delTagH S T mX
  | Op.addComponent T mI v => m.addComponent S T mI v
  | Op.addComponentH T mX v => m.addComponentH S T mX v
  | Op.delComponent T mI => m.delComponent S T mI
  | Op.delComponentH T mX => m.delComponentH S T mX
  | Op.refresh => m.refresh
  | Op.clear => m.clear S

/-- The state after a sequence of calls, all of which return. -/
def Manager.run {Val : Type} [Inhabited Val] (S : Settings) (m : Manager Val) :
    List (Op Val) → Option (Manager Val)
  | [] => some m
  | op :: ops =>
    match m.step S op with
    | some m1 => m1.run S ops
    | none => none

/-- The states of a `Manager`: those obtained from a newly constructed one by a finite
sequence of calls that return. -/
inductive Reachable {Val : Type} [Inhabited Val] (S : Settings) : Manager Val → Prop where
  | init (m : Manager Val) : Manager.new S = some m → Reachable S m
  | step (m m1 : Manager Val) (op : Op Val) :
      Reachable S m → m.step S op = some m1 → Reachable S m1

end ecs

namespace ecs
namespace Manager

variable {Val : Type}

/-! ## Invariants and specifications of the operations -/

/-- Both tables have `capacity` elements, every record's `handleDataIndex` and every slot's
`entityIndex` is below `capacity`, and the two maps are inverse to each other. -/
structure HInv (m : Manager Val) : Prop where
  entLen : m.entities.length = m.capacity
  hdLen : m.handleData.length = m.capacity
  hdiLt : ∀ i, i < m.capacity → (m.ent i).handleDataIndex < m.capacity
  back : ∀ i, i < m.capacity → (m.hd (m.ent i).handleDataIndex).entityIndex = i
  eiLt : ∀ j, j < m.capacity → (m.hd j).entityIndex < m.capacity
  fwd : ∀ j, j < m.capacity → (m.ent (m.hd j).entityIndex).handleDataIndex = j

/-- The state after the swap of `refreshImpl` and the three handle updates that follow it. -/
def swapStep (m : Manager Val) (iD iA : Nat) : Manager Val :=
  (((m.swapEnt iA iD).refreshHandle iD).invalidateHandle iA).refreshHandle iA

/-- The state `m` of a run of `refreshImpl` started in `m0`, when the records below `lo` are
known to be alive and the records in `[hi, sizeNext)` are the dead records handled so far:
each of them had its handle invalidated once, and no other counter changed. -/
structure Part (m0 m : Manager Val) (lo hi : Nat) : Prop where
  hinv : HInv m
  capEq : m.capacity = m0.capacity
  sizeEq : m.size = m0.size
  nextEq : m.sizeNext = m0.sizeNext
  compEq : m.components = m0.components
  loHi : lo ≤ hi
  hiLe : hi ≤ m0.sizeNext
  nextLe : m0.sizeNext ≤ m0.capacity
  aliveL : ∀ i, i < lo → (m.ent i).alive = true
  deadR : ∀ i, hi ≤ i → i < m0.sizeNext → (m.ent i).alive = false
  perm : m.entities.Perm m0.entities
  frame : ∀ i, m0.sizeNext ≤ i → m.ent i = m0.ent i
  ctr1 : ∀ i, hi ≤ i → i < m0.sizeNext →
    (m.hd (m.ent i).handleDataIndex).counter = Counter.incr (m0.hd (m.ent i).handleDataIndex).counter
  ctr0 : ∀ j, (∀ i, hi ≤ i → i < m0.sizeNext → (m.ent i).handleDataIndex ≠ j) →
    (m.hd j).counter = (m0.hd j).counter

/-- A bound on the number of loop iterations that `refreshImpl` still runs. -/
def budget : Phase → Nat → Nat → Nat
  | Phase.scanDead, iD, iA => 2 * (iA + 1 - iD) + 1
  | Phase.scanAlive, iD, iA => 2 * (iA + 1 - iD)

/-- The invariant of `Manager`:
the two tables reference each other (`HInv`), `size ≤ sizeNext ≤ capacity`, the records from
`sizeNext` on are dead, the data slots of the records are distinct and below `capacity`, there
is one component vector of length `capacity` per component kind, and every bitset has the
width fixed by the settings. -/
structure Inv (S : Settings) (m : Manager Val) : Prop where
  hinv : HInv m
  sizeLe : m.size ≤ m.sizeNext
  nextLe : m.sizeNext ≤ m.capacity
  deadTail : ∀ i, m.sizeNext ≤ i → i < m.capacity → (m.ent i).alive = false
  dataLt : ∀ e ∈ m.entities, e.dataIndex < m.capacity
  dataNodup : (m.entities.map Entity.dataIndex).Nodup
  compCount : m.components.length = S.componentCount
  compLen : ∀ v ∈ m.components, v.length = m.capacity
  bitsLen : ∀ e ∈ m.entities, e.bitset.length = S.bitCount

/-- What `growTo` does to a manager whose tables have `capacity` elements. -/
structure Grown (S : Settings) (m m1 : Manager Val) (n : Nat) : Prop where
  capEq : m1.capacity = n
  sizeEq : m1.size = m.size
  nextEq : m1.sizeNext = m.sizeNext
  entLen : m1.entities.length = n
  hdLen : m1.handleData.length = n
  entOld : ∀ i, i < m.capacity → m1.ent i = m.ent i
  entNew : ∀ i, m.capacity ≤ i → i < n → m1.ent i =
    Entity.init S i
  hdOld : ∀ j, j < m.capacity → m1.hd j = m.hd j
  hdNew : ∀ j, m.capacity ≤ j → j < n → m1.hd j = HandleData.init j

/-- What `refresh` does: `m1` is the state after `refresh()` called in state `m`. -/
structure Refreshed (m m1 : Manager Val) : Prop where
  hinv : HInv m1
  capEq : m1.capacity = m.capacity
  compEq : m1.components = m.components
  sizeEq : m1.size = m1.sizeNext
  nextLe : m1.sizeNext ≤ m.sizeNext
  aliveL : ∀ i, i < m1.size → (m1.ent i).alive = true
  deadR : ∀ i, m1.size ≤ i → i < m.sizeNext → (m1.ent i).alive = false
  perm : m1.entities.Perm m.entities
  frame : ∀ i, m.sizeNext ≤ i → m1.ent i = m.ent i
  ctr1 : ∀ i, m1.size ≤ i → i < m.sizeNext →
    (m1.hd (m1.ent i).handleDataIndex).counter = Counter.incr (m.hd (m1.ent i).handleDataIndex).counter
  ctr0 : ∀ j, (∀ i, m1.size ≤ i → i < m.sizeNext → (m1.ent i).handleDataIndex ≠ j) →
    (m1.hd j).counter = (m.hd j).counter

end Manager
end ecs

namespace ecs

/-- Whether a call is `clear()`. -/
def Op.isClear {Val : Type} : Op Val → Bool
  | Op.clear => true
  | _ => false

/-- Whether no counter of the handle table has reached `INT_MAX`, so that the next `++` on any
of them does not wrap. -/
def Manager.countersBelowMax {Val : Type} (m : Manager Val) : Bool :=
  m.handleData.all (fun d => decide (d.counter < 2147483647))

/-- The map `i ↦ entities[i].handleDataIndex` is a bijection of `[0, capacity)` onto itself and
the handle slot referenced by record `i` points back to `i`. -/
def Manager.HandleBij {Val : Type} (m : Manager Val) : Prop :=
  Set.BijOn (fun i => (m.ent i).handleDataIndex) (Set.Iio m.capacity) (Set.Iio m.capacity) ∧
    ∀ i, i < m.capacity → (m.hd (m.ent i).handleDataIndex).entityIndex = i

/-- The settings of the tests of the tutorial: components `C0..C4` (codes `0..4`), tags
`T0..T2` (codes `5..7`) and the signatures `S0 = <>`, `S1 = <C0, C1>`, `S2 = <C0, C4, T0>`,
`S3 = <C1, T0, C3, T2>`. -/
def testSettings : Settings :=
  { componentList := [0, 1, 2, 3, 4]
    tagList := [5, 6, 7]
    signatureList := [[], [0, 1], [0, 4, 5], [1, 5, 3, 7]] }

/-- A newly constructed manager for `testSettings`, with integer component values. -/
def testNew : Manager Int := (Manager.new testSettings).getD (Manager.empty testSettings)

/-- The state of a new test manager after a sequence of calls. -/
def testRun (ops : List (Op Int)) : Manager Int :=
  (testNew.run testSettings ops).getD testNew

/-- Three entities created, the first one killed. -/
def testThree : Manager Int :=
  testRun [Op.createIndex, Op.createIndex, Op.createIndex, Op.kill 0]

/-- The calls of the scenario "five entities created, the ones at indices 1 and 3 killed". -/
def testFiveOps : List (Op Int) :=
  [Op.createIndex, Op.createIndex, Op.createIndex, Op.createIndex, Op.createIndex,
    Op.kill 1, Op.kill 3]

/-- Five entities created, the ones at indices 1 and 3 killed. -/
def testFive : Manager Int := testRun testFiveOps

/-- The calls of the scenario "three entities created through handles, the first one killed". -/
def testHandlesOps : List (Op Int) :=
  [Op.createHandle, Op.createHandle, Op.createHandle, Op.kill 0]

/-- Three entities created through handles, the first one killed. -/
def testHandles : Manager Int := testRun testHandlesOps

/-- One entity created through a handle, with component `C1` of value `5`. -/
def testOne : Manager Int :=
  testRun [Op.createHandle, Op.addComponentH 1 { handleDataIndex := 0, counter := 0 } 5]

/-- The calls of the scenario "an entity is created through a handle, killed and reclaimed by
a refresh". -/
def testStaleOps : List (Op Int) :=
  [Op.createHandle, Op.killH { handleDataIndex := 0, counter := 0 }, Op.refresh]

/-- An entity was created through a handle, killed and reclaimed by a refresh. -/
def testStale : Manager Int := testRun testStaleOps

end ecs

namespace ecs

namespace Settings

/-- Modelled from the spec: `MPL::Contains<T, SignatureList>`; membership of the signature in
the signature list.  A signature is the list of the kinds it names. -/
def isSignature (S : Settings) (T : List Kind) : Bool := S.signatureList.contains T

/-- Modelled from the spec: `MPL::size<SignatureList>()`; the number of signatures. -/
def signatureCount (S : Settings) : Nat := S.signatureList.length

/-- Modelled from the spec: `MPL::IndexOf<T, SignatureList>`; the zero-based position of the
signature in the signature list. -/
def signatureID (S : Settings) (T : List Kind) : Nat := S.signatureList.indexOf T

/-- Modelled from the spec: `MPL::Filter<F, L>` (the header is not part of the sources) is the
list of the types of `L` that satisfy `F`, in their order.  This is the type list
`SignatureBitsets::SignatureComponents<TSignature>`, which the source defines as
`MPL::Filter<IsComponentFilter, TSignature>`. -/
def signatureComponents (S : Settings) (T : List Kind) : List Kind := T.filter S.isComponent

/-- Modelled from the spec: `MPL::Filter<F, L>` as in `signatureComponents`.  This is the type
list `SignatureBitsets::SignatureTags<TSignature>`, which the source defines as
`MPL::Filter<IsTagFilter, TSignature>`. -/
def signatureTags (S : Settings) (T : List Kind) : List Kind := T.filter S.isTag

end Settings

/-- Modelled from the spec: `MPL::forTypes<L>(f)` (the header is not part of the sources) calls
`f` on the types of `L` in their order; `s` is the state that the calls act on. -/
def forTypes {α σ : Type} (L : List α) (f : σ → α → σ) (s : σ) : σ := L.foldl f s

/-- Model of `operator&` of `std::bitset<N>`. -/
def Bitset.and (a b : Bitset) : Bitset := List.zipWith (fun x y => x && y) a b

/-- Model of the constructor `std::bitset<N>{"..."}` from a string of `0` and `1`, the most
significant bit first. -/
def Bitset.ofString (s : String) : Bitset := s.toList.reverse.map (fun c => c == '1')

/-- The member `SignatureBitsetsStorage::storage`: a tuple of `signatureCount()` bitsets,
indexed by `signatureID`. -/
abbrev SignatureBitsetsStorage := List Bitset

namespace SignatureBitsetsStorage

/-- Modelled from the spec: `MPL::Tuple<MPL::Repeat<n, Bitset>>` is a tuple of `n` bitsets.
This is the value-initialised member `storage`: `signatureCount()` bitsets, all zero. -/
def zero (S : Settings) : SignatureBitsetsStorage :=
  List.replicate S.signatureCount (Bitset.reset S.bitCount)

/-- Model of `SignatureBitsetsStorage::getSignatureBitset<T>()`, for a signature of the
signature list (the `static_assert` is modelled where a caller can violate it, in
`Manager.matchesSignature`). -/
def getSignatureBitset (S : Settings) (st : SignatureBitsetsStorage) (T : List Kind) : Bitset :=
  st.getD (S.signatureID T) []

/-- Model of `SignatureBitsetsStorage::initializeBitset<T>()`: the bitset of `T` is written in
place, first the bits of the components of `T`, then the bits of its tags. -/
def initializeBitset (S : Settings) (st : SignatureBitsetsStorage) (T : List Kind) :
    SignatureBitsetsStorage :=
  let b := getSignatureBitset S st T
  let b1 := forTypes (S.signatureComponents T) (fun b t => b.set (S.componentBit t) true) b
  let b2 := forTypes (S.signatureTags T) (fun b t => b.set (S.tagBit t) true) b1
  st.set (S.signatureID T) b2

/-- Model of the constructor `SignatureBitsetsStorage()`. -/
def new (S : Settings) : SignatureBitsetsStorage :=
  forTypes S.signatureList (initializeBitset S) (zero S)

end SignatureBitsetsStorage

/-- Bit `k` is required by the signature `T`: it is the bit of a component kind or of a tag
kind that `T` lists. -/
def Settings.requires (S : Settings) (T : List Kind) (k : Nat) : Prop :=
  (∃ C ∈ T, S.isComponent C = true ∧ k = S.componentBit C) ∨
    (∃ t ∈ T, S.isTag t = true ∧ k = S.tagBit t)

namespace Manager

variable {Val : Type}

/-- The member `Manager::signatureBitsets`: it is constructed with the manager and never
written afterwards, so it is a function of the settings. -/
def signatureBitsets (S : Settings) : SignatureBitsetsStorage := SignatureBitsetsStorage.new S

/-- Model of `Manager::matchesSignature<T>(EntityIndex)`. -/
def matchesSignature (S : Settings) (m : Manager Val) (T : List Kind) (mI : Nat) :
    Option Bool :=
  if S.isSignature T then
    match m.getEntity mI with
    | some e =>
      let signatureBitset := SignatureBitsetsStorage.getSignatureBitset S (signatureBitsets S) T
      some (decide (Bitset.and signatureBitset e.bitset = signatureBitset))
    | none => none
  else none

/-- The loop of `Manager::forEntities`, one iteration per unit of fuel, started at index `i`.
The callback `mFunction` acts on the manager and on the state of the caller, and fails when
one of its assertions fails; `size` is read again before every iteration. -/
def forEntitiesLoop {σ : Type} (mFunction : Nat → Manager Val × σ → Option (Manager Val × σ)) :
    Nat → Nat → Manager Val × σ → Option (Manager Val × σ)
  | 0, _, _ => none
  | fuel + 1, i, st =>
    if i < st.1.size then
      match mFunction i st with
      | some st1 => forEntitiesLoop mFunction fuel (i + 1) st1
      | none => none
    else some st

/-- Model of `Manager::forEntities`; `none` means that the callback failed or that the fuel
ran out. -/
def forEntities {σ : Type} (mFunction : Nat → Manager Val × σ → Option (Manager Val × σ))
    (fuel : Nat) (st : Manager Val × σ) : Option (Manager Val × σ) :=
  forEntitiesLoop mFunction fuel 0 st

/-- Model of `Manager::expandSignatureCall<T>` with `ExpandCallHelper::call`: the callback gets
the index and the components of the entity for the kinds of `SignatureComponents<T>`
(`MPL::Rename`, which is not part of the sources, passes the types of that list as the
parameter pack `Ts...`). -/
def expandSignatureCall [Inhabited Val] {σ : Type} (S : Settings) (T : List Kind)
    (mFunction : Nat → List Val → Manager Val × σ → Option (Manager Val × σ))
    (mI : Nat) (st : Manager Val × σ) : Option (Manager Val × σ) :=
  if S.isSignature T then
    match st.1.getEntity mI with
    | some e =>
      let di := e.dataIndex
      mFunction mI ((S.signatureComponents T).map (fun C => readComponent S st.1 C di)) st
    | none => none
  else none

/-- Model of `Manager::forEntitiesMatching<T>`. -/
def forEntitiesMatching [Inhabited Val] {σ : Type} (S : Settings) (T : List Kind)
    (mFunction : Nat → List Val → Manager Val × σ → Option (Manager Val × σ))
    (fuel : Nat) (st : Manager Val × σ) : Option (Manager Val × σ) :=
  if S.isSignature T then
    forEntities
      (fun i st1 =>
        match st1.1.matchesSignature S T i with
        | some true => expandSignatureCall S T mFunction i st1
        | some false => some st1
        | none => none)
      fuel st
  else none

end Manager

/-- Whether a call is `kill` (through an index or through a handle). -/
def Op.isKill {Val : Type} : Op Val → Bool
  | Op.kill _ => true
  | Op.killH _ => true
  | _ => false

/-- The entity index that a call kills in state `m`, if the call is a `kill`: the argument of
`kill(EntityIndex)`, or the index that the handle of `kill(const Handle&)` resolves to. -/
def Op.killTarget {Val : Type} (m : Manager Val) : Op Val → Option Nat
  | Op.kill mI => some mI
  | Op.killH mX => m.getEntityIndex mX
  | _ => none

/-- The entity indices killed by the calls `ops` run from the state `m`, in the order of the
calls. -/
def Manager.killed {Val : Type} [Inhabited Val] (S : Settings) :
    Manager Val → List (Op Val) → List Nat
  | _, [] => []
  | m, op :: ops =>
    match m.step S op with
    | some m1 => (op.killTarget m).toList ++ Manager.killed S m1 ops
    | none => []

/-- Whether a call is `refresh()` or `clear()`. -/
def Op.isRefreshOrClear {Val : Type} : Op Val → Bool
  | Op.refresh => true
  | Op.clear => true
  | _ => false

/-- Every entity record below `size` is alive. -/
def Manager.AliveBelowSize {Val : Type} (m : Manager Val) : Prop :=
  ∀ i, i < m.size → (m.ent i).alive = true

end ecs

namespace ecs

/-- Two entities for the signature tests: entity 0 owns `C0` and `C1`, entity 1 owns `C0`,
`C2`, `C4` and the tag `T0`; the manager is refreshed afterwards. -/
def testMatchOps : List (Op Int) :=
  [Op.createIndex, Op.createIndex, Op.addComponent 0 0 10, Op.addComponent 1 0 11,
    Op.addComponent 0 1 20, Op.addTag 5 1, Op.addComponent 4 1 24, Op.addComponent 2 1 22,
    Op.refresh]

/-- The state after `testMatchOps`. -/
def testMatch : Manager Int := testRun testMatchOps

end ecs

namespace ecs

/-- An entity with component `C1` of value `5` is created, killed and reclaimed by a refresh. -/
def testReclaimedOps : List (Op Int) :=
  [Op.createIndex, Op.addComponent 1 0 5, Op.kill 0, Op.refresh]

/-- The state after `testReclaimedOps`: the slot at index `0` is free again and its record
still has the bit of `C1`. -/
def testReclaimed : Manager Int := testRun testReclaimedOps

end ecs

namespace ecs

/-- The callback that records the index it is called on and leaves the manager alone. -/
def recordIndex {Val : Type} (i : Nat) (st : Manager Val × List Nat) :
    Option (Manager Val × List Nat) :=
  some (st.1, st.2 ++ [i])

/-- The callback of `forEntitiesMatching` that records the arguments it is called with and
leaves the manager alone. -/
def recordCall {Val : Type} (i : Nat) (vs : List Val)
    (st : Manager Val × List (Nat × List Val)) : Option (Manager Val × List (Nat × List Val)) :=
  some (st.1, st.2 ++ [(i, vs)])

/-- A callback of `forEntitiesMatching` that does not modify the manager: it acts on the state
of the caller only, as `g` says. -/
def pureCallback {Val σ : Type} (g : Nat → List Val → σ → σ) (i : Nat) (vs : List Val)
    (st : Manager Val × σ) : Option (Manager Val × σ) :=
  some (st.1, g i vs st.2)

/-- The arguments that `expandSignatureCall<T>` passes after the index: the components of
entity `i` for the component kinds of `T`, in the order of `T`. -/
def Manager.signatureArgs {Val : Type} [Inhabited Val] (S : Settings) (m : Manager Val)
    (T : List Kind) (i : Nat) : List Val :=
  (T.filter S.isComponent).map (fun C => Manager.readComponent S m C (m.ent i).dataIndex)

/-- One entity is created, becomes visible by a refresh, and is killed. -/
def testKilledOps : List (Op Int) := [Op.createIndex, Op.refresh, Op.kill 0]

/-- The state after `testKilledOps`. -/
def testKilled : Manager Int := testRun testKilledOps

end ecs

namespace ecs

/-- The calls of the scenario "one hundred entities created on a new manager". -/
def testFullOps : List (Op Int) := List.replicate 100 Op.createIndex

/-- A new test manager filled up to its initial capacity. -/
def testFull : Manager Int := testRun testFullOps

/-- Two entities created on a new test manager. -/
def testTwo : Manager Int := testRun [Op.createIndex, Op.createIndex]

/-- The calls of the scenario "two entities created, tag `T0` added to the first one, then a
refresh". -/
def testTaggedOps : List (Op Int) :=
  [Op.createIndex, Op.createIndex, Op.addTag 5 0, Op.refresh]

/-- Two entities created, tag `T0` added to the first one, then a refresh. -/
def testTagged : Manager Int := testRun testTaggedOps

/-- The calls of the scenario "three entities created, component `C1` of value `9` added to the
last one, the first one killed". -/
def testPayloadOps : List (Op Int) :=
  [Op.createIndex, Op.createIndex, Op.createIndex, Op.addComponent 1 2 9, Op.kill 0]

/-- Three entities created, component `C1` of value `9` added to the last one, the first one
killed. -/
def testPayload : Manager Int := testRun testPayloadOps

end ecs

namespace ecs

/-- What a run of `refreshImpl` does that can be observed from outside: a subscript used on
`entities`, a subscript used on `handleData`, or the start of an iteration of the outer
`while(true)` loop with the values of `iD` and `iA` at that point. -/
inductive Event where
  | entity (i : Nat)
  | handle (j : Nat)
  | outer (iD iA : Nat)
deriving DecidableEq

/-- The `(iD, iA)` pairs of the outer-loop iterations recorded in a trace. -/
def outers : List Event → List (Nat × Nat)
  | [] => []
  | Event.outer a b :: l => (a, b) :: outers l
  | Event.entity _ :: l => outers l
  | Event.handle _ :: l => outers l

namespace Manager

variable {Val : Type}

/-- The subscripts used by `invalidateHandle(mX)` and by `refreshHandle(mX)` when called in
state `m`: both evaluate `handleData[entities[mX].handleDataIndex]`. -/
def handleAccess (m : Manager Val) (mX : Nat) : List Event :=
  [Event.entity mX, Event.handle (m.ent mX).handleDataIndex]

/-- The loops of `Manager::refreshImpl` as in `refreshLoop`, with the two assertions before
the swap checked (a failing assertion gives `none`) and with the trace of the subscripts used
and of the outer-loop iterations started, appended to `log`. -/
def refreshLoopTraced :
    Nat → Phase → Manager Val → Nat → Nat → List Event → Option (Nat × Manager Val × List Event)
  | 0, _, _, _, _, _ => none
  | fuel + 1, Phase.scanDead, m, iD, iA, log =>
    if iD > iA then some (iD, m, log)
    else if !(m.ent iD).alive then
      refreshLoopTraced fuel Phase.scanAlive m iD iA (log ++ [Event.entity iD])
    else refreshLoopTraced fuel Phase.scanDead m (iD + 1) iA (log ++ [Event.entity iD])
  | fuel + 1, Phase.scanAlive, m, iD, iA, log =>
    if (m.ent iA).alive then
      if (m.ent iA).alive && !(m.ent iD).alive then
        let m1 := m.swapEnt iA iD
        let m2 := m1.refreshHandle iD
        let m3 := m2.invalidateHandle iA
        let m4 := m3.refreshHandle iA
        let log1 := log ++ [Event.entity iA, Event.entity iA, Event.entity iD, Event.entity iA,
          Event.entity iD] ++ handleAccess m1 iD ++ handleAccess m2 iA ++ handleAccess m3 iA
        if iA = 0 then none
        else
          refreshLoopTraced fuel Phase.scanDead m4 (iD + 1) (iA - 1)
            (log1 ++ [Event.outer (iD + 1) (iA - 1)])
      else none
    else
      let m1 := m.invalidateHandle iA
      let log1 := log ++ [Event.entity iA] ++ handleAccess m iA
      if iA ≤ iD then some (iD, m1, log1)
      else refreshLoopTraced fuel Phase.scanAlive m1 iD (iA - 1) log1

/-- Model of `Manager::refreshImpl` with its trace; the first outer-loop iteration starts with
`iD = 0` and `iA = sizeNext - 1`. -/
def refreshImplTraced (m : Manager Val) : Option (Nat × Manager Val × List Event) :=
  refreshLoopTraced (2 * m.sizeNext + 1) Phase.scanDead m 0 (m.sizeNext - 1)
    [Event.outer 0 (m.sizeNext - 1)]

/-- The state `m` of a run of `refreshImpl` started in `m0`, seen from the records: the records
in `[lo, hi)` were not touched, an alive record below `lo` was not touched either, and every
alive record from `hi` on was moved to an index below `lo`. -/
structure Kept (m0 m : Manager Val) (lo hi : Nat) : Prop where
  len : m.entities.length = m0.entities.length
  mid : ∀ i, lo ≤ i → i < hi → m.ent i = m0.ent i
  left : ∀ i, i < lo → (m0.ent i).alive = true → m.ent i = m0.ent i
  right : ∀ i, hi ≤ i → i < m0.sizeNext → (m0.ent i).alive = true →
    ∃ k, k < lo ∧ m.ent k = m0.ent i

end Manager

/-! ## The compaction of p4.cpp and p5.cpp, without handles -/

namespace P5

/-- Model of `Impl::Entity` of p5.cpp: the record of p7.cpp without `handleDataIndex`. -/
structure Entity where
  dataIndex : Nat
  bitset : Bitset
  alive : Bool
deriving DecidableEq

/-- A value-initialised record, the result of a read outside the vector. -/
def Entity.zero : Entity := { dataIndex := 0, bitset := [], alive := false }

/-- Model of `std::swap(entities[a], entities[b])` on the entity vector of p5.cpp. -/
def swapEnt (es : List Entity) (a b : Nat) : List Entity :=
  (es.set a (es.getD b Entity.zero)).set b (es.getD a Entity.zero)

/-- The nested loops of `Manager::refreshImpl` of p5.cpp (the same code as in p4.cpp), one
loop iteration per unit of fuel, on the entity vector, which is the only member that the
function writes.  As in `Manager.refreshLoop`, `none` means that the fuel ran out or that
`--iA` was executed at `iA == 0`. -/
def refreshLoop : Nat → Manager.Phase → List Entity → Nat → Nat → Option (Nat × List Entity)
  | 0, _, _, _, _ => none
  | fuel + 1, Manager.Phase.scanDead, es, iD, iA =>
    if iD > iA then some (iD, es)
    else if !(es.getD iD Entity.zero).alive then refreshLoop fuel Manager.Phase.scanAlive es iD iA
    else refreshLoop fuel Manager.Phase.scanDead es (iD + 1) iA
  | fuel + 1, Manager.Phase.scanAlive, es, iD, iA =>
    if (es.getD iA Entity.zero).alive then
      let es1 := swapEnt es iA iD
      if iA = 0 then none
      else refreshLoop fuel Manager.Phase.scanDead es1 (iD + 1) (iA - 1)
    else
      if iA ≤ iD then some (iD, es)
      else refreshLoop fuel Manager.Phase.scanAlive es iD (iA - 1)

/-- Model of `Manager::refreshImpl` of p5.cpp, called with `sizeNext > 0`. -/
def refreshImpl (es : List Entity) (sizeNext : Nat) : Option (Nat × List Entity) :=
  refreshLoop (2 * sizeNext + 1) Manager.Phase.scanDead es 0 (sizeNext - 1)

end P5

/-- The record of p5.cpp that a record of p7.cpp stands for: the `handleDataIndex` field is
dropped. -/
def Entity.forget (e : Entity) : P5.Entity :=
  { dataIndex := e.dataIndex, bitset := e.bitset, alive := e.alive }

/-- Five entities created, the ones at indices 1 and 3 killed, then a refresh. -/
def testFiveRefreshed : Manager Int := testRun (testFiveOps ++ [Op.refresh])

/-- The calls of the scenario "two entities created, the first one killed and reclaimed, then
the survivor killed". -/
def testOrphanOps : List (Op Int) :=
  [Op.createIndex, Op.createIndex, Op.kill 0, Op.refresh, Op.kill 0]

/-- Two entities created, the first one killed and reclaimed, then the survivor killed: the
only record below `sizeNext = 1` is dead and refers to handle slot 1. -/
def testOrphan : Manager Int := testRun testOrphanOps

/-- The calls of the test of p4.cpp: two entities created, tag `T0` added to the first, `T1`
added to the second, `T0` removed from the first. -/
def testTagsOps : List (Op Int) :=
  [Op.createIndex, Op.createIndex, Op.addTag 5 0, Op.addTag 6 1, Op.delTag 5 0]

/-- The state of the test of p4.cpp before its `refresh()`. -/
def testTags : Manager Int := testRun testTagsOps

end ecs

namespace ecs

/-! ## The 32-bit counter -/

theorem Counter.le_incr {c : Int} (h : c < 2147483647) : c ≤ Counter.incr c := by
  simp only [Counter.incr]
  omega

theorem Counter.incr_ne (c : Int) : Counter.incr c ≠ c := by
  simp only [Counter.incr]
  omega

theorem getD_set {α : Type} (l : List α) (i j : Nat) (a d : α) :
    (l.set i a).getD j d = if i = j ∧ i < l.length then a else l.getD j d := by
  simp only [List.getD_eq_getElem?_getD, List.getElem?_set]
  by_cases h : i = j
  · subst h
    by_cases h2 : i < l.length
    · simp [h2]
    · simp [h2, List.getElem?_eq_none (Nat.le_of_not_lt h2)]
  · simp [h]

theorem getD_mem {α : Type} (l : List α) (i : Nat) (d : α) (h : i < l.length) :
    l.getD i d ∈ l := by
  rw [List.getD_eq_getElem _ _ h]
  exact List.getElem_mem h

theorem exists_getD_of_mem {α : Type} (l : List α) (d x : α) (h : x ∈ l) :
    ∃ i, i < l.length ∧ l.getD i d = x := by
  obtain ⟨i, hi, rfl⟩ := List.getElem_of_mem h
  exact ⟨i, hi, List.getD_eq_getElem _ _ hi⟩

theorem swap_perm {α : Type} [DecidableEq α] (l : List α) (a b : Nat) (d : α)
    (ha : a < l.length) (hb : b < l.length) :
    ((l.set a (l.getD b d)).set b (l.getD a d)).Perm l := by
  rw [List.perm_iff_count]
  intro x
  rw [List.getD_eq_getElem _ _ ha, List.getD_eq_getElem _ _ hb]
  have hb2 : b < (l.set a l[b]).length := by simpa using hb
  rw [List.count_set _ _ _ _ hb2, List.count_set _ _ _ _ ha]
  have pa : l[a] = x → 0 < l.count x := fun h =>
    List.count_pos_iff.mpr (h ▸ List.getElem_mem ha)
  have pb : l[b] = x → 0 < l.count x := fun h =>
    List.count_pos_iff.mpr (h ▸ List.getElem_mem hb)
  have h1 : (l.set a l[b])[b] = if a = b then l[b] else l[b] := by
    rw [List.getElem_set]
  simp only [ite_self] at h1
  rw [h1]
  simp only [beq_iff_eq]
  by_cases hxa : l[a] = x <;> by_cases hxb : l[b] = x <;>
    simp only [hxa, hxb, if_true, if_false] <;>
    first
    | omega
    | (have h3 := pa hxa; omega)

namespace Manager

variable {Val : Type}

/-! ## Reads after the elementary writes -/

@[simp]
theorem setEnt_capacity (m : Manager Val) (i : Nat) (e : Entity) :
    (m.setEnt i e).capacity = m.capacity := rfl
@[simp]
theorem setEnt_size (m : Manager Val) (i : Nat) (e : Entity) :
    (m.setEnt i e).size = m.size := rfl
@[simp]
theorem setEnt_sizeNext (m : Manager Val) (i : Nat) (e : Entity) :
    (m.setEnt i e).sizeNext = m.sizeNext := rfl
@[simp]
theorem setEnt_components (m : Manager Val) (i : Nat) (e : Entity) :
    (m.setEnt i e).components = m.components := rfl
@[simp]
theorem setEnt_handleData (m : Manager Val) (i : Nat) (e : Entity) :
    (m.setEnt i e).handleData = m.handleData := rfl
@[simp]
theorem setEnt_hd (m : Manager Val) (i : Nat) (e : Entity) (j : Nat) :
    (m.setEnt i e).hd j = m.hd j := rfl
@[simp]
theorem setEnt_entities_length (m : Manager Val) (i : Nat) (e : Entity) :
    (m.setEnt i e).entities.length = m.entities.length := by
  simp [setEnt]

theorem setEnt_ent (m : Manager Val) (i : Nat) (e : Entity) (j : Nat) :
    (m.setEnt i e).ent j = if i = j ∧ i < m.entities.length then e else m.ent j := by
  simp only [ent, setEnt, getD_set]

@[simp]
theorem setHd_capacity (m : Manager Val) (j : Nat) (d : HandleData) :
    (m.setHd j d).capacity = m.capacity := rfl
@[simp]
theorem setHd_size (m : Manager Val) (j : Nat) (d : HandleData) :
    (m.setHd j d).size = m.size := rfl
@[simp]
theorem setHd_sizeNext (m : Manager Val) (j : Nat) (d : HandleData) :
    (m.setHd j d).sizeNext = m.sizeNext := rfl
@[simp]
theorem setHd_components (m : Manager Val) (j : Nat) (d : HandleData) :
    (m.setHd j d).components = m.components := rfl
@[simp]
theorem setHd_entities (m : Manager Val) (j : Nat) (d : HandleData) :
    (m.setHd j d).entities = m.entities := rfl
@[simp]
theorem setHd_ent (m : Manager Val) (j : Nat) (d : HandleData) (i : Nat) :
    (m.setHd j d).ent i = m.ent i := rfl
@[simp]
theorem setHd_handleData_length (m : Manager Val) (j : Nat) (d : HandleData) :
    (m.setHd j d).handleData.length = m.handleData.length := by
  simp [setHd]

theorem setHd_hd (m : Manager Val) (j : Nat) (d : HandleData) (k : Nat) :
    (m.setHd j d).hd k = if j = k ∧ j < m.handleData.length then d else m.hd k := by
  simp only [hd, setHd, getD_set]

theorem ent_mem (m : Manager Val) (i : Nat) (h : i < m.entities.length) :
    m.ent i ∈ m.entities := getD_mem _ _ _ h

theorem exists_ent_of_mem (m : Manager Val) (e : Entity) (h : e ∈ m.entities) :
    ∃ i, i < m.entities.length ∧ m.ent i = e := exists_getD_of_mem _ _ _ h

/-! ## The handle-table helpers of `refreshImpl` -/

@[simp]
theorem invalidateHandle_capacity (m : Manager Val) (x : Nat) :
    (m.invalidateHandle x).capacity = m.capacity := rfl
@[simp]
theorem invalidateHandle_size (m : Manager Val) (x : Nat) :
    (m.invalidateHandle x).size = m.size := rfl
@[simp]
theorem invalidateHandle_sizeNext (m : Manager Val) (x : Nat) :
    (m.invalidateHandle x).sizeNext = m.sizeNext := rfl
@[simp]
theorem invalidateHandle_components (m : Manager Val) (x : Nat) :
    (m.invalidateHandle x).components = m.components := rfl
@[simp]
theorem invalidateHandle_entities (m : Manager Val) (x : Nat) :
    (m.invalidateHandle x).entities = m.entities := rfl
@[simp]
theorem invalidateHandle_ent (m : Manager Val) (x i : Nat) :
    (m.invalidateHandle x).ent i = m.ent i := rfl
@[simp]
theorem invalidateHandle_handleData_length (m : Manager Val) (x : Nat) :
    (m.invalidateHandle x).handleData.length = m.handleData.length := by
  simp [invalidateHandle]

theorem invalidateHandle_hd (m : Manager Val) (x k : Nat) :
    (m.invalidateHandle x).hd k =
      if (m.ent x).handleDataIndex = k ∧ (m.ent x).handleDataIndex < m.handleData.length then
        { entityIndex := (m.hd k).entityIndex, counter := Counter.incr (m.hd k).counter }
      else m.hd k := by
  simp only [invalidateHandle, setHd_hd]
  split
  · rename_i h; rw [h.1]
  · rfl

@[simp]
theorem refreshHandle_capacity (m : Manager Val) (x : Nat) :
    (m.refreshHandle x).capacity = m.capacity := rfl
@[simp]
theorem refreshHandle_size (m : Manager Val) (x : Nat) :
    (m.refreshHandle x).size = m.size := rfl
@[simp]
theorem refreshHandle_sizeNext (m : Manager Val) (x : Nat) :
    (m.refreshHandle x).sizeNext = m.sizeNext := rfl
@[simp]
theorem refreshHandle_components (m : Manager Val) (x : Nat) :
    (m.refreshHandle x).components = m.components := rfl
@[simp]
theorem refreshHandle_entities (m : Manager Val) (x : Nat) :
    (m.refreshHandle x).entities = m.entities := rfl
@[simp]
theorem refreshHandle_ent (m : Manager Val) (x i : Nat) :
    (m.refreshHandle x).ent i = m.ent i := rfl
@[simp]
theorem refreshHandle_handleData_length (m : Manager Val) (x : Nat) :
    (m.refreshHandle x).handleData.length = m.handleData.length := by
  simp [refreshHandle]

theorem refreshHandle_hd (m : Manager Val) (x k : Nat) :
    (m.refreshHandle x).hd k =
      if (m.ent x).handleDataIndex = k ∧ (m.ent x).handleDataIndex < m.handleData.length then
        { entityIndex := x, counter := (m.hd k).counter }
      else m.hd k := by
  simp only [refreshHandle, setHd_hd]
  split
  · rename_i h; rw [h.1]
  · rfl

@[simp]
theorem swapEnt_capacity (m : Manager Val) (a b : Nat) :
    (m.swapEnt a b).capacity = m.capacity := rfl
@[simp]
theorem swapEnt_size (m : Manager Val) (a b : Nat) :
    (m.swapEnt a b).size = m.size := rfl
@[simp]
theorem swapEnt_sizeNext (m : Manager Val) (a b : Nat) :
    (m.swapEnt a b).sizeNext = m.sizeNext := rfl
@[simp]
theorem swapEnt_components (m : Manager Val) (a b : Nat) :
    (m.swapEnt a b).components = m.components := rfl
@[simp]
theorem swapEnt_handleData (m : Manager Val) (a b : Nat) :
    (m.swapEnt a b).handleData = m.handleData := rfl
@[simp]
theorem swapEnt_hd (m : Manager Val) (a b j : Nat) :
    (m.swapEnt a b).hd j = m.hd j := rfl
@[simp]
theorem swapEnt_entities_length (m : Manager Val) (a b : Nat) :
    (m.swapEnt a b).entities.length = m.entities.length := by
  simp [swapEnt]

theorem swapEnt_ent (m : Manager Val) (a b i : Nat)
    (ha : a < m.entities.length) (hb : b < m.entities.length) :
    (m.swapEnt a b).ent i =
      if i = b then m.ent a else if i = a then m.ent b else m.ent i := by
  simp only [swapEnt, setEnt_ent, setEnt_entities_length]
  by_cases h1 : i = b
  · subst h1; simp [hb]
  · by_cases h2 : i = a
    · subst h2; simp [ha, h1, Ne.symm h1]
    · simp [h1, h2, Ne.symm h1, Ne.symm h2]

theorem swapEnt_perm (m : Manager Val) (a b : Nat)
    (ha : a < m.entities.length) (hb : b < m.entities.length) :
    (m.swapEnt a b).entities.Perm m.entities := by
  simp only [swapEnt, setEnt, ent]
  exact swap_perm m.entities a b Entity.zero ha hb

end Manager

end ecs

namespace ecs
namespace Manager

variable {Val : Type}

/-! ## The entity table and the handle table reference each other -/

theorem HInv.hdi_inj {m : Manager Val} (h : HInv m) {i k : Nat} (hi : i < m.capacity)
    (hk : k < m.capacity) (e : (m.ent i).handleDataIndex = (m.ent k).handleDataIndex) :
    i = k := by
  have h1 := h.back i hi
  have h2 := h.back k hk
  rw [e] at h1
  omega

theorem invalidateHandle_hd_of {m : Manager Val} (h : HInv m) {x : Nat} (hx : x < m.capacity)
    (k : Nat) :
    (m.invalidateHandle x).hd k =
      if (m.ent x).handleDataIndex = k then
        { entityIndex := (m.hd k).entityIndex, counter := Counter.incr (m.hd k).counter }
      else m.hd k := by
  rw [invalidateHandle_hd]
  have := h.hdiLt x hx
  rw [← h.hdLen] at this
  simp [this]

theorem refreshHandle_hd_of {m : Manager Val} (h : HInv m) {x : Nat} (hx : x < m.capacity)
    (k : Nat) :
    (m.refreshHandle x).hd k =
      if (m.ent x).handleDataIndex = k then
        { entityIndex := x, counter := (m.hd k).counter }
      else m.hd k := by
  rw [refreshHandle_hd]
  have := h.hdiLt x hx
  rw [← h.hdLen] at this
  simp [this]

theorem HInv.afterInvalidate {m : Manager Val} (h : HInv m) {x : Nat} (hx : x < m.capacity) :
    HInv (m.invalidateHandle x) where
  entLen := by simpa using h.entLen
  hdLen := by simpa using h.hdLen
  hdiLt := by simpa using h.hdiLt
  back := by
    intro i hi
    have := h.back i hi
    simp only [invalidateHandle_ent, invalidateHandle_capacity, invalidateHandle_hd_of h hx]
    split <;> simpa using this
  eiLt := by
    intro j hj
    have := h.eiLt j hj
    simp only [invalidateHandle_capacity, invalidateHandle_hd_of h hx]
    split <;> simpa using this
  fwd := by
    intro j hj
    have := h.fwd j hj
    simp only [invalidateHandle_ent, invalidateHandle_hd_of h hx]
    split <;> simpa using this

@[simp]
theorem swapStep_capacity (m : Manager Val) (iD iA : Nat) :
    (m.swapStep iD iA).capacity = m.capacity := rfl
@[simp]
theorem swapStep_size (m : Manager Val) (iD iA : Nat) :
    (m.swapStep iD iA).size = m.size := rfl
@[simp]
theorem swapStep_sizeNext (m : Manager Val) (iD iA : Nat) :
    (m.swapStep iD iA).sizeNext = m.sizeNext := rfl
@[simp]
theorem swapStep_components (m : Manager Val) (iD iA : Nat) :
    (m.swapStep iD iA).components = m.components := rfl
@[simp]
theorem swapStep_entities (m : Manager Val) (iD iA : Nat) :
    (m.swapStep iD iA).entities = (m.swapEnt iA iD).entities := rfl
@[simp]
theorem swapStep_handleData_length (m : Manager Val) (iD iA : Nat) :
    (m.swapStep iD iA).handleData.length = m.handleData.length := by
  simp [swapStep]

theorem swapStep_ent {m : Manager Val} (h : HInv m) {iD iA : Nat} (hD : iD < m.capacity)
    (hA : iA < m.capacity) (i : Nat) :
    (m.swapStep iD iA).ent i =
      if i = iD then m.ent iA else if i = iA then m.ent iD else m.ent i := by
  have e : (m.swapStep iD iA).ent i = (m.swapEnt iA iD).ent i := rfl
  rw [e, swapEnt_ent m iA iD i (by rw [h.entLen]; exact hA) (by rw [h.entLen]; exact hD)]

theorem swapStep_hd {m : Manager Val} (h : HInv m) {iD iA : Nat} (hD : iD < m.capacity)
    (hA : iA < m.capacity) (hne : iD ≠ iA) (k : Nat) :
    (m.swapStep iD iA).hd k =
      if k = (m.ent iD).handleDataIndex then
        { entityIndex := iA, counter := Counter.incr (m.hd k).counter }
      else if k = (m.ent iA).handleDataIndex then
        { entityIndex := iD, counter := (m.hd k).counter }
      else m.hd k := by
  have hlen : (m.ent iD).handleDataIndex < m.handleData.length := by
    rw [h.hdLen]; exact h.hdiLt iD hD
  have hlen2 : (m.ent iA).handleDataIndex < m.handleData.length := by
    rw [h.hdLen]; exact h.hdiLt iA hA
  have hEL := h.entLen
  have hinj : (m.ent iD).handleDataIndex ≠ (m.ent iA).handleDataIndex :=
    fun e => hne (h.hdi_inj hD hA e)
  have e1 : (m.swapEnt iA iD).ent iD = m.ent iA := by
    rw [swapEnt_ent m iA iD iD (by omega) (by omega)]; simp
  have e2 : (m.swapEnt iA iD).ent iA = m.ent iD := by
    rw [swapEnt_ent m iA iD iA (by omega) (by omega)]; simp [Ne.symm hne]
  simp only [swapStep, refreshHandle_hd, invalidateHandle_hd, refreshHandle_ent,
    invalidateHandle_ent, refreshHandle_handleData_length, invalidateHandle_handleData_length,
    swapEnt_hd, swapEnt_handleData, e1, e2, hlen, hlen2, and_true]
  by_cases hk1 : k = (m.ent iD).handleDataIndex
  · subst hk1
    simp [hinj, Ne.symm hinj]
  · by_cases hk2 : k = (m.ent iA).handleDataIndex
    · subst hk2
      simp [hinj, Ne.symm hinj]
    · simp [hk1, hk2, Ne.symm hk1, Ne.symm hk2]

theorem HInv.afterSwap {m : Manager Val} (h : HInv m) {iD iA : Nat} (hD : iD < m.capacity)
    (hA : iA < m.capacity) (hne : iD ≠ iA) : HInv (m.swapStep iD iA) where
  entLen := by simpa using h.entLen
  hdLen := by simpa using h.hdLen
  hdiLt := by
    intro i hi
    simp only [swapStep_capacity] at hi ⊢
    rw [swapStep_ent h hD hA]
    split
    · exact h.hdiLt iA hA
    · split
      · exact h.hdiLt iD hD
      · exact h.hdiLt i hi
  back := by
    intro i hi
    simp only [swapStep_capacity] at hi
    rw [swapStep_ent h hD hA, swapStep_hd h hD hA hne]
    have hinj : (m.ent iD).handleDataIndex ≠ (m.ent iA).handleDataIndex :=
      fun e => hne (h.hdi_inj hD hA e)
    by_cases h1 : i = iD
    · subst h1
      simp [Ne.symm hinj]
    · by_cases h2 : i = iA
      · subst h2
        simp [h1]
      · have n1 : (m.ent i).handleDataIndex ≠ (m.ent iD).handleDataIndex :=
          fun e => h1 (h.hdi_inj hi hD e)
        have n2 : (m.ent i).handleDataIndex ≠ (m.ent iA).handleDataIndex :=
          fun e => h2 (h.hdi_inj hi hA e)
        simp [h1, h2, n1, n2, h.back i hi]
  eiLt := by
    intro j hj
    simp only [swapStep_capacity] at hj ⊢
    rw [swapStep_hd h hD hA hne]
    split
    · exact hA
    · split
      · exact hD
      · exact h.eiLt j hj
  fwd := by
    intro j hj
    simp only [swapStep_capacity] at hj
    rw [swapStep_hd h hD hA hne]
    by_cases h1 : j = (m.ent iD).handleDataIndex
    · rw [if_pos h1, swapStep_ent h hD hA]
      simp [Ne.symm hne, h1]
    · by_cases h2 : j = (m.ent iA).handleDataIndex
      · rw [if_neg h1, if_pos h2, swapStep_ent h hD hA]
        simp [h2]
      · rw [if_neg h1, if_neg h2, swapStep_ent h hD hA]
        have f := h.fwd j hj
        have n1 : (m.hd j).entityIndex ≠ iD := by
          intro e; rw [e] at f; exact h1 f.symm
        have n2 : (m.hd j).entityIndex ≠ iA := by
          intro e; rw [e] at f; exact h2 f.symm
        simp [n1, n2, f]

end Manager
end ecs

namespace ecs
namespace Manager

variable {Val : Type}

/-! ## The loop invariant of `refreshImpl` -/

theorem Part.init {m0 : Manager Val} (h : HInv m0) (hn : m0.sizeNext ≤ m0.capacity) :
    Part m0 m0 0 m0.sizeNext where
  hinv := h
  capEq := rfl
  sizeEq := rfl
  nextEq := rfl
  compEq := rfl
  loHi := Nat.zero_le _
  hiLe := Nat.le_refl _
  nextLe := hn
  aliveL := fun _ hi => absurd hi (Nat.not_lt_zero _)
  deadR := fun _ h1 h2 => absurd h2 (Nat.not_lt.mpr h1)
  perm := List.Perm.refl _
  frame := fun _ _ => rfl
  ctr1 := fun _ h1 h2 => absurd h2 (Nat.not_lt.mpr h1)
  ctr0 := fun _ _ => rfl

theorem Part.castHi {m0 m : Manager Val} {lo hi hi2 : Nat} (p : Part m0 m lo hi)
    (e : hi = hi2) : Part m0 m lo hi2 := e ▸ p

theorem Part.aliveStep {m0 m : Manager Val} {lo hi : Nat} (p : Part m0 m lo hi)
    (hlt : lo < hi) (ha : (m.ent lo).alive = true) : Part m0 m (lo + 1) hi :=
  { p with
    loHi := hlt
    aliveL := by
      intro i hi
      by_cases e : i = lo
      · rw [e]; exact ha
      · exact p.aliveL i (by omega) }

theorem Part.invalidated {m0 m : Manager Val} {lo x : Nat} (p : Part m0 m lo (x + 1))
    (hle : lo ≤ x) (hdead : (m.ent x).alive = false) :
    Part m0 (m.invalidateHandle x) lo x := by
  have hx : x < m.capacity := by
    have := p.hiLe; have := p.nextLe; have := p.capEq; omega
  have hcap := p.capEq
  have hnl := p.nextLe
  refine
    { hinv := p.hinv.afterInvalidate hx
      capEq := p.capEq
      sizeEq := p.sizeEq
      nextEq := p.nextEq
      compEq := p.compEq
      loHi := hle
      hiLe := by have := p.hiLe; omega
      nextLe := p.nextLe
      aliveL := p.aliveL
      deadR := ?_
      perm := p.perm
      frame := p.frame
      ctr1 := ?_
      ctr0 := ?_ }
  · intro i h1 h2
    by_cases e : i = x
    · rw [e]; exact hdead
    · exact p.deadR i (by omega) h2
  · intro i h1 h2
    simp only [invalidateHandle_ent, invalidateHandle_hd_of p.hinv hx]
    by_cases e : i = x
    · subst e
      simp only [if_true]
      have := p.ctr0 (m.ent i).handleDataIndex (by
        intro k hk1 hk2 e2
        have := p.hinv.hdi_inj (i := k) (k := i) (by omega) hx e2
        omega)
      rw [this]
    · have ne : (m.ent x).handleDataIndex ≠ (m.ent i).handleDataIndex := by
        intro e2
        exact e (p.hinv.hdi_inj (by omega) hx e2.symm)
      rw [if_neg ne]
      exact p.ctr1 i (by omega) h2
  · intro j hj
    simp only [invalidateHandle_ent] at hj
    simp only [invalidateHandle_hd_of p.hinv hx]
    have ne : (m.ent x).handleDataIndex ≠ j := hj x (Nat.le_refl _) (by have := p.hiLe; omega)
    rw [if_neg ne]
    exact p.ctr0 j (fun i h1 h2 => hj i (by omega) h2)

theorem Part.swapped {m0 m : Manager Val} {lo x : Nat} (p : Part m0 m lo (x + 1))
    (hlt : lo < x) (ha : (m.ent x).alive = true) (hdead : (m.ent lo).alive = false) :
    Part m0 (m.swapStep lo x) (lo + 1) x := by
  have hcap := p.capEq
  have hnl := p.nextLe
  have hhi := p.hiLe
  have hx : x < m.capacity := by omega
  have hlo : lo < m.capacity := by omega
  have hne : lo ≠ x := by omega
  have hE := swapStep_ent p.hinv hlo hx
  have hH := swapStep_hd p.hinv hlo hx hne
  refine
    { hinv := p.hinv.afterSwap hlo hx hne
      capEq := p.capEq
      sizeEq := p.sizeEq
      nextEq := p.nextEq
      compEq := p.compEq
      loHi := hlt
      hiLe := by omega
      nextLe := p.nextLe
      aliveL := ?_
      deadR := ?_
      perm := ?_
      frame := ?_
      ctr1 := ?_
      ctr0 := ?_ }
  · intro i hi
    rw [hE]
    by_cases e : i = lo
    · rw [if_pos e]; exact ha
    · rw [if_neg e, if_neg (by omega)]
      exact p.aliveL i (by omega)
  · intro i h1 h2
    rw [hE, if_neg (by omega)]
    by_cases e : i = x
    · rw [if_pos e]; exact hdead
    · rw [if_neg e]
      exact p.deadR i (by omega) h2
  · rw [swapStep_entities]
    exact (swapEnt_perm m x lo (by rw [p.hinv.entLen]; exact hx)
      (by rw [p.hinv.entLen]; exact hlo)).trans p.perm
  · intro i hi
    rw [hE, if_neg (by omega), if_neg (by omega)]
    exact p.frame i hi
  · intro i h1 h2
    rw [hE, if_neg (by omega)]
    by_cases e : i = x
    · rw [if_pos e, hH, if_pos rfl]
      have := p.ctr0 (m.ent lo).handleDataIndex (by
        intro k hk1 hk2 e2
        have := p.hinv.hdi_inj (i := k) (k := lo) (by omega) hlo e2
        omega)
      simp only [this]
    · rw [if_neg e, hH]
      have ne : (m.ent i).handleDataIndex ≠ (m.ent lo).handleDataIndex := by
        intro e2
        have := p.hinv.hdi_inj (i := i) (k := lo) (by omega) hlo e2
        omega
      rw [if_neg ne]
      have := p.ctr1 i (by omega) h2
      split
      · exact this
      · exact this
  · intro j hj
    have ne : j ≠ (m.ent lo).handleDataIndex := by
      have := hj x (Nat.le_refl _) (by omega)
      rw [hE, if_neg (by omega), if_pos rfl] at this
      exact Ne.symm this
    have := p.ctr0 j (by
      intro i h1 h2
      have := hj i (by omega) h2
      rw [hE, if_neg (by omega), if_neg (by omega)] at this
      exact this)
    rw [hH, if_neg ne]
    split
    · exact this
    · exact this

end Manager
end ecs

namespace ecs
namespace Manager

variable {Val : Type}

/-! ## `refreshImpl` returns, and what it returns -/

theorem refreshLoop_spec (m0 : Manager Val) :
    ∀ (fuel : Nat) (ph : Phase) (m : Manager Val) (iD iA : Nat),
      Part m0 m iD (iA + 1) →
      (ph = Phase.scanAlive → iD ≤ iA ∧ (m.ent iD).alive = false) →
      budget ph iD iA ≤ fuel →
      ∃ r m1, refreshLoop fuel ph m iD iA = some (r, m1) ∧ Part m0 m1 r r := by
  intro fuel
  induction fuel with
  | zero =>
    intro ph m iD iA p hph hb
    cases ph with
    | scanDead => simp [budget] at hb
    | scanAlive =>
      have := (hph rfl).1
      simp only [budget] at hb
      omega
  | succ fuel ih =>
    intro ph m iD iA p hph hb
    cases ph with
    | scanDead =>
      simp only [budget] at hb
      by_cases h1 : iD > iA
      · refine ⟨iD, m, by simp [refreshLoop, h1], ?_⟩
        have := p.loHi
        have e : iA + 1 = iD := by omega
        rw [e] at p
        exact p
      · by_cases h2 : (m.ent iD).alive = true
        · have p2 := p.aliveStep (by omega) h2
          obtain ⟨r, m1, hr, hp⟩ := ih Phase.scanDead m (iD + 1) iA p2 (by simp)
            (by simp only [budget]; omega)
          exact ⟨r, m1, by simp [refreshLoop, h1, h2, hr], hp⟩
        · have h2f : (m.ent iD).alive = false := by simpa using h2
          obtain ⟨r, m1, hr, hp⟩ := ih Phase.scanAlive m iD iA p
            (fun _ => ⟨by omega, h2f⟩) (by simp only [budget]; omega)
          exact ⟨r, m1, by simp [refreshLoop, h1, h2f, hr], hp⟩
    | scanAlive =>
      obtain ⟨hle, hdead⟩ := hph rfl
      simp only [budget] at hb
      by_cases h1 : (m.ent iA).alive = true
      · have hlt : iD < iA := by
          rcases Nat.lt_or_ge iD iA with h | h
          · exact h
          · have e : iD = iA := by omega
            rw [e, h1] at hdead
            exact absurd hdead (by simp)
        have p2 : Part m0 (m.swapStep iD iA) (iD + 1) (iA - 1 + 1) := by
          have e : iA - 1 + 1 = iA := by omega
          rw [e]
          exact p.swapped hlt h1 hdead
        obtain ⟨r, m1, hr, hp⟩ := ih Phase.scanDead (m.swapStep iD iA) (iD + 1) (iA - 1) p2
          (by simp) (by simp only [budget]; omega)
        refine ⟨r, m1, ?_, hp⟩
        have hne : iA ≠ 0 := by omega
        simp only [refreshLoop, h1, if_true, hne, if_false]
        exact hr
      · have h1f : (m.ent iA).alive = false := by simpa using h1
        have p2 := p.invalidated hle h1f
        by_cases h3 : iA ≤ iD
        · have e : iA = iD := by omega
          exact ⟨iD, m.invalidateHandle iA, by simp [refreshLoop, h1f, h3], p2.castHi e⟩
        · have e : iA - 1 + 1 = iA := by omega
          have hdead2 : ((m.invalidateHandle iA).ent iD).alive = false := by
            simpa using hdead
          obtain ⟨r, m1, hr, hp⟩ := ih Phase.scanAlive (m.invalidateHandle iA) iD (iA - 1)
            (by rw [e]; exact p2)
            (fun _ => ⟨by omega, hdead2⟩) (by simp only [budget]; omega)
          exact ⟨r, m1, by simp [refreshLoop, h1f, h3, hr], hp⟩

/-- The result of `refreshImpl`: the entity table is partitioned at the returned index. -/
theorem refreshImpl_spec {m0 : Manager Val} (h : HInv m0) (hn : m0.sizeNext ≤ m0.capacity)
    (hpos : 0 < m0.sizeNext) :
    ∃ r m1, m0.refreshImpl = some (r, m1) ∧ Part m0 m1 r r := by
  have p : Part m0 m0 0 (m0.sizeNext - 1 + 1) := by
    have e : m0.sizeNext - 1 + 1 = m0.sizeNext := by omega
    rw [e]
    exact Part.init h hn
  exact refreshLoop_spec m0 (2 * m0.sizeNext + 1) Phase.scanDead m0 0 (m0.sizeNext - 1) p
    (by simp) (by simp only [budget]; omega)

end Manager
end ecs

namespace ecs

theorem set_getD_self {α : Type} (l : List α) (j : Nat) (d : α) : l.set j (l.getD j d) = l := by
  apply List.ext_getElem?
  intro k
  rw [List.getElem?_set]
  by_cases h : j = k
  · subst h
    by_cases h2 : j < l.length
    · simp [h2, List.getD_eq_getElem _ _ h2]
    · simp [h2, List.getElem?_eq_none (Nat.le_of_not_lt h2)]
  · simp [h]

theorem map_eq_of_getD {α β : Type} (f : α → β) (l1 l2 : List α) (d : α)
    (hlen : l1.length = l2.length) (h : ∀ k, k < l2.length → f (l1.getD k d) = f (l2.getD k d)) :
    l1.map f = l2.map f := by
  apply List.ext_getElem
  · simp [hlen]
  · intro k h1 h2
    simp only [List.length_map] at h1 h2
    have := h k h2
    rw [List.getD_eq_getElem _ _ h1, List.getD_eq_getElem _ _ h2] at this
    simpa using this

theorem nodup_map_of_getD {α β : Type} (f : α → β) (l : List α) (d : α)
    (h : ∀ i k, i < l.length → k < l.length → f (l.getD i d) = f (l.getD k d) → i = k) :
    (l.map f).Nodup := by
  rw [List.nodup_iff_injective_get]
  intro ⟨i, hi⟩ ⟨k, hk⟩ e
  simp only [List.length_map] at hi hk
  simp only [List.get_eq_getElem, List.getElem_map] at e
  have := h i k hi hk (by
    rw [List.getD_eq_getElem _ _ hi, List.getD_eq_getElem _ _ hk]; exact e)
  exact Fin.ext this

namespace Manager

variable {Val : Type}

/-! ## The invariant of the manager -/

theorem HInv.congr {m m1 : Manager Val} (h : HInv m) (hcap : m1.capacity = m.capacity)
    (hent : m1.entities = m.entities) (hhd : m1.handleData = m.handleData) : HInv m1 := by
  have e1 : ∀ i, m1.ent i = m.ent i := fun i => by simp only [ent, hent]
  have e2 : ∀ j, m1.hd j = m.hd j := fun j => by simp only [hd, hhd]
  exact
    { entLen := by rw [hent, hcap]; exact h.entLen
      hdLen := by rw [hhd, hcap]; exact h.hdLen
      hdiLt := by simpa only [e1, hcap] using h.hdiLt
      back := by simpa only [e1, e2, hcap] using h.back
      eiLt := by simpa only [e2, hcap] using h.eiLt
      fwd := by simpa only [e1, e2, hcap] using h.fwd }

/-- A change of the entity table that keeps the `dataIndex` and the `handleDataIndex` of every
record keeps the invariant. -/
theorem Inv.update {S : Settings} {m m1 : Manager Val} (h : Inv S m)
    (hcap : m1.capacity = m.capacity) (hhd : m1.handleData = m.handleData)
    (hcomp : m1.components = m.components) (hlen : m1.entities.length = m.entities.length)
    (hhdi : ∀ k, k < m.capacity → (m1.ent k).handleDataIndex = (m.ent k).handleDataIndex)
    (hdi : ∀ k, k < m.capacity → (m1.ent k).dataIndex = (m.ent k).dataIndex)
    (hbits : ∀ k, k < m.capacity → (m1.ent k).bitset.length = S.bitCount)
    (hsz : m1.size ≤ m1.sizeNext) (hnx : m1.sizeNext ≤ m.capacity)
    (htail : ∀ i, m1.sizeNext ≤ i → i < m.capacity → (m1.ent i).alive = false) :
    Inv S m1 := by
  have hd_eq : ∀ j, m1.hd j = m.hd j := fun j => by simp only [hd, hhd]
  have hEL := h.hinv.entLen
  refine
    { hinv :=
        { entLen := by rw [hlen, hcap]; exact h.hinv.entLen
          hdLen := by rw [hhd, hcap]; exact h.hinv.hdLen
          hdiLt := ?_
          back := ?_
          eiLt := ?_
          fwd := ?_ }
      sizeLe := hsz
      nextLe := by rw [hcap]; exact hnx
      deadTail := by rw [hcap]; exact htail
      dataLt := ?_
      dataNodup := ?_
      compCount := by rw [hcomp]; exact h.compCount
      compLen := by rw [hcomp, hcap]; exact h.compLen
      bitsLen := ?_ }
  · intro i hi
    rw [hcap] at hi ⊢
    rw [hhdi i hi]
    exact h.hinv.hdiLt i hi
  · intro i hi
    rw [hcap] at hi
    rw [hhdi i hi, hd_eq]
    exact h.hinv.back i hi
  · intro j hj
    rw [hcap] at hj ⊢
    rw [hd_eq]
    exact h.hinv.eiLt j hj
  · intro j hj
    rw [hcap] at hj
    rw [hd_eq, hhdi _ (h.hinv.eiLt j hj)]
    exact h.hinv.fwd j hj
  · intro e he
    obtain ⟨k, hk, rfl⟩ := exists_ent_of_mem m1 e he
    rw [hcap, hdi k (by omega)]
    exact h.dataLt _ (ent_mem m k (by omega))
  · have : m1.entities.map Entity.dataIndex = m.entities.map Entity.dataIndex :=
      map_eq_of_getD _ _ _ Entity.zero hlen (fun k hk => hdi k (by omega))
    rw [this]
    exact h.dataNodup
  · intro e he
    obtain ⟨k, hk, rfl⟩ := exists_ent_of_mem m1 e he
    exact hbits k (by omega)

/-- Overwriting record `i` with a record that has the same `dataIndex` and `handleDataIndex`
keeps the invariant. -/
theorem Inv.setEnt {S : Settings} {m : Manager Val} (h : Inv S m) (i : Nat) (e : Entity)
    (h1 : e.dataIndex = (m.ent i).dataIndex)
    (h2 : e.handleDataIndex = (m.ent i).handleDataIndex)
    (h3 : e.bitset.length = S.bitCount)
    (h4 : m.sizeNext ≤ i → e.alive = false) : Inv S (m.setEnt i e) := by
  have hb : ∀ k, k < m.capacity → (m.ent k).bitset.length = S.bitCount := fun k hk =>
    h.bitsLen _ (ent_mem m k (by rw [h.hinv.entLen]; exact hk))
  refine h.update rfl rfl rfl (by simp) ?_ ?_ ?_ h.sizeLe h.nextLe ?_
  · intro k _
    rw [setEnt_ent]; split
    · rename_i c; rw [h2, c.1]
    · rfl
  · intro k _
    rw [setEnt_ent]; split
    · rename_i c; rw [h1, c.1]
    · rfl
  · intro k hk
    rw [setEnt_ent]; split
    · exact h3
    · exact hb k hk
  · intro k hk1 hk2
    simp only [setEnt_sizeNext] at hk1
    rw [setEnt_ent]; split
    · rename_i c; exact h4 (by rw [c.1]; exact hk1)
    · exact h.deadTail k hk1 hk2

theorem Inv.write {S : Settings} {m : Manager Val} (h : Inv S m) (T : Kind)
    (di : Nat) (v : Val) : Inv S (Manager.writeComponent S m T di v) := by
  have key : ∀ w ∈ (Manager.writeComponent S m T di v).components, w.length = m.capacity := by
    intro w hw
    simp only [Manager.writeComponent] at hw
    by_cases hc : S.componentID T < m.components.length
    · rcases List.mem_or_eq_of_mem_set hw with h1 | h1
      · exact h.compLen w h1
      · rw [h1, List.length_set]
        exact h.compLen _ (getD_mem _ _ _ hc)
    · rw [List.set_eq_of_length_le (Nat.le_of_not_lt hc)] at hw
      exact h.compLen w hw
  exact
    { hinv := h.hinv.congr rfl rfl rfl
      sizeLe := h.sizeLe
      nextLe := h.nextLe
      deadTail := h.deadTail
      dataLt := h.dataLt
      dataNodup := h.dataNodup
      compCount := by
        simp only [Manager.writeComponent, List.length_set]
        exact h.compCount
      compLen := key
      bitsLen := h.bitsLen }

end Manager
end ecs

namespace ecs

theorem length_resize {α : Type} (l : List α) (n : Nat) (d : α) : (resize l n d).length = n := by
  simp only [resize, List.length_append, List.length_take, List.length_replicate]
  omega

theorem getD_resize {α : Type} (l : List α) (n i : Nat) (d d2 : α) (hi : i < l.length)
    (hn : l.length ≤ n) : (resize l n d).getD i d2 = l.getD i d2 := by
  simp only [resize, List.take_of_length_le hn]
  rw [List.getD_append _ _ _ _ hi]

theorem inj_of_nodup_map {α β : Type} (f : α → β) (l : List α) (d : α)
    (h : (l.map f).Nodup) {i k : Nat} (hi : i < l.length) (hk : k < l.length)
    (e : f (l.getD i d) = f (l.getD k d)) : i = k := by
  rw [List.nodup_iff_injective_get] at h
  have hi2 : i < (l.map f).length := by simpa using hi
  have hk2 : k < (l.map f).length := by simpa using hk
  have := @h ⟨i, hi2⟩ ⟨k, hk2⟩ (by
    simp only [List.get_eq_getElem, List.getElem_map]
    rw [List.getD_eq_getElem _ _ hi, List.getD_eq_getElem _ _ hk] at e
    exact e)
  exact Fin.mk.inj this

@[simp]
theorem Entity.init_dataIndex (S : Settings) (i : Nat) :
    (Entity.init S i).dataIndex = i := rfl
@[simp]
theorem Entity.init_handleDataIndex (S : Settings) (i : Nat) :
    (Entity.init S i).handleDataIndex = i := rfl
@[simp]
theorem Entity.init_alive (S : Settings) (i : Nat) :
    (Entity.init S i).alive = false := rfl
@[simp]
theorem Entity.init_bitset (S : Settings) (i : Nat) :
    (Entity.init S i).bitset = Bitset.reset S.bitCount := rfl
@[simp]
theorem HandleData.init_entityIndex (i : Nat) :
    (HandleData.init i).entityIndex = i := rfl
@[simp]
theorem HandleData.init_counter (i : Nat) :
    (HandleData.init i).counter = 0 := rfl

namespace Manager

variable {Val : Type}

theorem Inv.data_inj {S : Settings} {m : Manager Val} (h : Inv S m) {i k : Nat}
    (hi : i < m.capacity) (hk : k < m.capacity)
    (e : (m.ent i).dataIndex = (m.ent k).dataIndex) : i = k :=
  inj_of_nodup_map Entity.dataIndex m.entities Entity.zero h.dataNodup
    (by rw [h.hinv.entLen]; exact hi) (by rw [h.hinv.entLen]; exact hk) e

theorem Inv.data_lt {S : Settings} {m : Manager Val} (h : Inv S m) {i : Nat}
    (hi : i < m.capacity) : (m.ent i).dataIndex < m.capacity :=
  h.dataLt _ (ent_mem m i (by rw [h.hinv.entLen]; exact hi))

theorem Inv.bits_len {S : Settings} {m : Manager Val} (h : Inv S m) {i : Nat}
    (hi : i < m.capacity) : (m.ent i).bitset.length = S.bitCount :=
  h.bitsLen _ (ent_mem m i (by rw [h.hinv.entLen]; exact hi))

/-- The invariant, from its statement index by index. -/
theorem Inv.ofPointwise {S : Settings} {m : Manager Val} (hh : HInv m)
    (hsz : m.size ≤ m.sizeNext) (hnx : m.sizeNext ≤ m.capacity)
    (htail : ∀ i, m.sizeNext ≤ i → i < m.capacity → (m.ent i).alive = false)
    (hlt : ∀ i, i < m.capacity → (m.ent i).dataIndex < m.capacity)
    (hinj : ∀ i k, i < m.capacity → k < m.capacity →
      (m.ent i).dataIndex = (m.ent k).dataIndex → i = k)
    (hcc : m.components.length = S.componentCount)
    (hcl : ∀ v ∈ m.components, v.length = m.capacity)
    (hbits : ∀ i, i < m.capacity → (m.ent i).bitset.length = S.bitCount) : Inv S m where
  hinv := hh
  sizeLe := hsz
  nextLe := hnx
  deadTail := htail
  dataLt := by
    intro e he
    obtain ⟨k, hk, rfl⟩ := exists_ent_of_mem m e he
    exact hlt k (by rw [← hh.entLen]; exact hk)
  dataNodup := by
    apply nodup_map_of_getD _ _ Entity.zero
    intro i k hi hk e
    rw [hh.entLen] at hi hk
    exact hinj i k hi hk e
  compCount := hcc
  compLen := hcl
  bitsLen := by
    intro e he
    obtain ⟨k, hk, rfl⟩ := exists_ent_of_mem m e he
    exact hbits k (by rw [← hh.entLen]; exact hk)

/-! ## The initialisation loop of `growTo` and `clear` -/

theorem initSlot_ent (S : Settings) (m : Manager Val) (x i : Nat) :
    (initSlot S x m).ent i =
      if x = i ∧ x < m.entities.length then
        Entity.init S x
      else m.ent i := by
  simp only [initSlot, setHd_ent, setEnt_ent]

theorem initSlot_hd (S : Settings) (m : Manager Val) (x j : Nat) :
    (initSlot S x m).hd j =
      if x = j ∧ x < m.handleData.length then HandleData.init x
      else m.hd j := by
  simp only [initSlot, setHd_hd, setEnt_hd, setEnt_handleData]

theorem initLoop_fields (S : Settings) :
    ∀ (k lo : Nat) (m : Manager Val),
      (forLoop (initSlot S) k lo m).capacity = m.capacity ∧
      (forLoop (initSlot S) k lo m).size = m.size ∧
      (forLoop (initSlot S) k lo m).sizeNext = m.sizeNext ∧
      (forLoop (initSlot S) k lo m).components = m.components ∧
      (forLoop (initSlot S) k lo m).entities.length = m.entities.length ∧
      (forLoop (initSlot S) k lo m).handleData.length = m.handleData.length := by
  intro k
  induction k with
  | zero => intro lo m; simp [forLoop]
  | succ k ih =>
    intro lo m
    obtain ⟨h1, h2, h3, h4, h5, h6⟩ := ih (lo + 1) (initSlot S lo m)
    simp only [forLoop]
    refine ⟨by rw [h1]; rfl, by rw [h2]; rfl, by rw [h3]; rfl, by rw [h4]; rfl, ?_, ?_⟩
    · rw [h5]; simp [initSlot]
    · rw [h6]; simp [initSlot]

theorem initLoop_ent (S : Settings) :
    ∀ (k lo : Nat) (m : Manager Val) (i : Nat),
      (forLoop (initSlot S) k lo m).ent i =
        if lo ≤ i ∧ i < lo + k ∧ i < m.entities.length then
          Entity.init S i
        else m.ent i := by
  intro k
  induction k with
  | zero =>
    intro lo m i
    simp only [forLoop, Nat.add_zero]
    rw [if_neg (by omega)]
  | succ k ih =>
    intro lo m i
    simp only [forLoop]
    rw [ih (lo + 1) (initSlot S lo m) i, initSlot_ent]
    have hl : (initSlot S lo m).entities.length = m.entities.length := by simp [initSlot]
    rw [hl]
    by_cases c1 : lo = i
    · subst c1
      by_cases c2 : lo < m.entities.length
      · simp [c2]
      · simp [c2]
    · by_cases c2 : lo + 1 ≤ i ∧ i < lo + 1 + k ∧ i < m.entities.length
      · rw [if_pos c2, if_pos (by omega)]
      · rw [if_neg c2, if_neg (by omega), if_neg (by omega)]

theorem initLoop_hd (S : Settings) :
    ∀ (k lo : Nat) (m : Manager Val) (j : Nat),
      (forLoop (initSlot S) k lo m).hd j =
        if lo ≤ j ∧ j < lo + k ∧ j < m.handleData.length then
          HandleData.init j
        else m.hd j := by
  intro k
  induction k with
  | zero =>
    intro lo m j
    simp only [forLoop, Nat.add_zero]
    rw [if_neg (by omega)]
  | succ k ih =>
    intro lo m j
    simp only [forLoop]
    rw [ih (lo + 1) (initSlot S lo m) j, initSlot_hd]
    have hl : (initSlot S lo m).handleData.length = m.handleData.length := by simp [initSlot]
    rw [hl]
    by_cases c1 : lo = j
    · subst c1
      by_cases c2 : lo < m.handleData.length
      · simp [c2]
      · simp [c2]
    · by_cases c2 : lo + 1 ≤ j ∧ j < lo + 1 + k ∧ j < m.handleData.length
      · rw [if_pos c2, if_pos (by omega)]
      · rw [if_neg c2, if_neg (by omega), if_neg (by omega)]

end Manager
end ecs

namespace ecs
namespace Manager

variable {Val : Type}

/-! ## `growTo`, the constructor and `clear` -/

theorem growTo_spec [Inhabited Val] (S : Settings) (m : Manager Val) (n : Nat)
    (hEL : m.entities.length = m.capacity) (hHL : m.handleData.length = m.capacity)
    (hn : n > m.capacity) :
    ∃ m1, growTo S m n = some m1 ∧ Grown S m m1 n ∧
      m1.components = m.components.map (fun v => resize v n default) := by
  simp only [growTo, if_pos hn]
  refine ⟨_, rfl, ?_, ?_⟩
  · have f := initLoop_fields S (n - m.capacity) m.capacity
      ({ m with
          entities := resize m.entities n Entity.zero
          components := m.components.map (fun v => resize v n default)
          handleData := resize m.handleData n HandleData.zero } : Manager Val)
    obtain ⟨f1, f2, f3, f4, f5, f6⟩ := f
    refine
      { capEq := rfl
        sizeEq := f2
        nextEq := f3
        entLen := by
          show (forLoop (initSlot S) _ _ _).entities.length = n
          rw [f5]; exact length_resize _ _ _
        hdLen := by
          show (forLoop (initSlot S) _ _ _).handleData.length = n
          rw [f6]; exact length_resize _ _ _
        entOld := ?_
        entNew := ?_
        hdOld := ?_
        hdNew := ?_ }
    · intro i hi
      show (forLoop (initSlot S) _ _ _).ent i = _
      rw [initLoop_ent, if_neg (by omega)]
      exact getD_resize _ _ _ _ _ (by omega) (by omega)
    · intro i h1 h2
      show (forLoop (initSlot S) _ _ _).ent i = _
      rw [initLoop_ent, if_pos]
      refine ⟨h1, by omega, ?_⟩
      show i < (resize m.entities n Entity.zero).length
      rw [length_resize]; exact h2
    · intro j hj
      show (forLoop (initSlot S) _ _ _).hd j = _
      rw [initLoop_hd, if_neg (by omega)]
      exact getD_resize _ _ _ _ _ (by omega) (by omega)
    · intro j h1 h2
      show (forLoop (initSlot S) _ _ _).hd j = _
      rw [initLoop_hd, if_pos]
      refine ⟨h1, by omega, ?_⟩
      show j < (resize m.handleData n HandleData.zero).length
      rw [length_resize]; exact h2
  · show (forLoop (initSlot S) _ _ _).components = _
    rw [(initLoop_fields S _ _ _).2.2.2.1]

theorem Inv.grown [Inhabited Val] {S : Settings} {m m1 : Manager Val} {n : Nat} (h : Inv S m)
    (hn : n > m.capacity) (g : Grown S m m1 n)
    (hc : m1.components = m.components.map (fun v => resize v n default)) : Inv S m1 := by
  have hcapE := g.capEq
  have entAt : ∀ i, i < n → (i < m.capacity ∧ m1.ent i = m.ent i) ∨
      (m.capacity ≤ i ∧ m1.ent i = Entity.init S i) := by
    intro i hi
    rcases Nat.lt_or_ge i m.capacity with c | c
    · exact Or.inl ⟨c, g.entOld i c⟩
    · exact Or.inr ⟨c, g.entNew i c hi⟩
  have hdAt : ∀ j, j < n → (j < m.capacity ∧ m1.hd j = m.hd j) ∨
      (m.capacity ≤ j ∧ m1.hd j = HandleData.init j) := by
    intro j hj
    rcases Nat.lt_or_ge j m.capacity with c | c
    · exact Or.inl ⟨c, g.hdOld j c⟩
    · exact Or.inr ⟨c, g.hdNew j c hj⟩
  have hh : HInv m1 := by
    refine
      { entLen := by rw [g.entLen, g.capEq]
        hdLen := by rw [g.hdLen, g.capEq]
        hdiLt := ?_
        back := ?_
        eiLt := ?_
        fwd := ?_ }
    · intro i hi
      rw [hcapE] at hi ⊢
      rcases entAt i hi with ⟨c, e⟩ | ⟨c, e⟩
      · rw [e]; have := h.hinv.hdiLt i c; omega
      · rw [e]; exact hi
    · intro i hi
      rw [hcapE] at hi
      rcases entAt i hi with ⟨c, e⟩ | ⟨c, e⟩
      · rw [e, g.hdOld _ (h.hinv.hdiLt i c)]
        exact h.hinv.back i c
      · rw [e]
        show (m1.hd i).entityIndex = i
        rw [g.hdNew i c hi]
        rfl
    · intro j hj
      rw [hcapE] at hj ⊢
      rcases hdAt j hj with ⟨c, e⟩ | ⟨c, e⟩
      · rw [e]; have := h.hinv.eiLt j c; omega
      · rw [e]; exact hj
    · intro j hj
      rw [hcapE] at hj
      rcases hdAt j hj with ⟨c, e⟩ | ⟨c, e⟩
      · rw [e, g.entOld _ (h.hinv.eiLt j c)]
        exact h.hinv.fwd j c
      · rw [e]
        show (m1.ent j).handleDataIndex = j
        rw [g.entNew j c hj]
        rfl
  apply Inv.ofPointwise hh
  · rw [g.sizeEq, g.nextEq]; exact h.sizeLe
  · rw [g.nextEq, g.capEq]; have := h.nextLe; omega
  · intro i h1 h2
    rw [g.nextEq] at h1
    rw [hcapE] at h2
    rcases entAt i h2 with ⟨c, e⟩ | ⟨c, e⟩
    · rw [e]; exact h.deadTail i h1 c
    · rw [e]; rfl
  · intro i hi
    rw [hcapE] at hi ⊢
    rcases entAt i hi with ⟨c, e⟩ | ⟨c, e⟩
    · rw [e]; have := h.data_lt c; omega
    · rw [e]; exact hi
  · intro i k hi hk e
    rw [hcapE] at hi hk
    rcases entAt i hi with ⟨c1, e1⟩ | ⟨c1, e1⟩ <;> rcases entAt k hk with ⟨c2, e2⟩ | ⟨c2, e2⟩
    · rw [e1, e2] at e; exact h.data_inj c1 c2 e
    · rw [e1, e2] at e
      have := h.data_lt c1
      simp only [Entity.init_dataIndex] at e
      omega
    · rw [e1, e2] at e
      have := h.data_lt c2
      simp only [Entity.init_dataIndex] at e
      omega
    · rw [e1, e2] at e
      simpa using e
  · rw [hc, List.length_map]; exact h.compCount
  · intro v hv
    rw [hc] at hv
    obtain ⟨w, _, rfl⟩ := List.mem_map.mp hv
    rw [length_resize, g.capEq]
  · intro i hi
    rw [hcapE] at hi
    rcases entAt i hi with ⟨c, e⟩ | ⟨c, e⟩
    · rw [e]; exact h.bits_len c
    · rw [e]; simp [Entity.init, Bitset.reset]

theorem Inv.empty (S : Settings) : Inv S (Manager.empty S : Manager Val) := by
  apply Inv.ofPointwise
  · exact
      { entLen := rfl
        hdLen := rfl
        hdiLt := fun i hi => absurd hi (Nat.not_lt_zero i)
        back := fun i hi => absurd hi (Nat.not_lt_zero i)
        eiLt := fun i hi => absurd hi (Nat.not_lt_zero i)
        fwd := fun i hi => absurd hi (Nat.not_lt_zero i) }
  · exact Nat.le_refl _
  · exact Nat.le_refl _
  · exact fun i _ hi => absurd hi (Nat.not_lt_zero i)
  · exact fun i hi => absurd hi (Nat.not_lt_zero i)
  · exact fun i _ hi => absurd hi (Nat.not_lt_zero i)
  · simp [Manager.empty]
  · intro v hv
    simp only [Manager.empty] at hv
    rw [List.eq_of_mem_replicate hv]
    rfl
  · exact fun i hi => absurd hi (Nat.not_lt_zero i)

theorem Inv.growTo [Inhabited Val] {S : Settings} {m m1 : Manager Val} {n : Nat} (h : Inv S m)
    (e : Manager.growTo S m n = some m1) : Inv S m1 := by
  by_cases hn : n > m.capacity
  · obtain ⟨m2, e2, g, hc⟩ := growTo_spec S m n h.hinv.entLen h.hinv.hdLen hn
    rw [e] at e2
    cases e2
    exact h.grown hn g hc
  · simp [Manager.growTo, hn] at e

theorem Inv.new [Inhabited Val] {S : Settings} {m : Manager Val}
    (e : Manager.new S = some m) : Inv S m :=
  (Inv.empty S).growTo e

theorem new_eq_some [Inhabited Val] (S : Settings) :
    ∃ m : Manager Val, Manager.new S = some m ∧ m.capacity = 100 ∧ m.size = 0 ∧
      m.sizeNext = 0 := by
  obtain ⟨m1, e, g, _⟩ := growTo_spec S (Manager.empty S : Manager Val) 100 rfl rfl
    (by simp [Manager.empty])
  exact ⟨m1, e, g.capEq, g.sizeEq, g.nextEq⟩

end Manager
end ecs

namespace ecs
namespace Manager

variable {Val : Type}

theorem cleared_ent (S : Settings) (m : Manager Val) (i : Nat) :
    (m.cleared S).ent i =
      if i < m.capacity ∧ i < m.entities.length then Entity.init S i else m.ent i := by
  show (forLoop (initSlot S) m.capacity 0 m).ent i = _
  rw [initLoop_ent]
  simp

theorem cleared_hd (S : Settings) (m : Manager Val) (j : Nat) :
    (m.cleared S).hd j =
      if j < m.capacity ∧ j < m.handleData.length then HandleData.init j else m.hd j := by
  show (forLoop (initSlot S) m.capacity 0 m).hd j = _
  rw [initLoop_hd]
  simp

@[simp]
theorem cleared_capacity (S : Settings) (m : Manager Val) :
    (m.cleared S).capacity = m.capacity := (initLoop_fields S m.capacity 0 m).1
@[simp]
theorem cleared_size (S : Settings) (m : Manager Val) : (m.cleared S).size = 0 := rfl
@[simp]
theorem cleared_sizeNext (S : Settings) (m : Manager Val) : (m.cleared S).sizeNext = 0 := rfl
@[simp]
theorem cleared_components (S : Settings) (m : Manager Val) :
    (m.cleared S).components = m.components := (initLoop_fields S m.capacity 0 m).2.2.2.1
@[simp]
theorem cleared_entities_length (S : Settings) (m : Manager Val) :
    (m.cleared S).entities.length = m.entities.length := (initLoop_fields S m.capacity 0 m).2.2.2.2.1
@[simp]
theorem cleared_handleData_length (S : Settings) (m : Manager Val) :
    (m.cleared S).handleData.length = m.handleData.length :=
  (initLoop_fields S m.capacity 0 m).2.2.2.2.2

theorem Inv.cleared {S : Settings} {m : Manager Val} (h : Inv S m) : Inv S (m.cleared S) := by
  have hE : ∀ i, i < m.capacity → (m.cleared S).ent i = Entity.init S i := by
    intro i hi
    rw [cleared_ent, if_pos ⟨hi, by rw [h.hinv.entLen]; exact hi⟩]
  have hH : ∀ j, j < m.capacity → (m.cleared S).hd j = HandleData.init j := by
    intro j hj
    rw [cleared_hd, if_pos ⟨hj, by rw [h.hinv.hdLen]; exact hj⟩]
  apply Inv.ofPointwise
  · exact
      { entLen := by simpa using h.hinv.entLen
        hdLen := by simpa using h.hinv.hdLen
        hdiLt := by
          intro i hi
          simp only [cleared_capacity] at hi ⊢
          rw [hE i hi]; exact hi
        back := by
          intro i hi
          simp only [cleared_capacity] at hi
          rw [hE i hi, Entity.init_handleDataIndex, hH i hi]; rfl
        eiLt := by
          intro j hj
          simp only [cleared_capacity] at hj ⊢
          rw [hH j hj]; exact hj
        fwd := by
          intro j hj
          simp only [cleared_capacity] at hj
          rw [hH j hj, HandleData.init_entityIndex, hE j hj]; rfl }
  · simp
  · simp
  · intro i _ hi
    simp only [cleared_capacity] at hi
    rw [hE i hi]; rfl
  · intro i hi
    simp only [cleared_capacity] at hi ⊢
    rw [hE i hi]; exact hi
  · intro i k hi hk e
    simp only [cleared_capacity] at hi hk
    rw [hE i hi, hE k hk] at e
    exact e
  · simpa using h.compCount
  · simpa using h.compLen
  · intro i hi
    simp only [cleared_capacity] at hi
    rw [hE i hi]
    simp [Bitset.reset]

/-- The loop of `clear` ends when `capacity` fits the 32-bit counter, and then it has run the
loop body on every index from `i` on. -/
theorem clearLoop_eq (S : Settings) :
    ∀ (fuel i : Nat) (m : Manager Val), m.capacity < 4294967296 → i ≤ m.capacity →
      m.capacity - i < fuel →
      clearLoop S fuel i m = some (forLoop (initSlot S) (m.capacity - i) i m) := by
  intro fuel
  induction fuel with
  | zero => intro i m _ _ h; omega
  | succ fuel ih =>
    intro i m hc hi hf
    by_cases c : i < m.capacity
    · have e1 : (i + 1) % 4294967296 = i + 1 := Nat.mod_eq_of_lt (by omega)
      have e2 : m.capacity - i = (m.capacity - (i + 1)) + 1 := by omega
      have hcap : (initSlot S i m).capacity = m.capacity := rfl
      simp only [clearLoop, if_pos c, e1]
      rw [ih (i + 1) (initSlot S i m) (by rw [hcap]; exact hc) (by rw [hcap]; omega)
        (by rw [hcap]; omega), hcap, e2]
      rfl
    · have e2 : m.capacity - i = 0 := by omega
      simp only [clearLoop, if_neg c, e2]
      rfl

/-- With `capacity >= 2 ^ 32` the 32-bit counter never reaches `capacity`: the loop of `clear`
does not end, whatever the fuel. -/
theorem clearLoop_diverges (S : Settings) :
    ∀ (fuel i : Nat) (m : Manager Val), 4294967296 ≤ m.capacity → i < 4294967296 →
      clearLoop S fuel i m = none := by
  intro fuel
  induction fuel with
  | zero => intro i m _ _; rfl
  | succ fuel ih =>
    intro i m hc hi
    have hcap : (initSlot S i m).capacity = m.capacity := rfl
    simp only [clearLoop, if_pos (show i < m.capacity by omega)]
    exact ih _ _ (by rw [hcap]; exact hc) (Nat.mod_lt _ (by decide))

/-- The call `clear()` returns exactly when `capacity < 2 ^ 32`, and then in the state
`cleared`. -/
theorem clear_eq (S : Settings) (m : Manager Val) :
    m.clear S = if m.capacity < 4294967296 then some (m.cleared S) else none := by
  by_cases c : m.capacity < 4294967296
  · simp only [clear, if_pos c,
      clearLoop_eq S (m.capacity + 1) 0 m c (Nat.zero_le _) (by omega), Nat.sub_zero]
    rfl
  · simp only [clear, if_neg c,
      clearLoop_diverges S (m.capacity + 1) 0 m (by omega) (by decide)]

theorem clear_eq_some {S : Settings} {m m1 : Manager Val} (e : m.clear S = some m1) :
    m.capacity < 4294967296 ∧ m1 = m.cleared S := by
  rw [clear_eq] at e
  split at e
  · rename_i c; exact ⟨c, (Option.some.inj e).symm⟩
  · cases e

theorem clear_of_lt (S : Settings) {m : Manager Val} (h : m.capacity < 4294967296) :
    m.clear S = some (m.cleared S) := by
  rw [clear_eq, if_pos h]

theorem Inv.clear {S : Settings} {m m1 : Manager Val} (h : Inv S m) (e : m.clear S = some m1) :
    Inv S m1 := by
  rw [(clear_eq_some e).2]
  exact h.cleared

/-! ## Creation of entities -/

theorem growIfNeeded_spec [Inhabited Val] {S : Settings} {m : Manager Val} (h : Inv S m) :
    ∃ m1, growIfNeeded S m = some m1 ∧ Inv S m1 ∧ m1.size = m.size ∧
      m1.sizeNext = m.sizeNext ∧ m1.sizeNext < m1.capacity ∧ m.capacity ≤ m1.capacity ∧
      (∀ i, i < m.capacity → m1.ent i = m.ent i) ∧ (∀ j, j < m.capacity → m1.hd j = m.hd j) ∧
      (∀ j, (m1.hd j).counter = (m.hd j).counter) := by
  by_cases c : m.capacity > m.sizeNext
  · exact ⟨m, by simp [growIfNeeded, c], h, rfl, rfl, c, Nat.le_refl _, fun _ _ => rfl,
      fun _ _ => rfl, fun _ => rfl⟩
  · have hn : (m.capacity + 10) * 2 > m.capacity := by omega
    obtain ⟨m1, e, g, hc⟩ := growTo_spec S m _ h.hinv.entLen h.hinv.hdLen hn
    refine ⟨m1, by simp only [growIfNeeded, if_neg c]; exact e, h.grown hn g hc, g.sizeEq,
      g.nextEq, ?_, ?_, g.entOld, g.hdOld, ?_⟩
    · rw [g.nextEq, g.capEq]; have := h.nextLe; omega
    · rw [g.capEq]; omega
    · intro j
      rcases Nat.lt_or_ge j m.capacity with c1 | c1
      · rw [g.hdOld j c1]
      · have e0 : (m.hd j).counter = 0 := by
          simp only [hd]
          rw [List.getD_eq_default _ _ (by rw [h.hinv.hdLen]; exact c1)]
          rfl
        rw [e0]
        rcases Nat.lt_or_ge j ((m.capacity + 10) * 2) with c2 | c2
        · rw [g.hdNew j c1 c2]; rfl
        · simp only [hd]
          rw [List.getD_eq_default _ _ (by rw [g.hdLen]; exact c2)]
          rfl

/-- The state after `createIndex`, given the state `g` after `growIfNeeded`. -/
theorem createIndex_spec [Inhabited Val] {S : Settings} {m : Manager Val} (h : Inv S m) :
    ∃ g, growIfNeeded S m = some g ∧
      createIndex S m = some (m.sizeNext,
        (({ g with sizeNext := g.sizeNext + 1 } : Manager Val).setEnt m.sizeNext
          { (g.ent m.sizeNext) with alive := true, bitset := Bitset.reset S.bitCount })) ∧
      Inv S (({ g with sizeNext := g.sizeNext + 1 } : Manager Val).setEnt m.sizeNext
          { (g.ent m.sizeNext) with alive := true, bitset := Bitset.reset S.bitCount }) := by
  obtain ⟨g, e, hg, _, hnx, hlt, _, _, _, _⟩ := growIfNeeded_spec h
  refine ⟨g, e, ?_, ?_⟩
  · have hdead : (g.ent g.sizeNext).alive = false := hg.deadTail _ (Nat.le_refl _) hlt
    have : (({ g with sizeNext := g.sizeNext + 1 } : Manager Val).ent g.sizeNext).alive
        = false := hdead
    rw [← hnx]
    simp only [createIndex, e, isAlive, getEntity]
    rw [if_pos (by omega)]
    simp only [this]
    rfl
  · have hb : ∀ k, k < g.capacity → (g.ent k).bitset.length = S.bitCount := fun k hk =>
      hg.bits_len hk
    refine hg.update rfl rfl rfl (by simp) ?_ ?_ ?_ ?_ ?_ ?_
    · intro k _
      rw [setEnt_ent]; split
      · rename_i c; rw [← c.1]
      · rfl
    · intro k _
      rw [setEnt_ent]; split
      · rename_i c; rw [← c.1]
      · rfl
    · intro k hk
      rw [setEnt_ent]; split
      · simp [Bitset.reset]
      · exact hb k hk
    · show g.size ≤ g.sizeNext + 1
      have := hg.sizeLe; omega
    · show g.sizeNext + 1 ≤ g.capacity
      omega
    · intro i h1 h2
      have h1' : g.sizeNext + 1 ≤ i := h1
      rw [setEnt_ent, if_neg (by omega)]
      exact hg.deadTail i (by omega) h2

theorem Inv.createIndex [Inhabited Val] {S : Settings} {m m1 : Manager Val} {i : Nat}
    (h : Inv S m) (e : Manager.createIndex S m = some (i, m1)) : Inv S m1 := by
  obtain ⟨g, _, e2, hi⟩ := createIndex_spec h
  rw [e] at e2
  cases e2
  exact hi

/-- The state after `createHandle` is the state after `createIndex`: the handle slot of the new
record already points to it. -/
theorem createHandle_spec [Inhabited Val] {S : Settings} {m m1 : Manager Val} {i : Nat}
    (h : Inv S m) (e : Manager.createIndex S m = some (i, m1)) :
    Manager.createHandle S m =
      some ({ handleDataIndex := (m1.ent i).handleDataIndex,
              counter := (m1.hd (m1.ent i).handleDataIndex).counter }, m1) := by
  have h1 : Inv S m1 := h.createIndex e
  obtain ⟨g, eg, e2, _⟩ := createIndex_spec h
  obtain ⟨g2, eg2, hg, _, hnx, hlt, _, _, _, _⟩ := growIfNeeded_spec h
  rw [eg] at eg2
  cases eg2
  rw [e] at e2
  have hi : i = m.sizeNext := by cases e2; rfl
  have hm1 : m1.sizeNext = g.sizeNext + 1 := by cases e2; rfl
  have hcap : m1.capacity = g.capacity := by cases e2; rfl
  have hlen : g.entities.length = g.capacity := hg.hinv.entLen
  have hicap : i < m1.capacity := by omega
  have halive : (m1.ent i).alive = true := by
    cases e2
    rw [setEnt_ent, if_pos ⟨rfl, by show m.sizeNext < g.entities.length; omega⟩]
  have hback := h1.hinv.back i hicap
  have hset : m1.setHd (m1.ent i).handleDataIndex
      { m1.hd (m1.ent i).handleDataIndex with entityIndex := i } = m1 := by
    have : ({ m1.hd (m1.ent i).handleDataIndex with entityIndex := i } : HandleData) =
        m1.hd (m1.ent i).handleDataIndex := by
      cases hx : m1.hd (m1.ent i).handleDataIndex with
      | mk a b =>
        rw [hx] at hback
        simp only at hback
        rw [hback]
    rw [this]
    simp only [setHd, hd, set_getD_self]
  have hlt2 : (m1.ent i).handleDataIndex < m1.handleData.length := by
    rw [h1.hinv.hdLen]; exact h1.hinv.hdiLt i hicap
  simp only [createHandle, e, isAlive, getEntity]
  rw [if_pos (by omega)]
  simp only [halive, hset, isHandleValid, getHandleData, if_pos hlt2, decide_True]

theorem Inv.createHandle [Inhabited Val] {S : Settings} {m m1 : Manager Val} {x : Handle}
    (h : Inv S m) (e : Manager.createHandle S m = some (x, m1)) : Inv S m1 := by
  obtain ⟨g, _, e2, hi⟩ := createIndex_spec h
  rw [createHandle_spec h e2] at e
  cases e
  exact hi

end Manager
end ecs

namespace ecs

theorem take_perm_of_perm {α : Type} (l1 l2 : List α) (n : Nat) (hp : l1.Perm l2)
    (hd : l1.drop n = l2.drop n) : (l1.take n).Perm (l2.take n) := by
  have e1 := List.take_append_drop n l1
  have e2 := List.take_append_drop n l2
  rw [← e1, ← e2, hd] at hp
  exact (List.perm_append_right_iff _).mp hp

theorem drop_eq_of_getD {α : Type} (l1 l2 : List α) (n : Nat) (d : α)
    (hlen : l1.length = l2.length) (h : ∀ i, n ≤ i → l1.getD i d = l2.getD i d) :
    l1.drop n = l2.drop n := by
  apply List.ext_getElem
  · simp [hlen]
  · intro k h1 h2
    simp only [List.length_drop] at h1 h2
    have := h (n + k) (by omega)
    rw [List.getD_eq_getElem _ _ (by omega), List.getD_eq_getElem _ _ (by omega)] at this
    simpa using this

namespace Manager

variable {Val : Type}

/-! ## `refresh` -/

theorem refresh_spec {m : Manager Val} (h : HInv m) (hn : m.sizeNext ≤ m.capacity) :
    ∃ m1, m.refresh = some m1 ∧ Refreshed m m1 := by
  by_cases c : m.sizeNext = 0
  · refine ⟨{ m with size := 0 }, by simp [refresh, c], ?_⟩
    exact
      { hinv := h.congr rfl rfl rfl
        capEq := rfl
        compEq := rfl
        sizeEq := c.symm
        nextLe := Nat.le_refl _
        aliveL := fun i hi => absurd hi (Nat.not_lt_zero i)
        deadR := fun i _ hi => by rw [c] at hi; exact absurd hi (Nat.not_lt_zero i)
        perm := List.Perm.refl _
        frame := fun _ _ => rfl
        ctr1 := fun i _ hi => by rw [c] at hi; exact absurd hi (Nat.not_lt_zero i)
        ctr0 := fun _ _ => rfl }
  · obtain ⟨r, m1, e, p⟩ := refreshImpl_spec h hn (by omega)
    refine ⟨{ m1 with size := r, sizeNext := r }, by simp [refresh, c, e], ?_⟩
    exact
      { hinv := p.hinv.congr rfl rfl rfl
        capEq := p.capEq
        compEq := p.compEq
        sizeEq := rfl
        nextLe := p.hiLe
        aliveL := p.aliveL
        deadR := p.deadR
        perm := p.perm
        frame := p.frame
        ctr1 := p.ctr1
        ctr0 := p.ctr0 }

theorem Refreshed.entLen {m m1 : Manager Val} (r : Refreshed m m1) :
    m1.entities.length = m.entities.length := r.perm.length_eq

theorem Refreshed.drop_eq {m m1 : Manager Val} (r : Refreshed m m1) :
    m1.entities.drop m.sizeNext = m.entities.drop m.sizeNext :=
  drop_eq_of_getD _ _ _ Entity.zero r.entLen r.frame

theorem Refreshed.take_perm {m m1 : Manager Val} (r : Refreshed m m1) :
    (m1.entities.take m.sizeNext).Perm (m.entities.take m.sizeNext) :=
  take_perm_of_perm _ _ _ r.perm r.drop_eq

theorem Inv.refreshed {S : Settings} {m m1 : Manager Val} (h : Inv S m) (r : Refreshed m m1) :
    Inv S m1 where
  hinv := r.hinv
  sizeLe := by rw [r.sizeEq]
  nextLe := by rw [r.capEq]; have := r.nextLe; have := h.nextLe; omega
  deadTail := by
    intro i h1 h2
    rw [r.capEq] at h2
    rcases Nat.lt_or_ge i m.sizeNext with c | c
    · exact r.deadR i (by rw [r.sizeEq]; exact h1) c
    · rw [r.frame i c]; exact h.deadTail i c h2
  dataLt := by
    intro e he
    rw [r.capEq]
    exact h.dataLt e (r.perm.mem_iff.mp he)
  dataNodup := ((r.perm.map Entity.dataIndex).nodup_iff).mpr h.dataNodup
  compCount := by rw [r.compEq]; exact h.compCount
  compLen := by rw [r.compEq, r.capEq]; exact h.compLen
  bitsLen := fun e he => h.bitsLen e (r.perm.mem_iff.mp he)

theorem Inv.refresh {S : Settings} {m m1 : Manager Val} (h : Inv S m)
    (e : m.refresh = some m1) : Inv S m1 := by
  obtain ⟨m2, e2, r⟩ := refresh_spec h.hinv h.nextLe
  rw [e] at e2
  cases e2
  exact h.refreshed r

/-! ## The operations on one entity -/

theorem getEntity_eq_some {m : Manager Val} {i : Nat} {e : Entity}
    (h : m.getEntity i = some e) : i < m.sizeNext ∧ e = m.ent i := by
  simp only [getEntity] at h
  split at h
  · rename_i c; exact ⟨c, by cases h; rfl⟩
  · cases h

theorem getEntity_of_lt {m : Manager Val} {i : Nat} (h : i < m.sizeNext) :
    m.getEntity i = some (m.ent i) := by
  simp [getEntity, h]

theorem kill_eq_some {m m1 : Manager Val} {i : Nat} (e : m.kill i = some m1) :
    i < m.sizeNext ∧ m1 = m.setEnt i { m.ent i with alive := false } := by
  simp only [kill] at e
  split at e
  · rename_i x hx
    obtain ⟨h1, h2⟩ := getEntity_eq_some hx
    cases e
    exact ⟨h1, by rw [h2]⟩
  · cases e

theorem Inv.kill {S : Settings} {m m1 : Manager Val} {i : Nat} (h : Inv S m)
    (e : m.kill i = some m1) : Inv S m1 := by
  obtain ⟨hi, rfl⟩ := kill_eq_some e
  exact h.setEnt i _ rfl rfl (h.bits_len (by have := h.nextLe; omega)) (fun _ => rfl)

theorem Inv.setBit {S : Settings} {m : Manager Val} (h : Inv S m) {i : Nat}
    (hi : i < m.sizeNext) (k : Nat) (b : Bool) :
    Inv S (m.setEnt i { m.ent i with bitset := (m.ent i).bitset.set k b }) := by
  refine h.setEnt i _ rfl rfl ?_ (fun c => by omega)
  simp only [List.length_set]
  exact h.bits_len (by have := h.nextLe; omega)

theorem Inv.addTag {S : Settings} {m m1 : Manager Val} {T : Kind} {i : Nat} (h : Inv S m)
    (e : m.addTag S T i = some m1) : Inv S m1 := by
  simp only [Manager.addTag] at e
  split at e
  · split at e
    · rename_i x hx
      obtain ⟨h1, h2⟩ := getEntity_eq_some hx
      cases e
      rw [h2]
      exact h.setBit h1 _ _
    · cases e
  · cases e

theorem Inv.delTag {S : Settings} {m m1 : Manager Val} {T : Kind} {i : Nat} (h : Inv S m)
    (e : m.delTag S T i = some m1) : Inv S m1 := by
  simp only [Manager.delTag] at e
  split at e
  · split at e
    · rename_i x hx
      obtain ⟨h1, h2⟩ := getEntity_eq_some hx
      cases e
      rw [h2]
      exact h.setBit h1 _ _
    · cases e
  · cases e

theorem Inv.delComponent {S : Settings} {m m1 : Manager Val} {T : Kind} {i : Nat}
    (h : Inv S m) (e : m.delComponent S T i = some m1) : Inv S m1 := by
  simp only [Manager.delComponent] at e
  split at e
  · split at e
    · rename_i x hx
      obtain ⟨h1, h2⟩ := getEntity_eq_some hx
      cases e
      rw [h2]
      exact h.setBit h1 _ _
    · cases e
  · cases e

theorem Inv.addComponent {S : Settings} {m m1 : Manager Val} {T : Kind} {i : Nat} {v : Val}
    (h : Inv S m) (e : m.addComponent S T i v = some m1) : Inv S m1 := by
  simp only [Manager.addComponent] at e
  split at e
  · split at e
    · rename_i x hx
      obtain ⟨h1, h2⟩ := getEntity_eq_some hx
      cases e
      rw [h2]
      exact (h.setBit h1 _ _).write _ _ _
    · cases e
  · cases e

/-! ## Every reachable state satisfies the invariant -/

theorem Inv.step [Inhabited Val] {S : Settings} {m m1 : Manager Val} {op : Op Val}
    (h : Inv S m) (e : m.step S op = some m1) : Inv S m1 := by
  cases op with
  | createIndex =>
    simp only [Manager.step, Option.map_eq_some'] at e
    obtain ⟨⟨i, m2⟩, e1, rfl⟩ := e
    exact h.createIndex e1
  | createHandle =>
    simp only [Manager.step, Option.map_eq_some'] at e
    obtain ⟨⟨x, m2⟩, e1, rfl⟩ := e
    exact h.createHandle e1
  | kill mI => exact h.kill e
  | killH mX =>
    simp only [Manager.step, killH] at e
    split at e
    · exact h.kill e
    · cases e
  | addTag T mI => exact h.addTag e
  | addTagH T mX =>
    simp only [Manager.step, addTagH] at e
    split at e
    · exact h.addTag e
    · cases e
  | delTag T mI => exact h.delTag e
  | delTagH T mX =>
    simp only [Manager.step, delTagH] at e
    split at e
    · exact h.delTag e
    · cases e
  | addComponent T mI v => exact h.addComponent e
  | addComponentH T mX v =>
    simp only [Manager.step, addComponentH] at e
    split at e
    · exact h.addComponent e
    · cases e
  | delComponent T mI => exact h.delComponent e
  | delComponentH T mX =>
    simp only [Manager.step, delComponentH] at e
    split at e
    · exact h.delComponent e
    · cases e
  | refresh => exact h.refresh e
  | clear =>
    simp only [Manager.step] at e
    exact h.clear e

end Manager

theorem Reachable.inv {Val : Type} [Inhabited Val] {S : Settings} {m : Manager Val}
    (h : Reachable S m) : Manager.Inv S m := by
  induction h with
  | init m e => exact Manager.Inv.new e
  | step m m1 op _ e ih => exact ih.step e

theorem Reachable.run {Val : Type} [Inhabited Val] {S : Settings} :
    ∀ (ops : List (Op Val)) (m m1 : Manager Val), Reachable S m → m.run S ops = some m1 →
      Reachable S m1 := by
  intro ops
  induction ops with
  | nil =>
    intro m m1 h e
    simp only [Manager.run] at e
    cases e
    exact h
  | cons op ops ih =>
    intro m m1 h e
    simp only [Manager.run] at e
    split at e
    · rename_i m2 e2
      exact ih m2 m1 (Reachable.step m m2 op h e2) e
    · cases e

theorem Reachable.ofRun {Val : Type} [Inhabited Val] {S : Settings} (ops : List (Op Val))
    (m0 m : Manager Val) (h0 : Manager.new S = some m0) (h : m0.run S ops = some m) :
    Reachable S m :=
  Reachable.run ops m0 m (Reachable.init m0 h0) h

end ecs

namespace ecs

theorem mem_take_getD {α : Type} (l : List α) (r : Nat) (d x : α) (h : x ∈ l.take r) :
    ∃ i, i < r ∧ i < l.length ∧ l.getD i d = x := by
  obtain ⟨i, hi, e⟩ := List.getElem_of_mem h
  have hi2 : i < r ∧ i < l.length := by
    simp only [List.length_take] at hi
    omega
  refine ⟨i, hi2.1, hi2.2, ?_⟩
  rw [List.getD_eq_getElem _ _ hi2.2, ← e]
  simp

theorem getD_mem_take {α : Type} (l : List α) (r i : Nat) (d : α) (h1 : i < r)
    (h2 : i < l.length) : l.getD i d ∈ l.take r := by
  have hi : i < (l.take r).length := by
    simp only [List.length_take]; omega
  have : (l.take r)[i] = l.getD i d := by
    rw [List.getD_eq_getElem _ _ h2]; simp
  rw [← this]
  exact List.getElem_mem hi

theorem mem_drop_getD {α : Type} (l : List α) (r : Nat) (d x : α) (h : x ∈ l.drop r) :
    ∃ i, r ≤ i ∧ i < l.length ∧ l.getD i d = x := by
  obtain ⟨i, hi, e⟩ := List.getElem_of_mem h
  simp only [List.length_drop] at hi
  refine ⟨r + i, by omega, by omega, ?_⟩
  rw [List.getD_eq_getElem _ _ (by omega), ← e]
  simp

/-- A list whose first `r` elements satisfy `p` and whose other elements do not. -/
theorem filter_eq_take {α : Type} (p : α → Bool) (l : List α) (r : Nat) (d : α)
    (h1 : ∀ i, i < r → i < l.length → p (l.getD i d) = true)
    (h2 : ∀ i, r ≤ i → i < l.length → p (l.getD i d) = false) :
    l.filter p = l.take r := by
  have e := List.take_append_drop r l
  conv => lhs; rw [← e]
  rw [List.filter_append]
  have a : (l.take r).filter p = l.take r := by
    rw [List.filter_eq_self]
    intro x hx
    obtain ⟨i, c1, c2, rfl⟩ := mem_take_getD l r d x hx
    exact h1 i c1 c2
  have b : (l.drop r).filter p = [] := by
    rw [List.filter_eq_nil_iff]
    intro x hx
    obtain ⟨i, c1, c2, rfl⟩ := mem_drop_getD l r d x hx
    rw [h2 i c1 c2]
    simp
  rw [a, b, List.append_nil]

namespace Manager

variable {Val : Type}

theorem Refreshed.take_size {S : Settings} {m m1 : Manager Val} (h : Inv S m)
    (r : Refreshed m m1) :
    (m1.entities.take m.sizeNext).filter (fun e => e.alive) = m1.entities.take m1.size := by
  have hlen : m1.entities.length = m.capacity := by rw [r.entLen, h.hinv.entLen]
  have hle : m1.size ≤ m.sizeNext := by rw [r.sizeEq]; exact r.nextLe
  have key := filter_eq_take (fun e : Entity => e.alive) (m1.entities.take m.sizeNext) m1.size
    Entity.zero ?_ ?_
  · rw [key, List.take_take, Nat.min_eq_left hle]
  · intro i c1 c2
    simp only [List.length_take] at c2
    have : (m1.entities.take m.sizeNext).getD i Entity.zero = m1.ent i := by
      rw [List.getD_eq_getElem _ _ (by simp only [List.length_take]; omega)]
      simp only [ent]
      rw [List.getD_eq_getElem _ _ (by omega)]
      simp
    rw [this]
    exact r.aliveL i c1
  · intro i c1 c2
    simp only [List.length_take] at c2
    have : (m1.entities.take m.sizeNext).getD i Entity.zero = m1.ent i := by
      rw [List.getD_eq_getElem _ _ (by simp only [List.length_take]; omega)]
      simp only [ent]
      rw [List.getD_eq_getElem _ _ (by omega)]
      simp
    rw [this]
    exact r.deadR i c1 (by omega)

/-- A record in `[0, sizeNext)` before the refresh is in `[0, sizeNext)` after it. -/
theorem Refreshed.exists_after {S : Settings} {m m1 : Manager Val} (h : Inv S m)
    (r : Refreshed m m1) {i : Nat} (hi : i < m.sizeNext) :
    ∃ k, k < m.sizeNext ∧ m1.ent k = m.ent i := by
  have hl : i < m.entities.length := by rw [h.hinv.entLen]; have := h.nextLe; omega
  have h1 : m.ent i ∈ m.entities.take m.sizeNext := getD_mem_take _ _ _ _ hi hl
  have h2 := r.take_perm.mem_iff.mpr h1
  obtain ⟨k, c1, _, c3⟩ := mem_take_getD _ _ Entity.zero _ h2
  exact ⟨k, c1, c3⟩

/-- A record in `[0, sizeNext)` after the refresh was in `[0, sizeNext)` before it. -/
theorem Refreshed.exists_before {S : Settings} {m m1 : Manager Val} (h : Inv S m)
    (r : Refreshed m m1) {k : Nat} (hk : k < m.sizeNext) :
    ∃ i, i < m.sizeNext ∧ m.ent i = m1.ent k := by
  have hl : k < m1.entities.length := by
    rw [r.entLen, h.hinv.entLen]; have := h.nextLe; omega
  have h1 : m1.ent k ∈ m1.entities.take m.sizeNext := getD_mem_take _ _ _ _ hk hl
  have h2 := r.take_perm.mem_iff.mp h1
  obtain ⟨i, c1, _, c3⟩ := mem_take_getD _ _ Entity.zero _ h2
  exact ⟨i, c1, c3⟩

theorem Refreshed.counter_dead {S : Settings} {m m1 : Manager Val} (h : Inv S m)
    (r : Refreshed m m1) {i : Nat} (hi : i < m.sizeNext) (hd : (m.ent i).alive = false) :
    (m1.hd (m.ent i).handleDataIndex).counter =
      Counter.incr (m.hd (m.ent i).handleDataIndex).counter := by
  obtain ⟨k, c1, c2⟩ := r.exists_after h hi
  have hk : m1.size ≤ k := by
    rcases Nat.lt_or_ge k m1.size with c | c
    · have := r.aliveL k c
      rw [c2, hd] at this
      cases this
    · exact c
  have := r.ctr1 k hk c1
  rw [c2] at this
  exact this

theorem Refreshed.counter_other {S : Settings} {m m1 : Manager Val} (h : Inv S m)
    (r : Refreshed m m1) {j : Nat}
    (hj : ∀ i, i < m.sizeNext → (m.ent i).alive = false → (m.ent i).handleDataIndex ≠ j) :
    (m1.hd j).counter = (m.hd j).counter := by
  apply r.ctr0
  intro k c1 c2
  obtain ⟨i, d1, d2⟩ := r.exists_before h c2
  rw [← d2]
  apply hj i d1
  rw [d2]
  exact r.deadR k c1 c2

/-- When no counter of the table has reached `INT_MAX`, every slot has a counter below it. -/
theorem countersBelowMax_hd {m : Manager Val} (h : m.countersBelowMax = true) (j : Nat) :
    (m.hd j).counter < 2147483647 := by
  simp only [countersBelowMax, List.all_eq_true, decide_eq_true_eq] at h
  rcases Nat.lt_or_ge j m.handleData.length with c | c
  · exact h _ (getD_mem _ _ _ c)
  · simp only [hd]
    rw [List.getD_eq_default _ _ c]
    decide

theorem Refreshed.counter_le {S : Settings} {m m1 : Manager Val} (h : Inv S m)
    (r : Refreshed m m1) (hb : m.countersBelowMax = true) (j : Nat) :
    (m.hd j).counter ≤ (m1.hd j).counter := by
  by_cases c : ∃ i, i < m.sizeNext ∧ (m.ent i).alive = false ∧ (m.ent i).handleDataIndex = j
  · obtain ⟨i, c1, c2, c3⟩ := c
    have := r.counter_dead h c1 c2
    rw [c3] at this
    rw [this]
    exact Counter.le_incr (countersBelowMax_hd hb j)
  · have := r.counter_other h (j := j) (fun i c1 c2 c3 => c ⟨i, c1, c2, c3⟩)
    omega

/-- A record anywhere in the table after the refresh is the record of the same handle slot
before it. -/
theorem Refreshed.same_record {S : Settings} {m m1 : Manager Val} (h : Inv S m)
    (r : Refreshed m m1) {i k : Nat} (hi : i < m.capacity) (hk : k < m.capacity)
    (e : (m1.ent k).handleDataIndex = (m.ent i).handleDataIndex) : m1.ent k = m.ent i := by
  have hl : k < m1.entities.length := by rw [r.entLen, h.hinv.entLen]; exact hk
  have h1 : m1.ent k ∈ m.entities := r.perm.mem_iff.mp (ent_mem m1 k hl)
  obtain ⟨i2, c1, c2⟩ := exists_ent_of_mem m _ h1
  rw [h.hinv.entLen] at c1
  rw [← c2] at e
  have := h.hinv.hdi_inj c1 hi e
  rw [← c2, this]

/-- When every record in `[iD, iA]` is alive, the first inner loop of `refreshImpl` runs to
`iA + 1` and returns without changing the state. -/
theorem refreshLoop_all_alive (m : Manager Val) :
    ∀ (fuel iD iA : Nat), (∀ i, iD ≤ i → i ≤ iA → (m.ent i).alive = true) → iD ≤ iA + 1 →
      iA + 2 - iD ≤ fuel → refreshLoop fuel Phase.scanDead m iD iA = some (iA + 1, m) := by
  intro fuel
  induction fuel with
  | zero => intro iD iA _ h1 h2; omega
  | succ fuel ih =>
    intro iD iA ha h1 h2
    by_cases c : iD > iA
    · have e : iD = iA + 1 := by omega
      simp [refreshLoop, c, e]
    · have a := ha iD (Nat.le_refl _) (by omega)
      have := ih (iD + 1) iA (fun i c1 c2 => ha i (by omega) c2) (by omega) (by omega)
      simp [refreshLoop, c, a, this]

end Manager
end ecs

namespace ecs
namespace Manager

variable {Val : Type}

/-! ## Handles -/

theorem isHandleValid_true {m : Manager Val} {x : Handle}
    (h : m.isHandleValid x = some true) :
    x.handleDataIndex < m.handleData.length ∧ x.counter = (m.hd x.handleDataIndex).counter := by
  simp only [isHandleValid, getHandleData] at h
  split at h
  · rename_i d hd
    split at hd
    · rename_i c
      cases hd
      simp only [Option.some.injEq, decide_eq_true_eq] at h
      exact ⟨c, h⟩
    · cases hd
  · cases h

theorem isHandleValid_of_lt {m : Manager Val} {x : Handle}
    (h : x.handleDataIndex < m.handleData.length) :
    m.isHandleValid x = some (decide (x.counter = (m.hd x.handleDataIndex).counter)) := by
  simp only [isHandleValid, getHandleData, if_pos h]

theorem getEntityIndex_of_valid {m : Manager Val} {x : Handle}
    (h : m.isHandleValid x = some true) :
    m.getEntityIndex x = some (m.hd x.handleDataIndex).entityIndex := by
  have c := (isHandleValid_true h).1
  simp only [getEntityIndex, h, getHandleData, if_pos c]

theorem getEntityIndex_eq_some {m : Manager Val} {x : Handle} {i : Nat}
    (h : m.getEntityIndex x = some i) :
    m.isHandleValid x = some true ∧ i = (m.hd x.handleDataIndex).entityIndex := by
  have hv : m.isHandleValid x = some true := by
    simp only [getEntityIndex] at h
    split at h
    · assumption
    · cases h
  rw [getEntityIndex_of_valid hv] at h
  cases h
  exact ⟨hv, rfl⟩

theorem isAlive_eq_some {m : Manager Val} {i : Nat} {b : Bool} (h : m.isAlive i = some b) :
    i < m.sizeNext ∧ (m.ent i).alive = b := by
  simp only [isAlive] at h
  split at h
  · rename_i e he
    obtain ⟨c1, c2⟩ := getEntity_eq_some he
    cases h
    exact ⟨c1, by rw [c2]⟩
  · cases h

/-- The queries on an entity depend only on its record and on the component storage. -/
theorem hasTag_congr (S : Settings) {m m1 : Manager Val} {i k : Nat} (hi : i < m.sizeNext)
    (hk : k < m1.sizeNext) (e : m1.ent k = m.ent i) (T : Kind) :
    hasTag S m1 T k = hasTag S m T i := by
  simp only [hasTag, getEntity_of_lt hi, getEntity_of_lt hk, e]

theorem hasComponent_congr (S : Settings) {m m1 : Manager Val} {i k : Nat}
    (hi : i < m.sizeNext) (hk : k < m1.sizeNext) (e : m1.ent k = m.ent i) (T : Kind) :
    hasComponent S m1 T k = hasComponent S m T i := by
  simp only [hasComponent, getEntity_of_lt hi, getEntity_of_lt hk, e]

theorem getComponent_congr [Inhabited Val] (S : Settings) {m m1 : Manager Val} {i k : Nat}
    (hi : i < m.sizeNext) (hk : k < m1.sizeNext) (e : m1.ent k = m.ent i)
    (hc : m1.components = m.components) (T : Kind) :
    getComponent S m1 T k = getComponent S m T i := by
  simp only [getComponent, hasComponent_congr S hi hk e, getEntity_of_lt hi,
    getEntity_of_lt hk, e, readComponent, hc]

/-! ## Counters never decrease, except in `clear` -/

theorem setEnt_eq_hd (m : Manager Val) (i : Nat) (e : Entity) :
    (m.setEnt i e).handleData = m.handleData := rfl

/-- A call other than `clear` does not lower `capacity`, and it lowers no counter, provided
that no counter is at `INT_MAX` when the call is a `refresh`. -/
theorem step_counter_le [Inhabited Val] {S : Settings} {m m1 : Manager Val} {op : Op Val}
    (h : Inv S m) (e : m.step S op = some m1) (hc : op.isClear = false)
    (hr : op = Op.refresh → m.countersBelowMax = true) :
    m.capacity ≤ m1.capacity ∧ ∀ j, (m.hd j).counter ≤ (m1.hd j).counter := by
  have same : ∀ {m2 : Manager Val}, m2.capacity = m.capacity → m2.handleData = m.handleData →
      m.capacity ≤ m2.capacity ∧ ∀ j, (m.hd j).counter ≤ (m2.hd j).counter := by
    intro m2 c1 c2
    refine ⟨by omega, fun j => ?_⟩
    simp only [hd, c2]
    exact Int.le_refl _
  have hCreate : ∀ {i : Nat} {m2 : Manager Val}, createIndex S m = some (i, m2) →
      m.capacity ≤ m2.capacity ∧ ∀ j, (m.hd j).counter ≤ (m2.hd j).counter := by
    intro i m2 e1
    obtain ⟨g, eg, e2, _⟩ := createIndex_spec h
    obtain ⟨g2, eg2, _, _, _, _, hcap, _, _, hctr⟩ := growIfNeeded_spec h
    rw [eg] at eg2
    cases eg2
    rw [e1] at e2
    cases e2
    refine ⟨hcap, fun j => ?_⟩
    show (m.hd j).counter ≤ (g.hd j).counter
    rw [hctr j]
  have hSet : ∀ {T : Kind} {i : Nat} {m2 : Manager Val} (f : Entity → Entity),
      (match m.getEntity i with
        | some e => some (m.setEnt i (f e))
        | none => none) = some m2 →
      m.capacity ≤ m2.capacity ∧ ∀ j, (m.hd j).counter ≤ (m2.hd j).counter := by
    intro _ i m2 f e1
    split at e1
    · cases e1; exact same rfl rfl
    · cases e1
  cases op with
  | createIndex =>
    simp only [Manager.step, Option.map_eq_some'] at e
    obtain ⟨⟨i, m2⟩, e1, rfl⟩ := e
    exact hCreate e1
  | createHandle =>
    simp only [Manager.step, Option.map_eq_some'] at e
    obtain ⟨⟨x, m2⟩, e1, rfl⟩ := e
    obtain ⟨g, _, e2, _⟩ := createIndex_spec h
    rw [createHandle_spec h e2] at e1
    cases e1
    exact hCreate e2
  | kill mI =>
    obtain ⟨_, rfl⟩ := kill_eq_some e
    exact same rfl rfl
  | killH mX =>
    simp only [Manager.step, killH] at e
    split at e
    · obtain ⟨_, rfl⟩ := kill_eq_some e
      exact same rfl rfl
    · cases e
  | addTag T mI =>
    simp only [Manager.step, Manager.addTag] at e
    split at e
    · exact hSet (T := T) _ e
    · cases e
  | addTagH T mX =>
    simp only [Manager.step, addTagH, Manager.addTag] at e
    split at e
    · split at e
      · exact hSet (T := T) _ e
      · cases e
    · cases e
  | delTag T mI =>
    simp only [Manager.step, Manager.delTag] at e
    split at e
    · exact hSet (T := T) _ e
    · cases e
  | delTagH T mX =>
    simp only [Manager.step, delTagH, Manager.delTag] at e
    split at e
    · split at e
      · exact hSet (T := T) _ e
      · cases e
    · cases e
  | addComponent T mI v =>
    simp only [Manager.step, Manager.addComponent] at e
    split at e
    · split at e
      · cases e; exact same rfl rfl
      · cases e
    · cases e
  | addComponentH T mX v =>
    simp only [Manager.step, addComponentH, Manager.addComponent] at e
    split at e
    · split at e
      · split at e
        · cases e; exact same rfl rfl
        · cases e
      · cases e
    · cases e
  | delComponent T mI =>
    simp only [Manager.step, Manager.delComponent] at e
    split at e
    · exact hSet (T := T) _ e
    · cases e
  | delComponentH T mX =>
    simp only [Manager.step, delComponentH, Manager.delComponent] at e
    split at e
    · split at e
      · exact hSet (T := T) _ e
      · cases e
    · cases e
  | refresh =>
    obtain ⟨m2, e2, r⟩ := refresh_spec h.hinv h.nextLe
    simp only [Manager.step] at e
    rw [e] at e2
    cases e2
    exact ⟨by rw [r.capEq], r.counter_le h (hr rfl)⟩
  | clear => simp [Op.isClear] at hc

theorem step_capacity_le [Inhabited Val] {S : Settings} {m m1 : Manager Val} {op : Op Val}
    (h : Inv S m) (e : m.step S op = some m1) : m.capacity ≤ m1.capacity := by
  cases op with
  | refresh =>
    obtain ⟨m2, e2, r⟩ := refresh_spec h.hinv h.nextLe
    simp only [Manager.step] at e
    rw [e] at e2
    cases e2
    rw [r.capEq]
  | clear =>
    simp only [Manager.step] at e
    rw [(clear_eq_some e).2, cleared_capacity]
  | _ => exact (step_counter_le h e rfl (fun c => Op.noConfusion c)).1

end Manager
end ecs

namespace ecs
namespace Manager

variable {Val : Type}

/-! ## Counters stay in the range of `int` -/

theorem testNew_eq : Manager.new testSettings = some testNew := by rfl

theorem testNew_reachable : Reachable testSettings testNew := Reachable.init _ testNew_eq

end Manager

end ecs

namespace ecs

open Manager

variable {Val : Type}

/-! ## The claims about `refresh` and handles -/

/-- C1: in every reachable state `refresh()` returns, and afterwards `size == sizeNext`, every
entity record at an index below `size` is alive, and every record at an index in
`[size, sizeNext before the call)` is dead. -/
theorem refresh_alive_front [Inhabited Val] (S : Settings) (m : Manager Val)
    (h : Reachable S m) :
    ∃ m1, m.refresh = some m1 ∧ m1.size = m1.sizeNext ∧
      (∀ i, i < m1.size → (m1.ent i).alive = true) ∧
      (∀ i, m1.size ≤ i → i < m.sizeNext → (m1.ent i).alive = false) := by
  obtain ⟨m1, e, r⟩ := refresh_spec h.inv.hinv h.inv.nextLe
  exact ⟨m1, e, r.sizeEq, r.aliveL, r.deadR⟩

/-- The statement of C1 for the state with three entities, the first one killed. -/
theorem refresh_alive_front_witness :
    ∃ m1, testThree.refresh = some m1 ∧ m1.size = m1.sizeNext ∧
      (∀ i, i < m1.size → (m1.ent i).alive = true) ∧
      (∀ i, m1.size ≤ i → i < testThree.sizeNext → (m1.ent i).alive = false) :=
  refresh_alive_front testSettings testThree
    (Reachable.ofRun [Op.createIndex, Op.createIndex, Op.createIndex, Op.kill 0] testNew _
      (by rfl) (by rfl))

/-- C2: in every reachable state `refresh()` only permutes the entity records in
`[0, sizeNext)`: the records in `[0, size)` afterwards are exactly the records that were alive
in `[0, sizeNext)` before the call (whole records, so with their `dataIndex` and bitset), the
new `size` is the number of records alive before the call, and the records from `sizeNext` on
are untouched. -/
theorem refresh_permutes_alive [Inhabited Val] (S : Settings) (m : Manager Val)
    (h : Reachable S m) :
    ∃ m1, m.refresh = some m1 ∧
      (m1.entities.take m1.size).Perm
        ((m.entities.take m.sizeNext).filter (fun e => e.alive)) ∧
      m1.size = ((m.entities.take m.sizeNext).filter (fun e => e.alive)).length ∧
      (m1.entities.take m.sizeNext).Perm (m.entities.take m.sizeNext) ∧
      m1.entities.drop m.sizeNext = m.entities.drop m.sizeNext := by
  obtain ⟨m1, e, r⟩ := refresh_spec h.inv.hinv h.inv.nextLe
  have p : (m1.entities.take m1.size).Perm
      ((m.entities.take m.sizeNext).filter (fun e => e.alive)) := by
    rw [← r.take_size h.inv]
    exact r.take_perm.filter _
  refine ⟨m1, e, p, ?_, r.take_perm, r.drop_eq⟩
  have hlen : m1.entities.length = m.capacity := by rw [r.entLen, h.inv.hinv.entLen]
  have hle : m1.size ≤ m.capacity := by
    have := r.nextLe; have := h.inv.nextLe; have := r.sizeEq; omega
  rw [← p.length_eq, List.length_take, hlen]
  omega

/-- The statement of C2 for the scenario of the specification: five entities created, the ones at indices 1 and 3 killed; the refresh gives size 3 and the records with data slots 0, 4, 2. -/
theorem refresh_permutes_alive_witness :
    (∃ m1, testFive.refresh = some m1 ∧
        (m1.entities.take m1.size).Perm
          ((testFive.entities.take testFive.sizeNext).filter (fun e => e.alive)) ∧
        m1.size = ((testFive.entities.take testFive.sizeNext).filter
          (fun e => e.alive)).length ∧
        (m1.entities.take testFive.sizeNext).Perm (testFive.entities.take testFive.sizeNext) ∧
        m1.entities.drop testFive.sizeNext = testFive.entities.drop testFive.sizeNext) ∧
      testFive.refresh.map
          (fun m1 => (m1.size, (m1.entities.take m1.size).map Entity.dataIndex)) =
        some (3, [0, 4, 2]) :=
  ⟨refresh_permutes_alive testSettings testFive
    (Reachable.ofRun testFiveOps testNew _ (by rfl) (by rfl)), by rfl⟩

/-- C3: in every reachable state, for every handle that is valid and whose entity is alive:
after `refresh()` the handle is still valid and the record it resolves to has the same
`dataIndex` and the same bitset as the record it resolved to before (it is the same record),
so `getComponent`, `hasComponent` and `hasTag` through the handle give the same results. -/
theorem refresh_keeps_alive_handle [Inhabited Val] (S : Settings) (m : Manager Val)
    (h : Reachable S m) (x : Handle) (i : Nat)
    (hv : m.isHandleValid x = some true) (hi : m.getEntityIndex x = some i)
    (ha : m.isAlive i = some true) :
    ∃ m1 k, m.refresh = some m1 ∧ m1.isHandleValid x = some true ∧
      m1.getEntityIndex x = some k ∧ m1.isAlive k = some true ∧
      (m1.ent k).dataIndex = (m.ent i).dataIndex ∧ (m1.ent k).bitset = (m.ent i).bitset ∧
      (∀ T, getComponentH S m1 T x = getComponentH S m T x) ∧
      (∀ T, hasComponentH S m1 T x = hasComponentH S m T x) ∧
      (∀ T, hasTagH S m1 T x = hasTagH S m T x) := by
  have inv := h.inv
  obtain ⟨m1, e, r⟩ := refresh_spec inv.hinv inv.nextLe
  have inv1 := inv.refreshed r
  obtain ⟨hx, hctr⟩ := isHandleValid_true hv
  rw [inv.hinv.hdLen] at hx
  obtain ⟨_, hi2⟩ := getEntityIndex_eq_some hi
  obtain ⟨hlt, halive⟩ := isAlive_eq_some ha
  have hicap : i < m.capacity := by have := inv.nextLe; omega
  have hfwd : (m.ent i).handleDataIndex = x.handleDataIndex := by
    rw [hi2]; exact inv.hinv.fwd _ hx
  have hsame : (m1.hd x.handleDataIndex).counter = (m.hd x.handleDataIndex).counter := by
    apply r.counter_other inv
    intro i2 c1 c2 c3
    have := inv.hinv.hdi_inj (by have := inv.nextLe; omega) hicap (c3.trans hfwd.symm)
    rw [this, halive] at c2
    cases c2
  have hx1 : x.handleDataIndex < m1.handleData.length := by
    rw [inv1.hinv.hdLen, r.capEq]; exact hx
  have hv1 : m1.isHandleValid x = some true := by
    rw [isHandleValid_of_lt hx1, hsame, ← hctr]
    simp
  have hkcap : (m1.hd x.handleDataIndex).entityIndex < m.capacity := by
    rw [← r.capEq]; exact inv1.hinv.eiLt _ (by rw [r.capEq]; exact hx)
  have hrec : m1.ent (m1.hd x.handleDataIndex).entityIndex = m.ent i := by
    apply r.same_record inv hicap hkcap
    rw [inv1.hinv.fwd _ (by rw [r.capEq]; exact hx), hfwd]
  have hk : (m1.hd x.handleDataIndex).entityIndex < m1.sizeNext := by
    rcases Nat.lt_or_ge (m1.hd x.handleDataIndex).entityIndex m1.sizeNext with c | c
    · exact c
    · have := inv1.deadTail _ c (by rw [r.capEq]; exact hkcap)
      rw [hrec, halive] at this
      cases this
  have hgi := getEntityIndex_of_valid hv1
  refine ⟨m1, _, e, hv1, hgi, ?_, by rw [hrec], by rw [hrec], ?_, ?_, ?_⟩
  · simp only [isAlive, getEntity_of_lt hk, hrec, halive]
  · intro T
    simp only [getComponentH, hgi, hi]
    exact getComponent_congr S hlt hk hrec r.compEq T
  · intro T
    simp only [hasComponentH, hgi, hi]
    exact hasComponent_congr S hlt hk hrec T
  · intro T
    simp only [hasTagH, hgi, hi]
    exact hasTag_congr S hlt hk hrec T

/-- The statement of C3 for the handle of the third of three entities, which the refresh moves from index 2 to index 0. -/
theorem refresh_keeps_alive_handle_witness :
    ∃ m1 k, testHandles.refresh = some m1 ∧
      m1.isHandleValid { handleDataIndex := 2, counter := 0 } = some true ∧
      m1.getEntityIndex { handleDataIndex := 2, counter := 0 } = some k ∧
      m1.isAlive k = some true ∧
      (m1.ent k).dataIndex = (testHandles.ent 2).dataIndex ∧
      (m1.ent k).bitset = (testHandles.ent 2).bitset ∧
      (∀ T, getComponentH testSettings m1 T { handleDataIndex := 2, counter := 0 } =
        getComponentH testSettings testHandles T { handleDataIndex := 2, counter := 0 }) ∧
      (∀ T, hasComponentH testSettings m1 T { handleDataIndex := 2, counter := 0 } =
        hasComponentH testSettings testHandles T { handleDataIndex := 2, counter := 0 }) ∧
      (∀ T, hasTagH testSettings m1 T { handleDataIndex := 2, counter := 0 } =
        hasTagH testSettings testHandles T { handleDataIndex := 2, counter := 0 }) :=
  refresh_keeps_alive_handle testSettings testHandles
    (Reachable.ofRun testHandlesOps testNew _ (by rfl) (by rfl))
    { handleDataIndex := 2, counter := 0 } 2 (by rfl) (by rfl) (by rfl)

/-- C4: in every reachable state, for every valid handle: after `kill` through the handle
followed by `refresh()`, the handle is invalid. -/
theorem kill_refresh_invalidates [Inhabited Val] (S : Settings) (m m1 : Manager Val)
    (h : Reachable S m) (x : Handle) (hv : m.isHandleValid x = some true)
    (hk : m.killH x = some m1) :
    ∃ m2, m1.refresh = some m2 ∧ m2.isHandleValid x = some false := by
  have inv := h.inv
  obtain ⟨hx, hctr⟩ := isHandleValid_true hv
  have hxc : x.handleDataIndex < m.capacity := by rw [← inv.hinv.hdLen]; exact hx
  have hgi := getEntityIndex_of_valid hv
  simp only [killH, hgi] at hk
  obtain ⟨hlt, rfl⟩ := kill_eq_some hk
  have inv1 : Inv S (m.setEnt (m.hd x.handleDataIndex).entityIndex
      { m.ent (m.hd x.handleDataIndex).entityIndex with alive := false }) := inv.kill hk
  obtain ⟨m2, e, r⟩ := refresh_spec inv1.hinv inv1.nextLe
  have hl : (m.hd x.handleDataIndex).entityIndex < m.entities.length := by
    rw [inv.hinv.entLen]; exact inv.hinv.eiLt _ hxc
  have hrec : (m.setEnt (m.hd x.handleDataIndex).entityIndex
      { m.ent (m.hd x.handleDataIndex).entityIndex with alive := false }).ent
        (m.hd x.handleDataIndex).entityIndex =
      { m.ent (m.hd x.handleDataIndex).entityIndex with alive := false } := by
    rw [setEnt_ent, if_pos ⟨rfl, hl⟩]
  have hc := r.counter_dead inv1 (i := (m.hd x.handleDataIndex).entityIndex) hlt
    (by rw [hrec])
  rw [hrec] at hc
  simp only [inv.hinv.fwd _ hxc, setEnt_hd] at hc
  have hx2 : x.handleDataIndex < m2.handleData.length := by
    rw [r.hinv.hdLen, r.capEq]; exact hxc
  refine ⟨m2, e, ?_⟩
  rw [isHandleValid_of_lt hx2, hc, hctr]
  simp only [Option.some.injEq, decide_eq_false_iff_not]
  exact fun c => Counter.incr_ne _ c.symm

/-- The statement of C4 for the scenario of the specification: an entity is created through a handle, gets a component of value 5, is killed through the handle, and the manager is refreshed. -/
theorem kill_refresh_invalidates_witness :
    ∃ m2, (testRun [Op.createHandle,
        Op.addComponentH 1 { handleDataIndex := 0, counter := 0 } 5,
        Op.killH { handleDataIndex := 0, counter := 0 }]).refresh = some m2 ∧
      m2.isHandleValid { handleDataIndex := 0, counter := 0 } = some false :=
  kill_refresh_invalidates testSettings testOne _
    (Reachable.ofRun [Op.createHandle,
      Op.addComponentH 1 { handleDataIndex := 0, counter := 0 } 5] testNew _ (by rfl) (by rfl))
    { handleDataIndex := 0, counter := 0 } (by rfl) (by rfl)

end ecs

namespace ecs

open Manager

variable {Val : Type}

/-- C6, what the code does instead: a handle returned by `createHandle()` on a new manager has
counter `0`, and `clear()` resets every counter to `0`, so the handle is still valid after
`clear()`. -/
theorem clear_keeps_handle_valid :
    ¬ (∀ (m m1 m2 : Manager Int) (x : Handle), Reachable testSettings m →
        m.createHandle testSettings = some (x, m1) → m1.clear testSettings = some m2 →
        m2.isHandleValid x = some false) := by
  intro H
  have h := H testNew (testRun [Op.createHandle]) (testRun [Op.createHandle, Op.clear])
    { handleDataIndex := 0, counter := 0 } testNew_reachable (by rfl) (by rfl)
  exact absurd h (by decide)

/-- C6, amended: in every reachable state `clear()` returns exactly when `capacity < 2 ^ 32`
(its loop counter is a 32-bit `unsigned`), and when it returns, a handle whose slot exists (in
particular every handle returned by `createHandle()`) is valid afterwards exactly when its
counter is `0`. -/
theorem clear_handle_valid_iff [Inhabited Val] (S : Settings) (m : Manager Val)
    (h : Reachable S m) (x : Handle) (hx : x.handleDataIndex < m.capacity) :
    (m.capacity < 4294967296 → ∃ m1, m.clear S = some m1) ∧
    (4294967296 ≤ m.capacity → m.clear S = none) ∧
    ∀ m1, m.clear S = some m1 → m1.isHandleValid x = some (decide (x.counter = 0)) := by
  refine ⟨fun c => ⟨_, clear_of_lt S c⟩, fun c => ?_, fun m1 e => ?_⟩
  · rw [clear_eq, if_neg (by omega)]
  · obtain ⟨_, rfl⟩ := clear_eq_some e
    have hl : x.handleDataIndex < m.handleData.length := by rw [h.inv.hinv.hdLen]; exact hx
    rw [isHandleValid_of_lt (by simpa using hl), cleared_hd, if_pos ⟨hx, hl⟩]
    rfl

/-- The amended C6 on the state in which a reclaimed slot has counter `1`: `clear()` returns,
and a handle with counter `1` is invalid afterwards. -/
theorem clear_handle_valid_iff_witness :
    ∃ m1, testStale.clear testSettings = some m1 ∧
      m1.isHandleValid { handleDataIndex := 0, counter := 1 } = some false := by
  have h := clear_handle_valid_iff testSettings testStale
    (Reachable.ofRun testStaleOps testNew _ (by rfl) (by rfl))
    { handleDataIndex := 0, counter := 1 } (by decide)
  obtain ⟨m1, e⟩ := h.1 (by decide)
  exact ⟨m1, e, h.2.2 m1 e⟩

/-- C8: in every reachable state the map `i ↦ entities[i].handleDataIndex` is a bijection of
`[0, capacity)` onto itself and the handle slot referenced by record `i` points back to `i`;
the same holds after a call of `growTo` and after every call of a public operation
(`createIndex`, `createHandle`, `kill`, the tag and component operations, `refresh`, `clear`)
in such a state. -/
theorem handle_slots_bijective [Inhabited Val] (S : Settings) (m : Manager Val)
    (h : Reachable S m) :
    m.HandleBij ∧ (∀ n m1, m.growTo S n = some m1 → m1.HandleBij) ∧
      (∀ op m1, m.step S op = some m1 → m1.HandleBij) := by
  have key : ∀ m2 : Manager Val, Inv S m2 → m2.HandleBij := by
    intro m2 inv
    refine ⟨⟨?_, ?_, ?_⟩, inv.hinv.back⟩
    · intro i hi
      exact inv.hinv.hdiLt i hi
    · intro i hi k hk e
      exact inv.hinv.hdi_inj hi hk e
    · intro j hj
      exact ⟨(m2.hd j).entityIndex, inv.hinv.eiLt j hj, inv.hinv.fwd j hj⟩
  exact ⟨key m h.inv, fun n m1 e => key m1 (h.inv.growTo e),
    fun op m1 e => key m1 (h.inv.step e)⟩

/-- The statement of C8 for the state with five entities, two of them killed. -/
theorem handle_slots_bijective_witness :
    testFive.HandleBij ∧
      (∀ n m1, testFive.growTo testSettings n = some m1 → m1.HandleBij) ∧
      (∀ op m1, testFive.step testSettings op = some m1 → m1.HandleBij) :=
  handle_slots_bijective testSettings testFive
    (Reachable.ofRun testFiveOps testNew _ (by rfl) (by rfl))

/-- C9: in every reachable state the data-slot indices of the `capacity` entity records are a
permutation of `[0, capacity)`: each is below `capacity`, hence within every component
vector, and no two records share a data slot. -/
theorem data_slots_permutation [Inhabited Val] (S : Settings) (m : Manager Val)
    (h : Reachable S m) :
    (m.entities.map Entity.dataIndex).Perm (List.range m.capacity) ∧
      (∀ i, i < m.capacity → (m.ent i).dataIndex < m.capacity) ∧
      (∀ i k, i < m.capacity → k < m.capacity →
        (m.ent i).dataIndex = (m.ent k).dataIndex → i = k) ∧
      (∀ v ∈ m.components, ∀ i, i < m.capacity → (m.ent i).dataIndex < v.length) := by
  have inv := h.inv
  refine ⟨?_, fun i hi => inv.data_lt hi, fun i k hi hk e => inv.data_inj hi hk e, ?_⟩
  · apply (List.subperm_of_subset inv.dataNodup ?_).perm_of_length_le
    · simp [inv.hinv.entLen]
    · intro a ha
      obtain ⟨e, he, rfl⟩ := List.mem_map.mp ha
      exact List.mem_range.mpr (inv.dataLt e he)
  · intro v hv i hi
    rw [inv.compLen v hv]
    exact inv.data_lt hi

/-- The statement of C9 for the state after an entity was reclaimed. -/
theorem data_slots_permutation_witness :
    (testStale.entities.map Entity.dataIndex).Perm (List.range testStale.capacity) ∧
      (∀ i, i < testStale.capacity → (testStale.ent i).dataIndex < testStale.capacity) ∧
      (∀ i k, i < testStale.capacity → k < testStale.capacity →
        (testStale.ent i).dataIndex = (testStale.ent k).dataIndex → i = k) ∧
      (∀ v ∈ testStale.components, ∀ i, i < testStale.capacity →
        (testStale.ent i).dataIndex < v.length) :=
  data_slots_permutation testSettings testStale
    (Reachable.ofRun testStaleOps testNew _ (by rfl) (by rfl))

/-- C10: in every reachable state `refresh()` returns a state in which a second `refresh()`
changes nothing: sizes, entity records, handle slots and component data are all the same. -/
theorem refresh_idempotent [Inhabited Val] (S : Settings) (m : Manager Val)
    (h : Reachable S m) :
    ∃ m1, m.refresh = some m1 ∧ m1.refresh = some m1 := by
  obtain ⟨m1, e, r⟩ := refresh_spec h.inv.hinv h.inv.nextLe
  refine ⟨m1, e, ?_⟩
  have hs := r.sizeEq
  by_cases c : m1.sizeNext = 0
  · simp only [refresh, if_pos c]
    cases m1
    simp only at hs c
    simp [hs, c]
  · have hl := refreshLoop_all_alive m1 (2 * m1.sizeNext + 1) 0 (m1.sizeNext - 1)
      (fun i _ c2 => r.aliveL i (by omega)) (by omega) (by omega)
    have e1 : m1.sizeNext - 1 + 1 = m1.sizeNext := by omega
    rw [e1] at hl
    simp only [refresh, if_neg c, refreshImpl, hl]
    cases m1
    simp only at hs
    simp [hs]

/-- The statement of C10 for the state with three handles, one entity killed. -/
theorem refresh_idempotent_witness :
    ∃ m1, testHandles.refresh = some m1 ∧ m1.refresh = some m1 :=
  refresh_idempotent testSettings testHandles
    (Reachable.ofRun testHandlesOps testNew _ (by rfl) (by rfl))

end ecs

namespace ecs

/-! ## Bitsets -/

theorem foldl_setBit_length {α : Type} (f : α → Nat) :
    ∀ (L : List α) (b : Bitset), (L.foldl (fun b t => b.set (f t) true) b).length = b.length := by
  intro L
  induction L with
  | nil => intro b; rfl
  | cons t L ih =>
    intro b
    simp only [List.foldl_cons]
    rw [ih, List.length_set]

theorem foldl_setBit_getD {α : Type} (f : α → Nat) :
    ∀ (L : List α) (b : Bitset) (k : Nat),
      (L.foldl (fun b t => b.set (f t) true) b).getD k false = true ↔
        (b.getD k false = true ∨ (k < b.length ∧ ∃ t ∈ L, f t = k)) := by
  intro L
  induction L with
  | nil => intro b k; simp
  | cons t L ih =>
    intro b k
    simp only [List.foldl_cons]
    rw [ih, getD_set, List.length_set]
    constructor
    · rintro (h | ⟨h1, t2, h2, h3⟩)
      · split at h
        · rename_i c
          exact Or.inr ⟨by omega, t, List.mem_cons_self _ _, c.1⟩
        · exact Or.inl h
      · exact Or.inr ⟨h1, t2, List.mem_cons_of_mem _ h2, h3⟩
    · rintro (h | ⟨h1, t2, h2, h3⟩)
      · left
        split
        · rfl
        · exact h
      · rcases List.mem_cons.mp h2 with e | e
        · left
          rw [if_pos ⟨by rw [← e, h3], by rw [← e, h3]; exact h1⟩]
        · exact Or.inr ⟨h1, t2, e, h3⟩

theorem Bitset.and_eq_left_iff :
    ∀ (a b : Bitset), a.length = b.length →
      (Bitset.and a b = a ↔ ∀ k, a.getD k false = true → b.getD k false = true) := by
  intro a
  induction a with
  | nil =>
    intro b _
    simp [Bitset.and]
  | cons x a ih =>
    intro b hb
    cases b with
    | nil => simp at hb
    | cons y b =>
      simp only [List.length_cons, Nat.add_right_cancel_iff] at hb
      have ih2 := ih b hb
      simp only [Bitset.and] at ih2 ⊢
      simp only [List.zipWith_cons_cons, List.cons.injEq]
      rw [ih2]
      constructor
      · rintro ⟨h1, h2⟩ k hk
        cases k with
        | zero =>
          simp only [List.getD_cons_zero] at hk ⊢
          rw [hk] at h1
          simpa using h1
        | succ k =>
          simp only [List.getD_cons_succ] at hk ⊢
          exact h2 k hk
      · intro h
        refine ⟨?_, fun k hk => h (k + 1) (by simpa using hk)⟩
        have h0 := h 0
        simp only [List.getD_cons_zero] at h0
        cases x with
        | false => rfl
        | true => simp [h0 rfl]

theorem Bitset.reset_getD (n k : Nat) : (Bitset.reset n).getD k false = false := by
  simp only [Bitset.reset, List.getD_eq_getElem?_getD, List.getElem?_replicate]
  split <;> rfl

theorem Bitset.reset_length (n : Nat) : (Bitset.reset n).length = n := by
  simp [Bitset.reset]

/-! ## The position of an element in a list -/

theorem indexOf_lt_of_mem {α : Type} [BEq α] [LawfulBEq α] {a : α} {l : List α} (h : a ∈ l) :
    l.indexOf a < l.length := by
  simp only [List.indexOf]
  exact List.findIdx_lt_length_of_exists ⟨a, h, by simp⟩

theorem getD_indexOf {α : Type} [BEq α] [LawfulBEq α] {a : α} {l : List α} (d : α)
    (h : a ∈ l) : l.getD (l.indexOf a) d = a := by
  have hlt := indexOf_lt_of_mem h
  rw [List.getD_eq_getElem _ _ hlt]
  have := @List.findIdx_getElem α (fun x => x == a) l (by simpa [List.indexOf] using hlt)
  simpa [List.indexOf] using this

theorem getD_ne_of_lt_indexOf {α : Type} [BEq α] [LawfulBEq α] {a : α} {l : List α} (d : α)
    {j : Nat} (h : j < l.indexOf a) : l.getD j d ≠ a := by
  have hle : l.indexOf a ≤ l.length := by
    simp only [List.indexOf]; exact List.findIdx_le_length _
  rw [List.getD_eq_getElem _ _ (by omega)]
  have := @List.not_of_lt_findIdx α (fun x => x == a) l j (by simpa [List.indexOf] using h)
  simpa using this

theorem indexOf_inj_of_mem {α : Type} [BEq α] [LawfulBEq α] {a b : α} {l : List α}
    (ha : a ∈ l) (hb : b ∈ l) (e : l.indexOf a = l.indexOf b) : a = b := by
  have h1 := getD_indexOf a ha
  have h2 := getD_indexOf a hb
  rw [e] at h1
  rw [← h1, h2]

namespace Settings

/-! ## Bit indices -/

theorem mem_of_isComponent {S : Settings} {C : Kind} (h : S.isComponent C = true) :
    C ∈ S.componentList := by
  simpa [isComponent] using h

theorem mem_of_isTag {S : Settings} {T : Kind} (h : S.isTag T = true) : T ∈ S.tagList := by
  simpa [isTag] using h

theorem mem_of_isSignature {S : Settings} {T : List Kind} (h : S.isSignature T = true) :
    T ∈ S.signatureList := by
  simpa [isSignature] using h

theorem componentBit_lt {S : Settings} {C : Kind} (h : S.isComponent C = true) :
    S.componentBit C < S.bitCount := by
  have := indexOf_lt_of_mem (mem_of_isComponent h)
  simp only [componentBit, componentID, bitCount, componentCount]
  omega

theorem tagBit_lt {S : Settings} {T : Kind} (h : S.isTag T = true) :
    S.tagBit T < S.bitCount := by
  have := indexOf_lt_of_mem (mem_of_isTag h)
  simp only [tagBit, tagID, bitCount, tagCount]
  omega

theorem signatureID_lt {S : Settings} {T : List Kind} (h : T ∈ S.signatureList) :
    S.signatureID T < S.signatureCount :=
  indexOf_lt_of_mem h

theorem signatureID_inj {S : Settings} {T T2 : List Kind} (h : T ∈ S.signatureList)
    (h2 : T2 ∈ S.signatureList) (e : S.signatureID T = S.signatureID T2) : T = T2 :=
  indexOf_inj_of_mem h h2 e

theorem requires_lt {S : Settings} {T : List Kind} {k : Nat} (h : S.requires T k) :
    k < S.bitCount := by
  rcases h with ⟨C, _, h1, rfl⟩ | ⟨t, _, h1, rfl⟩
  · exact componentBit_lt h1
  · exact tagBit_lt h1

end Settings

namespace SignatureBitsetsStorage

/-! ## The signature bitsets -/

theorem initializeBitset_length (S : Settings) (st : SignatureBitsetsStorage) (T : List Kind) :
    (initializeBitset S st T).length = st.length := by
  simp [initializeBitset, forTypes]

/-- The bitset written by `initializeBitset<T>`: the old bits and the required ones. -/
theorem initializeBitset_slot (S : Settings) (st : SignatureBitsetsStorage) (T : List Kind)
    (hT : S.signatureID T < st.length)
    (hlen : (st.getD (S.signatureID T) []).length = S.bitCount) (k : Nat) :
    ((initializeBitset S st T).getD (S.signatureID T) []).length = S.bitCount ∧
    (((initializeBitset S st T).getD (S.signatureID T) []).getD k false = true ↔
      ((st.getD (S.signatureID T) []).getD k false = true ∨ S.requires T k)) := by
  simp only [initializeBitset, forTypes, getSignatureBitset, getD_set, hT, and_self, if_true]
  refine ⟨by rw [foldl_setBit_length, foldl_setBit_length, hlen], ?_⟩
  rw [foldl_setBit_getD, foldl_setBit_getD, foldl_setBit_length, hlen]
  simp only [Settings.signatureTags, Settings.signatureComponents, List.mem_filter]
  constructor
  · rintro ((h | ⟨_, C, ⟨h1, h2⟩, h3⟩) | ⟨_, t, ⟨h1, h2⟩, h3⟩)
    · exact Or.inl h
    · exact Or.inr (Or.inl ⟨C, h1, h2, h3.symm⟩)
    · exact Or.inr (Or.inr ⟨t, h1, h2, h3.symm⟩)
  · rintro (h | ⟨C, h1, h2, h3⟩ | ⟨t, h1, h2, h3⟩)
    · exact Or.inl (Or.inl h)
    · exact Or.inl (Or.inr ⟨by rw [h3]; exact Settings.componentBit_lt h2, C, ⟨h1, h2⟩, h3.symm⟩)
    · exact Or.inr ⟨by rw [h3]; exact Settings.tagBit_lt h2, t, ⟨h1, h2⟩, h3.symm⟩

theorem initializeBitset_other (S : Settings) (st : SignatureBitsetsStorage) (T : List Kind)
    (j : Nat) (hj : j ≠ S.signatureID T) :
    (initializeBitset S st T).getD j [] = st.getD j [] := by
  simp only [initializeBitset, forTypes, getD_set]
  rw [if_neg (fun c => hj c.1.symm)]

/-- The storage after the initialisation of the signatures of `L`: slot `j` holds the bits
required by the signatures of `L` whose ID is `j`. -/
theorem foldl_initializeBitset (S : Settings) :
    ∀ (L : List (List Kind)) (st : SignatureBitsetsStorage),
      (∀ T ∈ L, T ∈ S.signatureList) → st.length = S.signatureCount →
      (∀ j, j < S.signatureCount → (st.getD j []).length = S.bitCount) →
      (L.foldl (initializeBitset S) st).length = S.signatureCount ∧
      ∀ j, j < S.signatureCount →
        ((L.foldl (initializeBitset S) st).getD j []).length = S.bitCount ∧
        ∀ k, ((L.foldl (initializeBitset S) st).getD j []).getD k false = true ↔
          ((st.getD j []).getD k false = true ∨
            ∃ T ∈ L, S.signatureID T = j ∧ S.requires T k) := by
  intro L
  induction L with
  | nil =>
    intro st _ h1 h2
    exact ⟨h1, fun j hj => ⟨h2 j hj, fun k => by simp⟩⟩
  | cons T L ih =>
    intro st hL h1 h2
    have hT : T ∈ S.signatureList := hL T (List.mem_cons_self _ _)
    have hid : S.signatureID T < st.length := by rw [h1]; exact Settings.signatureID_lt hT
    have hlen2 : ∀ j, j < S.signatureCount →
        ((initializeBitset S st T).getD j []).length = S.bitCount := by
      intro j hj
      by_cases c : j = S.signatureID T
      · rw [c]
        exact (initializeBitset_slot S st T hid (h2 _ (by rw [← c]; exact hj)) 0).1
      · rw [initializeBitset_other S st T j c]
        exact h2 j hj
    obtain ⟨a1, a2⟩ := ih (initializeBitset S st T)
      (fun T2 h => hL T2 (List.mem_cons_of_mem _ h))
      (by rw [initializeBitset_length, h1]) hlen2
    simp only [List.foldl_cons]
    refine ⟨a1, fun j hj => ⟨(a2 j hj).1, fun k => ?_⟩⟩
    rw [(a2 j hj).2 k]
    by_cases c : j = S.signatureID T
    · subst c
      rw [(initializeBitset_slot S st T hid (h2 _ hj) k).2]
      constructor
      · rintro ((h | h) | ⟨T2, h3, h4, h5⟩)
        · exact Or.inl h
        · exact Or.inr ⟨T, List.mem_cons_self _ _, rfl, h⟩
        · exact Or.inr ⟨T2, List.mem_cons_of_mem _ h3, h4, h5⟩
      · rintro (h | ⟨T2, h3, h4, h5⟩)
        · exact Or.inl (Or.inl h)
        · rcases List.mem_cons.mp h3 with e | e
          · subst e
            exact Or.inl (Or.inr h5)
          · exact Or.inr ⟨T2, e, h4, h5⟩
    · rw [initializeBitset_other S st T j c]
      constructor
      · rintro (h | ⟨T2, h3, h4, h5⟩)
        · exact Or.inl h
        · exact Or.inr ⟨T2, List.mem_cons_of_mem _ h3, h4, h5⟩
      · rintro (h | ⟨T2, h3, h4, h5⟩)
        · exact Or.inl h
        · rcases List.mem_cons.mp h3 with e | e
          · subst e
            exact absurd h4.symm c
          · exact Or.inr ⟨T2, e, h4, h5⟩

theorem zero_getD (S : Settings) (j : Nat) (hj : j < S.signatureCount) :
    (zero S).getD j [] = Bitset.reset S.bitCount := by
  simp only [zero, List.getD_eq_getElem?_getD, List.getElem?_replicate, if_pos hj]
  rfl

/-- The bitset stored for a signature of the signature list: its width is the width of the
entity bitsets and its bits are the required ones. -/
theorem new_spec (S : Settings) (T : List Kind) (hT : T ∈ S.signatureList) :
    (getSignatureBitset S (new S) T).length = S.bitCount ∧
      ∀ k, (getSignatureBitset S (new S) T).getD k false = true ↔ S.requires T k := by
  obtain ⟨_, a2⟩ := foldl_initializeBitset S S.signatureList (zero S) (fun _ h => h)
    (by simp [zero])
    (fun j hj => by rw [zero_getD S j hj, Bitset.reset_length])
  have hj := Settings.signatureID_lt hT
  obtain ⟨b1, b2⟩ := a2 _ hj
  refine ⟨b1, fun k => ?_⟩
  simp only [getSignatureBitset, new, forTypes]
  rw [b2 k, zero_getD S _ hj, Bitset.reset_getD]
  constructor
  · rintro (h | ⟨T2, h3, h4, h5⟩)
    · cases h
    · rw [Settings.signatureID_inj h3 hT h4] at h5
      exact h5
  · intro h
    exact Or.inr ⟨T, hT, rfl, h⟩

end SignatureBitsetsStorage

end ecs

namespace ecs
namespace Manager

variable {Val : Type}

/-! ## Signature matching -/

theorem hasComponent_of_lt (S : Settings) {m : Manager Val} {C : Kind} {i : Nat}
    (hC : S.isComponent C = true) (hi : i < m.sizeNext) :
    hasComponent S m C i = some ((m.ent i).bitset.getD (S.componentBit C) false) := by
  simp only [hasComponent, hC, if_true, getEntity_of_lt hi]

theorem hasTag_of_lt (S : Settings) {m : Manager Val} {T : Kind} {i : Nat}
    (hT : S.isTag T = true) (hi : i < m.sizeNext) :
    hasTag S m T i = some ((m.ent i).bitset.getD (S.tagBit T) false) := by
  simp only [hasTag, hT, if_true, getEntity_of_lt hi]

theorem matchesSignature_of_lt (S : Settings) {m : Manager Val} {T : List Kind} {i : Nat}
    (hT : S.isSignature T = true) (hi : i < m.sizeNext) :
    matchesSignature S m T i =
      some (decide (Bitset.and
        (SignatureBitsetsStorage.getSignatureBitset S (signatureBitsets S) T) (m.ent i).bitset =
          SignatureBitsetsStorage.getSignatureBitset S (signatureBitsets S) T)) := by
  simp only [matchesSignature, hT, if_true, getEntity_of_lt hi]

/-- An entity matches a signature exactly when its bitset has every required bit. -/
theorem matchesSignature_iff {S : Settings} {m : Manager Val} (h : Inv S m) {T : List Kind}
    {i : Nat} (hT : S.isSignature T = true) (hi : i < m.sizeNext) :
    matchesSignature S m T i = some true ↔
      ∀ k, S.requires T k → (m.ent i).bitset.getD k false = true := by
  obtain ⟨a1, a2⟩ := SignatureBitsetsStorage.new_spec S T (Settings.mem_of_isSignature hT)
  have hb : (m.ent i).bitset.length = S.bitCount := h.bits_len (by have := h.nextLe; omega)
  rw [matchesSignature_of_lt S hT hi]
  simp only [Option.some.injEq, decide_eq_true_eq, signatureBitsets]
  rw [Bitset.and_eq_left_iff _ _ (by rw [a1, hb])]
  constructor
  · intro hk k hr
    exact hk k ((a2 k).mpr hr)
  · intro hk k hr
    exact hk k ((a2 k).mp hr)

theorem matchesSignature_isSome (S : Settings) {m : Manager Val} {T : List Kind} {i : Nat}
    (hT : S.isSignature T = true) (hi : i < m.sizeNext) :
    ∃ b, matchesSignature S m T i = some b :=
  ⟨_, matchesSignature_of_lt S hT hi⟩

end Manager

open Manager

variable {Val : Type}

/-- C11: in every reachable state, for every signature `T` of the schema and every index
`i < sizeNext`, `matchesSignature<T>(i)` returns, and it is true if and only if
`hasComponent<C>(i)` holds for every component kind `C` that `T` lists and `hasTag<t>(i)` for
every tag kind `t` that `T` lists; an entity whose bitset agrees with the one of `i` on the
bits required by `T` gets the same result, whatever its other bits are.  (Duplicate kinds in
the schema do not matter.) -/
theorem matches_iff_has_all [Inhabited Val] (S : Settings) (m : Manager Val) (T : List Kind)
    (i : Nat) (h : Reachable S m) (hT : S.isSignature T = true) (hi : i < m.sizeNext) :
    (∃ b, matchesSignature S m T i = some b) ∧
    (matchesSignature S m T i = some true ↔
      (∀ C ∈ T, S.isComponent C = true → hasComponent S m C i = some true) ∧
      (∀ t ∈ T, S.isTag t = true → hasTag S m t i = some true)) ∧
    (∀ (m2 : Manager Val) (i2 : Nat), Reachable S m2 → i2 < m2.sizeNext →
      (∀ k, S.requires T k →
        (m2.ent i2).bitset.getD k false = (m.ent i).bitset.getD k false) →
      matchesSignature S m2 T i2 = matchesSignature S m T i) := by
  refine ⟨matchesSignature_isSome S hT hi, ?_, ?_⟩
  · rw [matchesSignature_iff h.inv hT hi]
    constructor
    · intro hk
      refine ⟨fun C hC hc => ?_, fun t ht hc => ?_⟩
      · rw [hasComponent_of_lt S hc hi, hk _ (Or.inl ⟨C, hC, hc, rfl⟩)]
      · rw [hasTag_of_lt S hc hi, hk _ (Or.inr ⟨t, ht, hc, rfl⟩)]
    · rintro ⟨h1, h2⟩ k (⟨C, hC, hc, rfl⟩ | ⟨t, ht, hc, rfl⟩)
      · have := h1 C hC hc
        rw [hasComponent_of_lt S hc hi] at this
        exact Option.some.inj this
      · have := h2 t ht hc
        rw [hasTag_of_lt S hc hi] at this
        exact Option.some.inj this
  · intro m2 i2 h2 hi2 hag
    obtain ⟨b, hb⟩ := matchesSignature_isSome S (m := m) hT hi
    obtain ⟨b2, hb2⟩ := matchesSignature_isSome S (m := m2) hT hi2
    have e1 := matchesSignature_iff h.inv hT hi
    have e2 := matchesSignature_iff h2.inv hT hi2
    have : (matchesSignature S m2 T i2 = some true) ↔ (matchesSignature S m T i = some true) := by
      rw [e1, e2]
      constructor
      · intro hk k hr; rw [← hag k hr]; exact hk k hr
      · intro hk k hr; rw [hag k hr]; exact hk k hr
    rw [hb, hb2] at this ⊢
    cases b <;> cases b2 <;> simp at this ⊢

/-- The statement of C11 for the signature `S2 = <C0, C4, T0>` and the entity that owns `C0`,
`C2`, `C4` and `T0`: it matches, `C2` being irrelevant; the entity that owns only `C0` and
`C1` does not match. -/
theorem matches_iff_has_all_witness :
    ((∃ b, matchesSignature testSettings testMatch [0, 4, 5] 1 = some b) ∧
    (matchesSignature testSettings testMatch [0, 4, 5] 1 = some true ↔
      (∀ C ∈ [0, 4, 5], testSettings.isComponent C = true →
        hasComponent testSettings testMatch C 1 = some true) ∧
      (∀ t ∈ [0, 4, 5], testSettings.isTag t = true →
        hasTag testSettings testMatch t 1 = some true)) ∧
    (∀ (m2 : Manager Int) (i2 : Nat), Reachable testSettings m2 → i2 < m2.sizeNext →
      (∀ k, testSettings.requires [0, 4, 5] k →
        (m2.ent i2).bitset.getD k false = (testMatch.ent 1).bitset.getD k false) →
      matchesSignature testSettings m2 [0, 4, 5] i2 =
        matchesSignature testSettings testMatch [0, 4, 5] 1)) ∧
    matchesSignature testSettings testMatch [0, 4, 5] 1 = some true ∧
    matchesSignature testSettings testMatch [0, 4, 5] 0 = some false :=
  ⟨matches_iff_has_all testSettings testMatch [0, 4, 5] 1
    (Reachable.ofRun testMatchOps testNew _ (by rfl) (by rfl)) (by rfl) (by decide),
    by rfl, by rfl⟩

/-- C12: for every signature `T` of the signature list, after the construction of
`SignatureBitsetsStorage` bit `k` of the bitset stored for `T` is set if and only if `k` is
the bit of a component kind or of a tag kind that `T` lists, the bitset has the width of the
entity bitsets, and the initialisation of another signature of the list does not touch it. -/
theorem signature_bitset_bits (S : Settings) (T : List Kind) (hT : T ∈ S.signatureList) :
    (∀ k, (SignatureBitsetsStorage.getSignatureBitset S (SignatureBitsetsStorage.new S) T).getD
        k false = true ↔
      ((∃ C ∈ T, S.isComponent C = true ∧ k = S.componentBit C) ∨
        (∃ t ∈ T, S.isTag t = true ∧ k = S.tagBit t))) ∧
    (SignatureBitsetsStorage.getSignatureBitset S (SignatureBitsetsStorage.new S) T).length =
      S.bitCount ∧
    (∀ (st : SignatureBitsetsStorage) (T2 : List Kind), T2 ∈ S.signatureList → T2 ≠ T →
      SignatureBitsetsStorage.getSignatureBitset S
          (SignatureBitsetsStorage.initializeBitset S st T2) T =
        SignatureBitsetsStorage.getSignatureBitset S st T) := by
  obtain ⟨a1, a2⟩ := SignatureBitsetsStorage.new_spec S T hT
  refine ⟨a2, a1, fun st T2 h2 hne => ?_⟩
  exact SignatureBitsetsStorage.initializeBitset_other S st T2 _
    (fun e => hne (Settings.signatureID_inj h2 hT e.symm))

/-- The statement of C12 for `S3 = <C1, T0, C3, T2>`, and the four bitsets of the test of the
tutorial. -/
theorem signature_bitset_bits_witness :
    ((∀ k, (SignatureBitsetsStorage.getSignatureBitset testSettings
          (SignatureBitsetsStorage.new testSettings) [1, 5, 3, 7]).getD k false = true ↔
        ((∃ C ∈ [1, 5, 3, 7], testSettings.isComponent C = true ∧
            k = testSettings.componentBit C) ∨
          (∃ t ∈ [1, 5, 3, 7], testSettings.isTag t = true ∧ k = testSettings.tagBit t))) ∧
      (SignatureBitsetsStorage.getSignatureBitset testSettings
          (SignatureBitsetsStorage.new testSettings) [1, 5, 3, 7]).length =
        testSettings.bitCount ∧
      (∀ (st : SignatureBitsetsStorage) (T2 : List Kind), T2 ∈ testSettings.signatureList →
        T2 ≠ [1, 5, 3, 7] →
        SignatureBitsetsStorage.getSignatureBitset testSettings
            (SignatureBitsetsStorage.initializeBitset testSettings st T2) [1, 5, 3, 7] =
          SignatureBitsetsStorage.getSignatureBitset testSettings st [1, 5, 3, 7])) ∧
    SignatureBitsetsStorage.getSignatureBitset testSettings
        (SignatureBitsetsStorage.new testSettings) [] = Bitset.ofString "00000000" ∧
    SignatureBitsetsStorage.getSignatureBitset testSettings
        (SignatureBitsetsStorage.new testSettings) [0, 1] = Bitset.ofString "00000011" ∧
    SignatureBitsetsStorage.getSignatureBitset testSettings
        (SignatureBitsetsStorage.new testSettings) [0, 4, 5] = Bitset.ofString "00110001" ∧
    SignatureBitsetsStorage.getSignatureBitset testSettings
        (SignatureBitsetsStorage.new testSettings) [1, 5, 3, 7] = Bitset.ofString "10101010" :=
  ⟨signature_bitset_bits testSettings [1, 5, 3, 7] (by decide),
    by decide, by decide, by decide, by decide⟩

/-- C13: in every reachable state and for every index `i < sizeNext`, the empty signature
matches the entity, whatever its bitset is; and an entity none of whose bits is set matches no
signature that lists at least one component kind or tag kind. -/
theorem empty_signature_matches [Inhabited Val] (S : Settings) (m : Manager Val) (i : Nat)
    (h : Reachable S m) (hi : i < m.sizeNext) :
    (S.isSignature [] = true → matchesSignature S m [] i = some true) ∧
    (∀ T, S.isSignature T = true → (∃ K ∈ T, S.isComponent K = true ∨ S.isTag K = true) →
      (∀ k, (m.ent i).bitset.getD k false = false) → matchesSignature S m T i = some false) := by
  constructor
  · intro hT
    rw [matchesSignature_iff h.inv hT hi]
    rintro k (⟨C, hC, _⟩ | ⟨t, ht, _⟩)
    · cases hC
    · cases ht
  · intro T hT hK hz
    obtain ⟨b, hb⟩ := matchesSignature_isSome S (m := m) hT hi
    have e := matchesSignature_iff h.inv hT hi
    cases b with
    | false => exact hb
    | true =>
      have hall := e.mp hb
      obtain ⟨K, hK1, hK2 | hK2⟩ := hK
      · have := hall _ (Or.inl ⟨K, hK1, hK2, rfl⟩)
        rw [hz] at this
        cases this
      · have := hall _ (Or.inr ⟨K, hK1, hK2, rfl⟩)
        rw [hz] at this
        cases this

/-- The statement of C13 for a newly created entity, whose bitset is empty: it matches the
empty signature `S0` and neither `S1`, `S2` nor `S3`. -/
theorem empty_signature_matches_witness :
    ((testSettings.isSignature [] = true →
        matchesSignature testSettings (testRun [Op.createIndex]) [] 0 = some true) ∧
      (∀ T, testSettings.isSignature T = true →
        (∃ K ∈ T, testSettings.isComponent K = true ∨ testSettings.isTag K = true) →
        (∀ k, ((testRun [Op.createIndex]).ent 0).bitset.getD k false = false) →
        matchesSignature testSettings (testRun [Op.createIndex]) T 0 = some false)) ∧
    testSettings.signatureList.map
        (fun T => matchesSignature testSettings (testRun [Op.createIndex]) T 0) =
      [some true, some false, some false, some false] :=
  ⟨empty_signature_matches testSettings (testRun [Op.createIndex]) 0
    (Reachable.ofRun [Op.createIndex] testNew _ (by rfl) (by rfl)) (by decide), by rfl⟩

/-- C14: for every schema, `componentID<C>()`, `tagID<T>()` and `signatureID<S>()` are the
zero-based (first) positions of the kind in the component list, the tag list and the signature
list; `componentCount`, `tagCount` and `signatureCount` are the lengths of the lists;
`componentBit<C>() == componentID<C>()` and `tagBit<T>() == componentCount() + tagID<T>()`. -/
theorem ids_are_positions (S : Settings) :
    (∀ C ∈ S.componentList, S.componentID C < S.componentCount ∧
      S.componentList.getD (S.componentID C) 0 = C ∧
      ∀ j, j < S.componentID C → S.componentList.getD j 0 ≠ C) ∧
    (∀ T ∈ S.tagList, S.tagID T < S.tagCount ∧ S.tagList.getD (S.tagID T) 0 = T ∧
      ∀ j, j < S.tagID T → S.tagList.getD j 0 ≠ T) ∧
    (∀ T ∈ S.signatureList, S.signatureID T < S.signatureCount ∧
      S.signatureList.getD (S.signatureID T) [] = T ∧
      ∀ j, j < S.signatureID T → S.signatureList.getD j [] ≠ T) ∧
    S.componentCount = S.componentList.length ∧ S.tagCount = S.tagList.length ∧
    S.signatureCount = S.signatureList.length ∧
    (∀ C, S.componentBit C = S.componentID C) ∧
    (∀ T, S.tagBit T = S.componentCount + S.tagID T) :=
  ⟨fun _ hC => ⟨indexOf_lt_of_mem hC, getD_indexOf 0 hC, fun _ hj => getD_ne_of_lt_indexOf 0 hj⟩,
    fun _ hT => ⟨indexOf_lt_of_mem hT, getD_indexOf 0 hT, fun _ hj => getD_ne_of_lt_indexOf 0 hj⟩,
    fun _ hT => ⟨indexOf_lt_of_mem hT, getD_indexOf [] hT,
      fun _ hj => getD_ne_of_lt_indexOf [] hj⟩,
    rfl, rfl, rfl, fun _ => rfl, fun _ => rfl⟩

/-- The statement of C14 for the settings of the tests: 5 components, 3 tags and 4 signatures
with the IDs `0..4`, `0..2` and `0..3`, and the bits `0..4` and `5..7`. -/
theorem ids_are_positions_witness :
    (testSettings.componentCount = 5 ∧ testSettings.tagCount = 3 ∧
      testSettings.signatureCount = 4) ∧
    testSettings.componentList.map testSettings.componentID = [0, 1, 2, 3, 4] ∧
    testSettings.tagList.map testSettings.tagID = [0, 1, 2] ∧
    testSettings.signatureList.map testSettings.signatureID = [0, 1, 2, 3] ∧
    testSettings.componentList.map testSettings.componentBit = [0, 1, 2, 3, 4] ∧
    testSettings.tagList.map testSettings.tagBit = [5, 6, 7] ∧
    testSettings.componentList.getD (testSettings.componentID 3) 0 = 3 :=
  ⟨⟨by decide, by decide, by decide⟩, by decide, by decide, by decide, by decide, by decide,
    ((ids_are_positions testSettings).1 3 (by decide)).2.1⟩

end ecs

namespace ecs
namespace Manager

variable {Val : Type}

/-! ## Creation and destruction of entities -/

/-- The state after `createIndex`, field by field. -/
theorem createIndex_fields [Inhabited Val] {S : Settings} {m : Manager Val} (h : Inv S m) :
    ∃ m1, createIndex S m = some (m.sizeNext, m1) ∧ Inv S m1 ∧
      m1.sizeNext = m.sizeNext + 1 ∧ m1.size = m.size ∧ m.sizeNext < m1.capacity ∧
      (m1.ent m.sizeNext).alive = true ∧
      (m1.ent m.sizeNext).bitset = Bitset.reset S.bitCount ∧
      (∀ i, i < m.capacity → i ≠ m.sizeNext → m1.ent i = m.ent i) := by
  obtain ⟨g, eg, e2, hi⟩ := createIndex_spec h
  obtain ⟨g2, eg2, hg, hsz, hnx, hlt, _, hent, _, _⟩ := growIfNeeded_spec h
  rw [eg] at eg2
  cases eg2
  have hl : m.sizeNext < g.entities.length := by rw [hg.hinv.entLen]; omega
  refine ⟨_, e2, hi, ?_, hsz, ?_, ?_, ?_, ?_⟩
  · show g.sizeNext + 1 = m.sizeNext + 1
    omega
  · show m.sizeNext < g.capacity
    omega
  · rw [setEnt_ent, if_pos ⟨rfl, hl⟩]
  · rw [setEnt_ent, if_pos ⟨rfl, hl⟩]
  · intro i hi2 hne
    rw [setEnt_ent, if_neg (fun c => hne c.1.symm)]
    exact hent i hi2

theorem kill_of_lt {m : Manager Val} {i : Nat} (hi : i < m.sizeNext) :
    m.kill i = some (m.setEnt i { m.ent i with alive := false }) := by
  simp only [kill, getEntity_of_lt hi]

theorem isAlive_of_lt {m : Manager Val} {i : Nat} (hi : i < m.sizeNext) :
    m.isAlive i = some (m.ent i).alive := by
  simp only [isAlive, getEntity_of_lt hi]

end Manager

open Manager

variable {Val : Type}

/-- C15: in every reachable state `createIndex()` returns the value that `sizeNext` had before
the call; afterwards `sizeNext` has grown by one, `size` is unchanged, the returned index is
below `sizeNext`, and the record at the returned index is alive with an empty bitset, so
`hasComponent` and `hasTag` are false there for every kind. -/
theorem createIndex_fresh_entity [Inhabited Val] (S : Settings) (m : Manager Val)
    (h : Reachable S m) :
    ∃ m1, createIndex S m = some (m.sizeNext, m1) ∧
      m1.sizeNext = m.sizeNext + 1 ∧ m1.size = m.size ∧ m.sizeNext < m1.sizeNext ∧
      m1.isAlive m.sizeNext = some true ∧
      (m1.ent m.sizeNext).bitset = Bitset.reset S.bitCount ∧
      (∀ C, S.isComponent C = true → hasComponent S m1 C m.sizeNext = some false) ∧
      (∀ T, S.isTag T = true → hasTag S m1 T m.sizeNext = some false) := by
  obtain ⟨m1, e, _, hnx, hsz, _, hal, hbits, _⟩ := createIndex_fields h.inv
  have hlt : m.sizeNext < m1.sizeNext := by omega
  refine ⟨m1, e, hnx, hsz, hlt, ?_, hbits, fun C hC => ?_, fun T hT => ?_⟩
  · rw [isAlive_of_lt hlt, hal]
  · rw [hasComponent_of_lt S hC hlt, hbits, Bitset.reset_getD]
  · rw [hasTag_of_lt S hT hlt, hbits, Bitset.reset_getD]

/-- The statement of C15 for a state in which the slot at index `0` held a reclaimed entity
with component `C1`: the bit of `C1` is set in the free record and cleared by `createIndex`. -/
theorem createIndex_fresh_entity_witness :
    (∃ m1, createIndex testSettings testReclaimed = some (testReclaimed.sizeNext, m1) ∧
      m1.sizeNext = testReclaimed.sizeNext + 1 ∧ m1.size = testReclaimed.size ∧
      testReclaimed.sizeNext < m1.sizeNext ∧
      m1.isAlive testReclaimed.sizeNext = some true ∧
      (m1.ent testReclaimed.sizeNext).bitset = Bitset.reset testSettings.bitCount ∧
      (∀ C, testSettings.isComponent C = true →
        hasComponent testSettings m1 C testReclaimed.sizeNext = some false) ∧
      (∀ T, testSettings.isTag T = true →
        hasTag testSettings m1 T testReclaimed.sizeNext = some false)) ∧
    testReclaimed.sizeNext = 0 ∧
    (testReclaimed.ent 0).bitset.getD (testSettings.componentBit 1) false = true :=
  ⟨createIndex_fresh_entity testSettings testReclaimed
    (Reachable.ofRun testReclaimedOps testNew _ (by rfl) (by rfl)), by rfl, by rfl⟩

/-- C16: in every reachable state `createHandle()` returns a handle that is valid, resolves to
the index that `sizeNext` had before the call, refers to an alive entity and carries the
current counter of its handle slot; the state after the call is the state after
`createIndex()`. -/
theorem createHandle_valid_handle [Inhabited Val] (S : Settings) (m : Manager Val)
    (h : Reachable S m) :
    ∃ x m1, createHandle S m = some (x, m1) ∧ m1.isHandleValid x = some true ∧
      m1.getEntityIndex x = some m.sizeNext ∧ m1.isAliveH x = some true ∧
      x.counter = (m1.hd x.handleDataIndex).counter ∧
      createIndex S m = some (m.sizeNext, m1) := by
  obtain ⟨m1, e, inv1, hnx, _, hcap, hal, _, _⟩ := createIndex_fields h.inv
  have hc := createHandle_spec h.inv e
  have hlt : m.sizeNext < m1.sizeNext := by omega
  have hx : (m1.ent m.sizeNext).handleDataIndex < m1.handleData.length := by
    rw [inv1.hinv.hdLen]; exact inv1.hinv.hdiLt _ hcap
  have hv : m1.isHandleValid
      { handleDataIndex := (m1.ent m.sizeNext).handleDataIndex,
        counter := (m1.hd (m1.ent m.sizeNext).handleDataIndex).counter } = some true := by
    rw [isHandleValid_of_lt hx]
    simp
  have hgi := getEntityIndex_of_valid hv
  simp only [inv1.hinv.back _ hcap] at hgi
  refine ⟨_, m1, hc, hv, hgi, ?_, rfl, e⟩
  simp only [isAliveH, hgi, isAlive_of_lt hlt, hal]

/-- The statement of C16 for a manager with two entities. -/
theorem createHandle_valid_handle_witness :
    ∃ x m1, createHandle testSettings (testRun [Op.createIndex, Op.createIndex]) =
        some (x, m1) ∧ m1.isHandleValid x = some true ∧
      m1.getEntityIndex x = some (testRun [Op.createIndex, Op.createIndex]).sizeNext ∧
      m1.isAliveH x = some true ∧ x.counter = (m1.hd x.handleDataIndex).counter ∧
      createIndex testSettings (testRun [Op.createIndex, Op.createIndex]) =
        some ((testRun [Op.createIndex, Op.createIndex]).sizeNext, m1) :=
  createHandle_valid_handle testSettings (testRun [Op.createIndex, Op.createIndex])
    (Reachable.ofRun [Op.createIndex, Op.createIndex] testNew _ (by rfl) (by rfl))

/-- C17: in every reachable state and for every index `i < sizeNext`, `kill(i)` returns and
afterwards `isAlive(i)` is false; the other fields of record `i`, every other entity record,
`size`, `sizeNext`, `capacity`, the handle table and the component data are unchanged, and
every handle is valid after the call exactly when it was before and resolves to the same
index. -/
theorem kill_changes_only_alive [Inhabited Val] (S : Settings) (m : Manager Val) (i : Nat)
    (h : Reachable S m) (hi : i < m.sizeNext) :
    ∃ m1, m.kill i = some m1 ∧ m1.isAlive i = some false ∧
      (m1.ent i).dataIndex = (m.ent i).dataIndex ∧
      (m1.ent i).handleDataIndex = (m.ent i).handleDataIndex ∧
      (m1.ent i).bitset = (m.ent i).bitset ∧
      (∀ j, j ≠ i → m1.ent j = m.ent j) ∧
      m1.size = m.size ∧ m1.sizeNext = m.sizeNext ∧ m1.capacity = m.capacity ∧
      m1.handleData = m.handleData ∧ m1.components = m.components ∧
      (∀ x, m1.isHandleValid x = m.isHandleValid x) ∧
      (∀ x, m1.getEntityIndex x = m.getEntityIndex x) := by
  have hl : i < m.entities.length := by
    rw [h.inv.hinv.entLen]; have := h.inv.nextLe; omega
  have he : (m.setEnt i { m.ent i with alive := false }).ent i =
      { m.ent i with alive := false } := by
    rw [setEnt_ent, if_pos ⟨rfl, hl⟩]
  refine ⟨_, kill_of_lt hi, ?_, by rw [he], by rw [he], by rw [he], ?_, rfl, rfl, rfl, rfl,
    rfl, fun x => rfl, fun x => rfl⟩
  · rw [isAlive_of_lt (by exact hi), he]
  · intro j hj
    rw [setEnt_ent, if_neg (fun c => hj c.1.symm)]

/-- The statement of C17 for the second of three entities created through handles. -/
theorem kill_changes_only_alive_witness :
    ∃ m1, testHandles.kill 1 = some m1 ∧ m1.isAlive 1 = some false ∧
      (m1.ent 1).dataIndex = (testHandles.ent 1).dataIndex ∧
      (m1.ent 1).handleDataIndex = (testHandles.ent 1).handleDataIndex ∧
      (m1.ent 1).bitset = (testHandles.ent 1).bitset ∧
      (∀ j, j ≠ 1 → m1.ent j = testHandles.ent j) ∧
      m1.size = testHandles.size ∧ m1.sizeNext = testHandles.sizeNext ∧
      m1.capacity = testHandles.capacity ∧
      m1.handleData = testHandles.handleData ∧ m1.components = testHandles.components ∧
      (∀ x, m1.isHandleValid x = testHandles.isHandleValid x) ∧
      (∀ x, m1.getEntityIndex x = testHandles.getEntityIndex x) :=
  kill_changes_only_alive testSettings testHandles 1
    (Reachable.ofRun testHandlesOps testNew _ (by rfl) (by rfl)) (by decide)

end ecs

namespace ecs
namespace Manager

variable {Val : Type}

/-! ## Iteration -/

/-- When the callback leaves `size` alone, `forEntities` calls it on `i, i + 1, ..., size - 1`
in this order, each call acting on the state left by the previous one. -/
theorem forEntitiesLoop_eq_foldlM {σ : Type}
    (fn : Nat → Manager Val × σ → Option (Manager Val × σ))
    (hfn : ∀ i st st1, fn i st = some st1 → st1.1.size = st.1.size) :
    ∀ (fuel i : Nat) (st : Manager Val × σ), st.1.size - i < fuel →
      forEntitiesLoop fn fuel i st =
        (List.range' i (st.1.size - i)).foldlM (fun s k => fn k s) st := by
  intro fuel
  induction fuel with
  | zero => intro i st h; omega
  | succ fuel ih =>
    intro i st h
    by_cases c : i < st.1.size
    · have e : st.1.size - i = (st.1.size - (i + 1)) + 1 := by omega
      rw [e, List.range'_succ, List.foldlM_cons]
      simp only [forEntitiesLoop, if_pos c]
      cases hf : fn i st with
      | none => rfl
      | some st1 =>
        have hs := hfn i st st1 hf
        simp only [Option.bind_eq_bind, Option.some_bind]
        rw [ih (i + 1) st1 (by omega), hs]
    · have e : st.1.size - i = 0 := by omega
      simp only [forEntitiesLoop, if_neg c, e, List.range'_zero, List.foldlM_nil]
      rfl

theorem forEntities_eq_foldlM {σ : Type}
    (fn : Nat → Manager Val × σ → Option (Manager Val × σ))
    (hfn : ∀ i st st1, fn i st = some st1 → st1.1.size = st.1.size)
    (fuel : Nat) (st : Manager Val × σ) (h : st.1.size < fuel) :
    forEntities fn fuel st = (List.range st.1.size).foldlM (fun s k => fn k s) st := by
  rw [forEntities, forEntitiesLoop_eq_foldlM fn hfn fuel 0 st (by omega), List.range_eq_range']
  rfl

theorem foldlM_recordIndex (m : Manager Val) :
    ∀ (L t : List Nat), L.foldlM (fun s k => recordIndex k s) (m, t) = some (m, t ++ L) := by
  intro L
  induction L with
  | nil => intro t; simp
  | cons a L ih =>
    intro t
    rw [List.foldlM_cons]
    simp only [recordIndex, Option.bind_eq_bind, Option.some_bind]
    have := ih (t ++ [a])
    simp only [recordIndex] at this
    rw [this]
    simp

theorem expandSignatureCall_pure [Inhabited Val] {σ : Type} (S : Settings) {T : List Kind}
    (hT : S.isSignature T = true) (g : Nat → List Val → σ → σ) {i : Nat}
    (st : Manager Val × σ) (hi : i < st.1.sizeNext) :
    expandSignatureCall S T (pureCallback g) i st =
      some (st.1, g i (signatureArgs S st.1 T i) st.2) := by
  simp only [expandSignatureCall, hT, if_true, getEntity_of_lt hi, pureCallback, signatureArgs,
    Settings.signatureComponents]

/-- With a callback that does not modify the manager, the calls made by
`forEntitiesMatching<T>` over the indices of `L` are the calls of `g` on the matching indices
of `L`, in the order of `L`. -/
theorem foldlM_matching [Inhabited Val] {σ : Type} (S : Settings) (m : Manager Val)
    (T : List Kind) (hT : S.isSignature T = true) (g : Nat → List Val → σ → σ)
    (F : Manager Val × σ → Nat → Option (Manager Val × σ))
    (hF : ∀ st i, F st i =
      match st.1.matchesSignature S T i with
      | some true => expandSignatureCall S T (pureCallback g) i st
      | some false => some st
      | none => none) :
    ∀ (L : List Nat) (s : σ), (∀ i ∈ L, i < m.sizeNext) →
      L.foldlM F (m, s) =
        some (m, (L.filter (fun i => m.matchesSignature S T i == some true)).foldl
          (fun s2 i => g i (signatureArgs S m T i) s2) s) := by
  intro L
  induction L with
  | nil => intro s _; rfl
  | cons a L ih =>
    intro s hL
    have ha : a < m.sizeNext := hL a (List.mem_cons_self _ _)
    have ih2 := fun s2 => ih s2 (fun i hi => hL i (List.mem_cons_of_mem _ hi))
    rw [List.foldlM_cons, hF]
    obtain ⟨b, hb⟩ := matchesSignature_isSome S (m := m) hT ha
    cases b with
    | false =>
      simp only [hb, Option.bind_eq_bind, Option.some_bind]
      rw [ih2, List.filter_cons]
      simp [hb]
    | true =>
      simp only [hb]
      rw [expandSignatureCall_pure S hT g (m, s) ha]
      simp only [Option.bind_eq_bind, Option.some_bind]
      rw [ih2, List.filter_cons]
      simp [hb]

theorem forEntitiesMatching_pure [Inhabited Val] {σ : Type} {S : Settings} {m : Manager Val}
    (h : Inv S m) {T : List Kind} (hT : S.isSignature T = true) (g : Nat → List Val → σ → σ)
    (fuel : Nat) (hf : m.size < fuel) (s : σ) :
    forEntitiesMatching S T (pureCallback g) fuel (m, s) =
      some (m, ((List.range m.size).filter
          (fun i => m.matchesSignature S T i == some true)).foldl
        (fun s2 i => g i (signatureArgs S m T i) s2) s) := by
  simp only [forEntitiesMatching, hT, if_true]
  rw [forEntities_eq_foldlM _ _ fuel (m, s) hf]
  · exact foldlM_matching S m T hT g _ (fun _ _ => rfl) (List.range m.size) s
      (fun i hi => by have := List.mem_range.mp hi; have := h.sizeLe; omega)
  · intro i st st1 e
    cases hm : st.1.matchesSignature S T i with
    | none => rw [hm] at e; cases e
    | some b =>
      rw [hm] at e
      cases b with
      | false => cases e; rfl
      | true =>
        simp only [expandSignatureCall, pureCallback] at e
        by_cases c : S.isSignature T = true
        · rw [if_pos c] at e
          cases hg : st.1.getEntity i with
          | none => rw [hg] at e; cases e
          | some x => rw [hg] at e; cases e; rfl
        · rw [if_neg c] at e; cases e

theorem foldl_record {α : Type} (f : Nat → α) :
    ∀ (L : List Nat) (t : List α),
      L.foldl (fun s2 i => s2 ++ [f i]) t = t ++ L.map f := by
  intro L
  induction L with
  | nil => intro t; simp
  | cons a L ih => intro t; simp [ih]

/-! ## `size` changes only in `refresh` and `clear` -/

theorem growIfNeeded_size [Inhabited Val] {S : Settings} {m g : Manager Val}
    (e : growIfNeeded S m = some g) : g.size = m.size := by
  simp only [growIfNeeded] at e
  split at e
  · cases e; rfl
  · simp only [growTo] at e
    split at e
    · cases e
      exact (initLoop_fields S _ _ _).2.1
    · cases e

theorem createIndex_size [Inhabited Val] {S : Settings} {m m1 : Manager Val} {i : Nat}
    (e : createIndex S m = some (i, m1)) : m1.size = m.size := by
  simp only [createIndex] at e
  cases hg : growIfNeeded S m with
  | none => rw [hg] at e; cases e
  | some g =>
    rw [hg] at e
    simp only at e
    have hs := growIfNeeded_size hg
    split at e
    · cases e
      exact hs
    · cases e

theorem createHandle_size [Inhabited Val] {S : Settings} {m m1 : Manager Val} {x : Handle}
    (e : createHandle S m = some (x, m1)) : m1.size = m.size := by
  simp only [createHandle] at e
  cases hc : createIndex S m with
  | none => rw [hc] at e; cases e
  | some p =>
    obtain ⟨i, m2⟩ := p
    rw [hc] at e
    have hs := createIndex_size hc
    simp only at e
    split at e
    · split at e
      · cases e
        exact hs
      · cases e
    · cases e

theorem step_size [Inhabited Val] {S : Settings} {m m1 : Manager Val} {op : Op Val}
    (e : m.step S op = some m1) (hc : op.isRefreshOrClear = false) :
    m1.size = m.size := by
  have hSet : ∀ {i : Nat} {m2 : Manager Val} (f : Entity → Entity),
      (match m.getEntity i with
        | some e => some (m.setEnt i (f e))
        | none => none) = some m2 → m2.size = m.size := by
    intro i m2 f e1
    split at e1
    · cases e1; rfl
    · cases e1
  cases op with
  | createIndex =>
    simp only [Manager.step, Option.map_eq_some'] at e
    obtain ⟨⟨i, m2⟩, e1, rfl⟩ := e
    exact createIndex_size e1
  | createHandle =>
    simp only [Manager.step, Option.map_eq_some'] at e
    obtain ⟨⟨x, m2⟩, e1, rfl⟩ := e
    exact createHandle_size e1
  | kill mI =>
    obtain ⟨_, rfl⟩ := kill_eq_some e
    rfl
  | killH mX =>
    simp only [Manager.step, killH] at e
    split at e
    · obtain ⟨_, rfl⟩ := kill_eq_some e
      rfl
    · cases e
  | addTag T mI =>
    simp only [Manager.step, Manager.addTag] at e
    split at e
    · exact hSet _ e
    · cases e
  | addTagH T mX =>
    simp only [Manager.step, addTagH, Manager.addTag] at e
    split at e
    · split at e
      · exact hSet _ e
      · cases e
    · cases e
  | delTag T mI =>
    simp only [Manager.step, Manager.delTag] at e
    split at e
    · exact hSet _ e
    · cases e
  | delTagH T mX =>
    simp only [Manager.step, delTagH, Manager.delTag] at e
    split at e
    · split at e
      · exact hSet _ e
      · cases e
    · cases e
  | addComponent T mI v =>
    simp only [Manager.step, Manager.addComponent] at e
    split at e
    · split at e
      · cases e; rfl
      · cases e
    · cases e
  | addComponentH T mX v =>
    simp only [Manager.step, addComponentH, Manager.addComponent] at e
    split at e
    · split at e
      · split at e
        · cases e; rfl
        · cases e
      · cases e
    · cases e
  | delComponent T mI =>
    simp only [Manager.step, Manager.delComponent] at e
    split at e
    · exact hSet _ e
    · cases e
  | delComponentH T mX =>
    simp only [Manager.step, delComponentH, Manager.delComponent] at e
    split at e
    · split at e
      · exact hSet _ e
      · cases e
    · cases e
  | refresh => simp [Op.isRefreshOrClear] at hc
  | clear => simp [Op.isRefreshOrClear] at hc

end Manager
end ecs

namespace ecs
namespace Manager

variable {Val : Type}

/-! ## The records below `size` -/

theorem AliveBelowSize.ofEnt {m m1 : Manager Val} (h : m.AliveBelowSize)
    (hs : m1.size = m.size) (he : ∀ k, k < m.size → (m1.ent k).alive = (m.ent k).alive) :
    m1.AliveBelowSize := by
  intro k hk
  rw [hs] at hk
  rw [he k hk]
  exact h k hk

theorem setEnt_bitset_alive (m : Manager Val) (i k : Nat) (b : Bitset) :
    ((m.setEnt i { m.ent i with bitset := b }).ent k).alive = (m.ent k).alive := by
  rw [setEnt_ent]
  split
  · rename_i c; rw [c.1]
  · rfl

theorem AliveBelowSize.afterStep [Inhabited Val] {S : Settings} {m m1 : Manager Val} {op : Op Val}
    (h : Inv S m) (e : m.step S op = some m1)
    (hc : op.isRefreshOrClear = true ∨ (op.isKill = false ∧ m.AliveBelowSize)) :
    m1.AliveBelowSize := by
  have hCreate : ∀ {i : Nat} {m2 : Manager Val}, m.AliveBelowSize →
      createIndex S m = some (i, m2) → m2.AliveBelowSize := by
    intro i m2 ha e1
    obtain ⟨m3, e3, _, _, hsz, _, _, _, hent⟩ := createIndex_fields h
    rw [e1] at e3
    cases e3
    refine ha.ofEnt hsz (fun k hk => ?_)
    have := h.sizeLe
    have := h.nextLe
    rw [hent k (by omega) (by omega)]
  have hSet : ∀ {i : Nat} {m2 : Manager Val} (f : Bitset → Bitset), m.AliveBelowSize →
      (match m.getEntity i with
        | some e => some (m.setEnt i { e with bitset := f e.bitset })
        | none => none) = some m2 → m2.AliveBelowSize := by
    intro i m2 f ha e1
    split at e1
    · rename_i x hx
      obtain ⟨_, rfl⟩ := getEntity_eq_some hx
      cases e1
      exact ha.ofEnt rfl (fun k _ => setEnt_bitset_alive m i k _)
    · cases e1
  have hAdd : ∀ {T : Kind} {i : Nat} {v : Val} {m2 : Manager Val}, m.AliveBelowSize →
      m.addComponent S T i v = some m2 → m2.AliveBelowSize := by
    intro T i v m2 ha e1
    simp only [Manager.addComponent] at e1
    split at e1
    · split at e1
      · rename_i x hx
        obtain ⟨_, rfl⟩ := getEntity_eq_some hx
        cases e1
        exact ha.ofEnt rfl (fun k _ => setEnt_bitset_alive m i k _)
      · cases e1
    · cases e1
  cases op with
  | createIndex =>
    simp only [Manager.step, Option.map_eq_some'] at e
    obtain ⟨⟨i, m2⟩, e1, rfl⟩ := e
    rcases hc with hc | ⟨_, ha⟩
    · simp [Op.isRefreshOrClear] at hc
    · exact hCreate ha e1
  | createHandle =>
    simp only [Manager.step, Option.map_eq_some'] at e
    obtain ⟨⟨x, m2⟩, e1, rfl⟩ := e
    obtain ⟨m3, e3, _⟩ := createIndex_fields h
    rw [createHandle_spec h e3] at e1
    cases e1
    rcases hc with hc | ⟨_, ha⟩
    · simp [Op.isRefreshOrClear] at hc
    · exact hCreate ha e3
  | kill mI =>
    rcases hc with hc | ⟨hc, _⟩
    · simp [Op.isRefreshOrClear] at hc
    · simp [Op.isKill] at hc
  | killH mX =>
    rcases hc with hc | ⟨hc, _⟩
    · simp [Op.isRefreshOrClear] at hc
    · simp [Op.isKill] at hc
  | addTag T mI =>
    rcases hc with hc | ⟨_, ha⟩
    · simp [Op.isRefreshOrClear] at hc
    · simp only [Manager.step, Manager.addTag] at e
      split at e
      · exact hSet (fun b => b.set (S.tagBit T) true) ha e
      · cases e
  | addTagH T mX =>
    rcases hc with hc | ⟨_, ha⟩
    · simp [Op.isRefreshOrClear] at hc
    · simp only [Manager.step, addTagH, Manager.addTag] at e
      split at e
      · split at e
        · exact hSet (fun b => b.set (S.tagBit T) true) ha e
        · cases e
      · cases e
  | delTag T mI =>
    rcases hc with hc | ⟨_, ha⟩
    · simp [Op.isRefreshOrClear] at hc
    · simp only [Manager.step, Manager.delTag] at e
      split at e
      · exact hSet (fun b => b.set (S.tagBit T) false) ha e
      · cases e
  | delTagH T mX =>
    rcases hc with hc | ⟨_, ha⟩
    · simp [Op.isRefreshOrClear] at hc
    · simp only [Manager.step, delTagH, Manager.delTag] at e
      split at e
      · split at e
        · exact hSet (fun b => b.set (S.tagBit T) false) ha e
        · cases e
      · cases e
  | addComponent T mI v =>
    rcases hc with hc | ⟨_, ha⟩
    · simp [Op.isRefreshOrClear] at hc
    · exact hAdd ha e
  | addComponentH T mX v =>
    rcases hc with hc | ⟨_, ha⟩
    · simp [Op.isRefreshOrClear] at hc
    · simp only [Manager.step, addComponentH] at e
      split at e
      · exact hAdd ha e
      · cases e
  | delComponent T mI =>
    rcases hc with hc | ⟨_, ha⟩
    · simp [Op.isRefreshOrClear] at hc
    · simp only [Manager.step, Manager.delComponent] at e
      split at e
      · exact hSet (fun b => b.set (S.componentBit T) false) ha e
      · cases e
  | delComponentH T mX =>
    rcases hc with hc | ⟨_, ha⟩
    · simp [Op.isRefreshOrClear] at hc
    · simp only [Manager.step, delComponentH, Manager.delComponent] at e
      split at e
      · split at e
        · exact hSet (fun b => b.set (S.componentBit T) false) ha e
        · cases e
      · cases e
  | refresh =>
    obtain ⟨m2, e2, r⟩ := refresh_spec h.hinv h.nextLe
    simp only [Manager.step] at e
    rw [e] at e2
    cases e2
    exact r.aliveL
  | clear =>
    simp only [Manager.step] at e
    obtain ⟨_, rfl⟩ := clear_eq_some e
    intro k hk
    simp at hk

theorem AliveBelowSize.afterRun [Inhabited Val] {S : Settings} :
    ∀ (ops : List (Op Val)) (m m1 : Manager Val), Inv S m → m.AliveBelowSize →
      m.run S ops = some m1 → (∀ op ∈ ops, op.isKill = false) → m1.AliveBelowSize := by
  intro ops
  induction ops with
  | nil =>
    intro m m1 _ ha e _
    simp only [Manager.run] at e
    cases e
    exact ha
  | cons op ops ih =>
    intro m m1 h ha e hk
    simp only [Manager.run] at e
    split at e
    · rename_i m2 e2
      exact ih m2 m1 (h.step e2)
        (AliveBelowSize.afterStep h e2 (Or.inr ⟨hk op (List.mem_cons_self _ _), ha⟩)) e
        (fun o ho => hk o (List.mem_cons_of_mem _ ho))
    · cases e

/-- The alive flags after a call other than `refresh` and `clear`: the record that the call
kills is dead, the record that it creates is alive, every other record is as before. -/
theorem step_alive [Inhabited Val] {S : Settings} {m m1 : Manager Val} {op : Op Val}
    (h : Inv S m) (e : m.step S op = some m1) (hc : op.isRefreshOrClear = false) :
    m.sizeNext ≤ m1.sizeNext ∧ (∀ k, op.killTarget m = some k → k < m.sizeNext) ∧
    ∀ i, i < m1.sizeNext →
      ((m1.ent i).alive = true ↔
        (op.killTarget m ≠ some i ∧ (i < m.sizeNext → (m.ent i).alive = true))) := by
  have hnl := h.nextLe
  have same : ∀ {m2 : Manager Val}, m2.sizeNext = m.sizeNext →
      (∀ k, (m2.ent k).alive = (m.ent k).alive) → op.killTarget m = none →
      m.sizeNext ≤ m2.sizeNext ∧ (∀ k, op.killTarget m = some k → k < m.sizeNext) ∧
      ∀ i, i < m2.sizeNext →
        ((m2.ent i).alive = true ↔
          (op.killTarget m ≠ some i ∧ (i < m.sizeNext → (m.ent i).alive = true))) := by
    intro m2 c1 c2 c3
    refine ⟨by omega, ?_, ?_⟩
    · intro k ck
      rw [c3] at ck
      cases ck
    intro i hi
    rw [c2 i, c3]
    exact ⟨fun a => ⟨fun c => Option.noConfusion c, fun _ => a⟩, fun a => a.2 (by omega)⟩
  have hCreate : ∀ {i : Nat} {m2 : Manager Val}, createIndex S m = some (i, m2) →
      op.killTarget m = none →
      m.sizeNext ≤ m2.sizeNext ∧ (∀ k, op.killTarget m = some k → k < m.sizeNext) ∧
      ∀ i, i < m2.sizeNext →
        ((m2.ent i).alive = true ↔
          (op.killTarget m ≠ some i ∧ (i < m.sizeNext → (m.ent i).alive = true))) := by
    intro i m2 e1 c3
    obtain ⟨m3, e3, _, hnx, _, _, hal, _, hent⟩ := createIndex_fields h
    rw [e1] at e3
    cases e3
    refine ⟨by omega, ?_, ?_⟩
    · intro k ck
      rw [c3] at ck
      cases ck
    intro k hk
    rw [c3]
    by_cases c : k = m.sizeNext
    · rw [c, hal]
      exact ⟨fun _ => ⟨fun c2 => Option.noConfusion c2, fun c2 => absurd c2 (Nat.lt_irrefl _)⟩,
        fun _ => rfl⟩
    · rw [hent k (by omega) c]
      exact ⟨fun a => ⟨fun c2 => Option.noConfusion c2, fun _ => a⟩, fun a => a.2 (by omega)⟩
  have hKill : ∀ {i : Nat} {m2 : Manager Val}, m.kill i = some m2 →
      op.killTarget m = some i →
      m.sizeNext ≤ m2.sizeNext ∧ (∀ k, op.killTarget m = some k → k < m.sizeNext) ∧
      ∀ k, k < m2.sizeNext →
        ((m2.ent k).alive = true ↔
          (op.killTarget m ≠ some k ∧ (k < m.sizeNext → (m.ent k).alive = true))) := by
    intro i m2 e1 c3
    obtain ⟨hi, rfl⟩ := kill_eq_some e1
    have hl : i < m.entities.length := by rw [h.hinv.entLen]; omega
    refine ⟨Nat.le_refl _, ?_, ?_⟩
    · intro k ck
      rw [c3] at ck
      cases ck
      exact hi
    · intro k hk
      rw [c3, setEnt_ent]
      by_cases c : i = k
      · rw [if_pos ⟨c, hl⟩, c]
        exact ⟨fun a => Bool.noConfusion a, fun a => absurd rfl a.1⟩
      · rw [if_neg (fun c2 => c c2.1)]
        exact ⟨fun a => ⟨fun c2 => c (Option.some.inj c2), fun _ => a⟩, fun a => a.2 hk⟩
  have hSet : ∀ {i : Nat} {m2 : Manager Val} (f : Bitset → Bitset),
      (match m.getEntity i with
        | some e => some (m.setEnt i { e with bitset := f e.bitset })
        | none => none) = some m2 →
      m2.sizeNext = m.sizeNext ∧ ∀ k, (m2.ent k).alive = (m.ent k).alive := by
    intro i m2 f e1
    split at e1
    · rename_i x hx
      obtain ⟨_, rfl⟩ := getEntity_eq_some hx
      cases e1
      exact ⟨rfl, fun k => setEnt_bitset_alive m i k _⟩
    · cases e1
  have hAdd : ∀ {T : Kind} {i : Nat} {v : Val} {m2 : Manager Val},
      m.addComponent S T i v = some m2 →
      m2.sizeNext = m.sizeNext ∧ ∀ k, (m2.ent k).alive = (m.ent k).alive := by
    intro T i v m2 e1
    simp only [Manager.addComponent] at e1
    split at e1
    · split at e1
      · rename_i x hx
        obtain ⟨_, rfl⟩ := getEntity_eq_some hx
        cases e1
        exact ⟨rfl, fun k => setEnt_bitset_alive m i k _⟩
      · cases e1
    · cases e1
  cases op with
  | createIndex =>
    simp only [Manager.step, Option.map_eq_some'] at e
    obtain ⟨⟨i, m2⟩, e1, rfl⟩ := e
    exact hCreate e1 rfl
  | createHandle =>
    simp only [Manager.step, Option.map_eq_some'] at e
    obtain ⟨⟨x, m2⟩, e1, rfl⟩ := e
    obtain ⟨m3, e3, _⟩ := createIndex_fields h
    rw [createHandle_spec h e3] at e1
    cases e1
    exact hCreate e3 rfl
  | kill mI => exact hKill e rfl
  | killH mX =>
    simp only [Manager.step, killH] at e
    split at e
    · rename_i i hi
      exact hKill e hi
    · cases e
  | addTag T mI =>
    simp only [Manager.step, Manager.addTag] at e
    split at e
    · obtain ⟨a, b⟩ := hSet (fun b => b.set (S.tagBit T) true) e
      exact same a b rfl
    · cases e
  | addTagH T mX =>
    simp only [Manager.step, addTagH, Manager.addTag] at e
    split at e
    · split at e
      · obtain ⟨a, b⟩ := hSet (fun b => b.set (S.tagBit T) true) e
        exact same a b rfl
      · cases e
    · cases e
  | delTag T mI =>
    simp only [Manager.step, Manager.delTag] at e
    split at e
    · obtain ⟨a, b⟩ := hSet (fun b => b.set (S.tagBit T) false) e
      exact same a b rfl
    · cases e
  | delTagH T mX =>
    simp only [Manager.step, delTagH, Manager.delTag] at e
    split at e
    · split at e
      · obtain ⟨a, b⟩ := hSet (fun b => b.set (S.tagBit T) false) e
        exact same a b rfl
      · cases e
    · cases e
  | addComponent T mI v =>
    obtain ⟨a, b⟩ := hAdd e
    exact same a b rfl
  | addComponentH T mX v =>
    simp only [Manager.step, addComponentH] at e
    split at e
    · obtain ⟨a, b⟩ := hAdd e
      exact same a b rfl
    · cases e
  | delComponent T mI =>
    simp only [Manager.step, Manager.delComponent] at e
    split at e
    · obtain ⟨a, b⟩ := hSet (fun b => b.set (S.componentBit T) false) e
      exact same a b rfl
    · cases e
  | delComponentH T mX =>
    simp only [Manager.step, delComponentH, Manager.delComponent] at e
    split at e
    · split at e
      · obtain ⟨a, b⟩ := hSet (fun b => b.set (S.componentBit T) false) e
        exact same a b rfl
      · cases e
    · cases e
  | refresh => simp [Op.isRefreshOrClear] at hc
  | clear => simp [Op.isRefreshOrClear] at hc

/-- Over a run without `refresh` and `clear`, the alive records below `sizeNext` are the ones
that were not killed, when this was so at the start for the indices `K`. -/
theorem run_alive [Inhabited Val] {S : Settings} :
    ∀ (ops : List (Op Val)) (m m1 : Manager Val) (K : List Nat), Inv S m →
      (∀ k ∈ K, k < m.sizeNext) →
      (∀ i, i < m.sizeNext → ((m.ent i).alive = true ↔ i ∉ K)) →
      m.run S ops = some m1 → (∀ op ∈ ops, op.isRefreshOrClear = false) →
      m1.size = m.size ∧ (∀ k ∈ K ++ m.killed S ops, k < m1.sizeNext) ∧
      ∀ i, i < m1.sizeNext → ((m1.ent i).alive = true ↔ i ∉ K ++ m.killed S ops) := by
  intro ops
  induction ops with
  | nil =>
    intro m m1 K _ hK ha e _
    simp only [Manager.run] at e
    cases e
    simp only [Manager.killed, List.append_nil, true_and]
    exact ⟨hK, ha⟩
  | cons op ops ih =>
    intro m m1 K h hK ha e hn
    simp only [Manager.run] at e
    split at e
    · rename_i m2 e2
      have hc := hn op (List.mem_cons_self _ _)
      obtain ⟨s1, s2, s3⟩ := step_alive h e2 hc
      have hK2 : ∀ k ∈ K ++ (op.killTarget m).toList, k < m2.sizeNext := by
        intro k hk
        rcases List.mem_append.mp hk with c | c
        · have := hK k c; omega
        · have := s2 k (by simpa using c); omega
      have ha2 : ∀ i, i < m2.sizeNext →
          ((m2.ent i).alive = true ↔ i ∉ K ++ (op.killTarget m).toList) := by
        intro i hi
        rw [s3 i hi]
        simp only [List.mem_append, Option.mem_toList, Option.mem_def, not_or]
        constructor
        · rintro ⟨a, b⟩
          refine ⟨fun c => ?_, a⟩
          have hlt := hK i c
          exact ((ha i hlt).mp (b hlt)) c
        · rintro ⟨a, b⟩
          exact ⟨b, fun hlt => (ha i hlt).mpr a⟩
      obtain ⟨r1, r2, r3⟩ := ih m2 m1 _ (h.step e2) hK2 ha2 e
        (fun o ho => hn o (List.mem_cons_of_mem _ ho))
      have ek : K ++ m.killed S (op :: ops) =
          K ++ (op.killTarget m).toList ++ m2.killed S ops := by
        simp only [Manager.killed, e2, List.append_assoc]
      rw [ek]
      exact ⟨by rw [r1, step_size e2 hc], r2, r3⟩
    · cases e

end Manager

open Manager

variable {Val : Type}

/-- C18, what the code does instead: `kill` leaves `size` alone, so after an entity below
`size` is killed the record at its index is dead until the next refresh. -/
theorem killed_entity_below_size :
    ¬ (∀ m : Manager Int, Reachable testSettings m → m.AliveBelowSize) := by
  intro H
  have h := H testKilled (Reachable.ofRun testKilledOps testNew _ (by rfl) (by rfl)) 0
    (by decide)
  exact absurd h (by decide)

/-- C18, amended: in a state reached from a new manager, or from the state after a `refresh()`
or a `clear()`, by calls other than `refresh()` and `clear()`, `size` is what it was at the
start and a record at an index below `sizeNext` (in particular below `size`) is alive exactly
if no `kill` was called on its index since: a record below `size` is alive unless it was
killed, and a killed record stays dead at its index until the next refresh. -/
theorem alive_unless_killed [Inhabited Val] (S : Settings) (m0 m : Manager Val)
    (ops : List (Op Val))
    (hbase : Manager.new S = some m0 ∨
      ∃ mp op, Reachable S mp ∧ Op.isRefreshOrClear op = true ∧ mp.step S op = some m0)
    (hr : m0.run S ops = some m) (hn : ∀ op ∈ ops, op.isRefreshOrClear = false) :
    m.size = m0.size ∧ m.size ≤ m.sizeNext ∧
    (∀ i, i < m.sizeNext → ((m.ent i).alive = true ↔ i ∉ m0.killed S ops)) ∧
    ((∀ op ∈ ops, op.isKill = false) → m.AliveBelowSize) := by
  have h0 : Inv S m0 ∧ ∀ i, i < m0.sizeNext → (m0.ent i).alive = true := by
    rcases hbase with e | ⟨mp, op, hp, hop, e⟩
    · refine ⟨Inv.new e, ?_⟩
      obtain ⟨m1, e1, _, _, hs⟩ := @new_eq_some Val _ S
      rw [e] at e1
      cases e1
      intro k hk2
      omega
    · refine ⟨hp.inv.step e, ?_⟩
      cases op with
      | refresh =>
        obtain ⟨m2, e2, r⟩ := refresh_spec hp.inv.hinv hp.inv.nextLe
        simp only [Manager.step] at e
        rw [e] at e2
        cases e2
        intro i hi
        exact r.aliveL i (by rw [r.sizeEq]; exact hi)
      | clear =>
        simp only [Manager.step] at e
        obtain ⟨_, rfl⟩ := clear_eq_some e
        intro i hi
        simp at hi
      | _ => simp [Op.isRefreshOrClear] at hop
  obtain ⟨r1, _, r3⟩ := run_alive ops m0 m [] h0.1 (fun k hk => by simp at hk)
    (fun i hi => by simpa using h0.2 i hi) hr hn
  have hv : Inv S m := by
    have : ∀ (ops : List (Op Val)) (a b : Manager Val), Inv S a → a.run S ops = some b →
        Inv S b := by
      intro ops
      induction ops with
      | nil => intro a b ha e; simp only [Manager.run] at e; cases e; exact ha
      | cons op ops ih =>
        intro a b ha e
        simp only [Manager.run] at e
        split at e
        · rename_i a2 e2
          exact ih a2 b (ha.step e2) e
        · cases e
    exact this ops m0 m h0.1 hr
  simp only [List.nil_append] at r3
  refine ⟨r1, hv.sizeLe, r3, fun hk => ?_⟩
  have hnil : ∀ (ops : List (Op Val)) (a : Manager Val), (∀ op ∈ ops, op.isKill = false) →
      a.killed S ops = [] := by
    intro ops
    induction ops with
    | nil => intro a _; rfl
    | cons op ops ih =>
      intro a hk2
      simp only [Manager.killed]
      split
      · rename_i a2 _
        have h1 : op.killTarget a = none := by
          have := hk2 op (List.mem_cons_self _ _)
          cases op <;> simp [Op.isKill] at this <;> rfl
        rw [h1, ih a2 (fun o ho => hk2 o (List.mem_cons_of_mem _ ho))]
        rfl
      · rfl
  intro i hi
  have := hv.sizeLe
  rw [r3 i (by omega), hnil ops m0 hk]
  simp

/-- The amended C18 after the refresh of a manager with one entity: a second entity is created,
the first one is killed and the second one gets a tag.  `size` is still 1, the record at index
0, below `size`, is dead and the record at index 1 is alive. -/
theorem alive_unless_killed_witness :
    (testRun [Op.createIndex, Op.refresh, Op.createIndex, Op.kill 0, Op.addTag 5 1]).size = 1 ∧
      ¬ ((testRun [Op.createIndex, Op.refresh, Op.createIndex, Op.kill 0,
        Op.addTag 5 1]).ent 0).alive = true ∧
      ((testRun [Op.createIndex, Op.refresh, Op.createIndex, Op.kill 0,
        Op.addTag 5 1]).ent 1).alive = true := by
  have h := alive_unless_killed testSettings (testRun [Op.createIndex, Op.refresh])
    (testRun [Op.createIndex, Op.refresh, Op.createIndex, Op.kill 0, Op.addTag 5 1])
    [Op.createIndex, Op.kill 0, Op.addTag 5 1]
    (Or.inr ⟨testRun [Op.createIndex], Op.refresh,
      Reachable.ofRun [Op.createIndex] testNew _ (by rfl) (by rfl), by rfl, by rfl⟩)
    (by rfl) (by decide)
  have hk : (testRun [Op.createIndex, Op.refresh]).killed testSettings
      [Op.createIndex, Op.kill 0, Op.addTag 5 1] = [0] := by rfl
  have hs : (testRun [Op.createIndex, Op.refresh]).size = 1 := by rfl
  refine ⟨by rw [h.1, hs], ?_, ?_⟩
  · rw [h.2.2.1 0 (by decide), hk]
    decide
  · rw [h.2.2.1 1 (by decide), hk]
    decide

/-- C19: in every reachable state, for every signature `T` of the schema and every callback
that does not modify the manager, `forEntitiesMatching<T>` returns with the manager unchanged
and its calls are the calls of the callback on the indices of `[0, size)` that match `T`, in
increasing order, each with the index and the components of the entity (read at data slot
`entities[i].dataIndex`) for the component kinds of `T` in the order of `T`.  The second part
states this for the callback that records its arguments. -/
theorem forEntitiesMatching_calls [Inhabited Val] (S : Settings) (m : Manager Val)
    (T : List Kind) (h : Reachable S m) (hT : S.isSignature T = true) :
    (∀ (σ : Type) (g : Nat → List Val → σ → σ) (s : σ) (fuel : Nat), m.size < fuel →
      forEntitiesMatching S T (pureCallback g) fuel (m, s) =
        some (m, ((List.range m.size).filter
            (fun i => m.matchesSignature S T i == some true)).foldl
          (fun s2 i =>
            g i ((T.filter S.isComponent).map
              (fun C => readComponent S m C (m.ent i).dataIndex)) s2) s)) ∧
    (∀ (fuel : Nat), m.size < fuel →
      forEntitiesMatching S T recordCall fuel (m, []) =
        some (m, ((List.range m.size).filter
            (fun i => m.matchesSignature S T i == some true)).map
          (fun i => (i, (T.filter S.isComponent).map
            (fun C => readComponent S m C (m.ent i).dataIndex))))) := by
  constructor
  · intro σ g s fuel hf
    exact forEntitiesMatching_pure h.inv hT g fuel hf s
  · intro fuel hf
    have := forEntitiesMatching_pure h.inv hT
      (fun i vs (t : List (Nat × List Val)) => t ++ [(i, vs)]) fuel hf []
    rw [foldl_record (fun i => (i, signatureArgs S m T i))] at this
    simpa [signatureArgs] using this

/-- The statement of C19 for the signature `S2 = <C0, C4, T0>` on the two test entities: the
callback is called once, on entity 1, with the values of `C0` and `C4`; for `S1 = <C0, C1>` it
is called on entity 0 with the values of `C0` and `C1`. -/
theorem forEntitiesMatching_calls_witness :
    ((∀ (σ : Type) (g : Nat → List Int → σ → σ) (s : σ) (fuel : Nat), testMatch.size < fuel →
      forEntitiesMatching testSettings [0, 4, 5] (pureCallback g) fuel (testMatch, s) =
        some (testMatch, ((List.range testMatch.size).filter
            (fun i => testMatch.matchesSignature testSettings [0, 4, 5] i == some true)).foldl
          (fun s2 i =>
            g i (([0, 4, 5].filter testSettings.isComponent).map
              (fun C => readComponent testSettings testMatch C (testMatch.ent i).dataIndex))
              s2) s)) ∧
    (∀ (fuel : Nat), testMatch.size < fuel →
      forEntitiesMatching testSettings [0, 4, 5] recordCall fuel (testMatch, []) =
        some (testMatch, ((List.range testMatch.size).filter
            (fun i => testMatch.matchesSignature testSettings [0, 4, 5] i == some true)).map
          (fun i => (i, ([0, 4, 5].filter testSettings.isComponent).map
            (fun C => readComponent testSettings testMatch C
              (testMatch.ent i).dataIndex)))))) ∧
    (forEntitiesMatching testSettings [0, 4, 5] recordCall 3 (testMatch, [])).map Prod.snd =
      some [(1, [20, 24])] ∧
    (forEntitiesMatching testSettings [0, 1] recordCall 3 (testMatch, [])).map Prod.snd =
      some [(0, [10, 11])] :=
  ⟨forEntitiesMatching_calls testSettings testMatch [0, 4, 5]
    (Reachable.ofRun testMatchOps testNew _ (by rfl) (by rfl)) (by rfl), by rfl, by rfl⟩

/-- C20: in every reachable state `forEntities(fn)` calls `fn` on `0, 1, ..., size - 1` in this
order, for every callback that leaves `size` alone (the second part states it for the callback
that records its argument); every call other than `refresh` and `clear` leaves
`getEntityCount` unchanged, in every state, so callbacks made of such calls leave `size` alone;
and the index returned by `createIndex` is not below `getEntityCount`, so the new entity is not
visited. -/
theorem forEntities_visits_size [Inhabited Val] (S : Settings) (m : Manager Val)
    (h : Reachable S m) :
    (∀ (σ : Type) (fn : Nat → Manager Val × σ → Option (Manager Val × σ)) (s : σ) (fuel : Nat),
      (∀ i st st1, fn i st = some st1 → st1.1.size = st.1.size) → m.size < fuel →
      forEntities fn fuel (m, s) = (List.range m.size).foldlM (fun st k => fn k st) (m, s)) ∧
    (∀ (fuel : Nat), m.size < fuel →
      forEntities recordIndex fuel (m, []) = some (m, List.range m.size)) ∧
    (∀ (m2 : Manager Val) (op : Op Val) (m1 : Manager Val), m2.step S op = some m1 →
      op.isRefreshOrClear = false → m1.getEntityCount = m2.getEntityCount) ∧
    (∀ (i : Nat) (m1 : Manager Val), createIndex S m = some (i, m1) →
      ¬ i < m1.getEntityCount) := by
  refine ⟨?_, ?_, ?_, ?_⟩
  · intro σ fn s fuel hfn hf
    exact forEntities_eq_foldlM fn hfn fuel (m, s) hf
  · intro fuel hf
    rw [forEntities_eq_foldlM recordIndex (fun i st st1 e => by
      simp only [recordIndex] at e; cases e; rfl) fuel (m, []) hf]
    have := foldlM_recordIndex m (List.range m.size) []
    simpa using this
  · intro m2 op m1 e hc
    exact step_size e hc
  · intro i m1 e
    obtain ⟨m2, e2, _, _, hsz, _⟩ := createIndex_fields h.inv
    rw [e] at e2
    cases e2
    simp only [getEntityCount, hsz]
    have := h.inv.sizeLe
    omega

/-- The statement of C20 for a new manager after two `createIndex` calls, and the scenario of
the tests: the two calls leave `getEntityCount` at `0`, nothing is visited, and after a
refresh `getEntityCount` is `2` and the indices `0` and `1` are visited. -/
theorem forEntities_visits_size_witness :
    ((∀ (σ : Type) (fn : Nat → Manager Int × σ → Option (Manager Int × σ)) (s : σ)
        (fuel : Nat),
      (∀ i st st1, fn i st = some st1 → st1.1.size = st.1.size) →
      (testRun [Op.createIndex, Op.createIndex]).size < fuel →
      forEntities fn fuel (testRun [Op.createIndex, Op.createIndex], s) =
        (List.range (testRun [Op.createIndex, Op.createIndex]).size).foldlM
          (fun st k => fn k st) (testRun [Op.createIndex, Op.createIndex], s)) ∧
    (∀ (fuel : Nat), (testRun [Op.createIndex, Op.createIndex]).size < fuel →
      forEntities recordIndex fuel (testRun [Op.createIndex, Op.createIndex], []) =
        some (testRun [Op.createIndex, Op.createIndex],
          List.range (testRun [Op.createIndex, Op.createIndex]).size)) ∧
    (∀ (m2 : Manager Int) (op : Op Int) (m1 : Manager Int),
      m2.step testSettings op = some m1 →
      op.isRefreshOrClear = false → m1.getEntityCount = m2.getEntityCount) ∧
    (∀ (i : Nat) (m1 : Manager Int),
      createIndex testSettings (testRun [Op.createIndex, Op.createIndex]) = some (i, m1) →
      ¬ i < m1.getEntityCount)) ∧
    testNew.getEntityCount = 0 ∧
    (testRun [Op.createIndex, Op.createIndex]).getEntityCount = 0 ∧
    (forEntities recordIndex 1 (testRun [Op.createIndex, Op.createIndex], [])).map Prod.snd =
      some [] ∧
    (testRun [Op.createIndex, Op.createIndex, Op.refresh]).getEntityCount = 2 ∧
    (forEntities recordIndex 3
        (testRun [Op.createIndex, Op.createIndex, Op.refresh], [])).map Prod.snd =
      some [0, 1] :=
  ⟨forEntities_visits_size testSettings (testRun [Op.createIndex, Op.createIndex])
    (Reachable.ofRun [Op.createIndex, Op.createIndex] testNew _ (by rfl) (by rfl)),
    by rfl, by rfl, by rfl, by rfl, by rfl⟩

end ecs

namespace ecs
namespace Manager

variable {Val : Type}

/-! ## Growth of the tables -/

theorem getD_resize_lt {α : Type} (l : List α) (n i : Nat) (d : α) (hi : i < n) :
    (resize l n d).getD i d = l.getD i d := by
  simp only [resize]
  by_cases c : i < l.length
  · have h1 : i < (l.take n).length := by
      rw [List.length_take]; omega
    rw [List.getD_append _ _ _ _ h1, List.getD_eq_getElem _ _ h1, List.getD_eq_getElem _ _ c,
      List.getElem_take]
  · have h1 : (l.take n).length ≤ i := by
      rw [List.length_take]; omega
    rw [List.getD_append_right _ _ _ _ h1, List.getD_eq_default l d (by omega)]
    simp only [List.getD_eq_getElem?_getD, List.getElem?_replicate]
    split <;> rfl

theorem growTo_capacity [Inhabited Val] {S : Settings} {m m1 : Manager Val} {n : Nat}
    (e : growTo S m n = some m1) : n > m.capacity ∧ m1.capacity = n := by
  simp only [growTo] at e
  split at e
  · next c =>
    cases e
    exact ⟨c, rfl⟩
  · cases e

/-- The effect of `growTo` on an arbitrary state, table by table. -/
theorem growTo_tables [Inhabited Val] (S : Settings) (m : Manager Val) (n : Nat)
    (hn : n > m.capacity) :
    ∃ m1, growTo S m n = some m1 ∧ m1.capacity = n ∧ m1.size = m.size ∧
      m1.sizeNext = m.sizeNext ∧ m1.entities.length = n ∧ m1.handleData.length = n ∧
      m1.components = m.components.map (fun v => resize v n default) ∧
      (∀ i, i < m.capacity → m1.ent i = m.ent i) ∧
      (∀ i, m.capacity ≤ i → i < n → m1.ent i = Entity.init S i) ∧
      (∀ j, j < m.capacity → m1.hd j = m.hd j) ∧
      (∀ j, m.capacity ≤ j → j < n → m1.hd j = HandleData.init j) := by
  simp only [growTo, if_pos hn]
  obtain ⟨_, f2, f3, f4, f5, f6⟩ := initLoop_fields S (n - m.capacity) m.capacity
      ({ m with
          entities := resize m.entities n Entity.zero
          components := m.components.map (fun v => resize v n default)
          handleData := resize m.handleData n HandleData.zero } : Manager Val)
  refine ⟨_, rfl, rfl, f2, f3, ?_, ?_, f4, ?_, ?_, ?_, ?_⟩
  · show (forLoop (initSlot S) _ _ _).entities.length = n
    rw [f5]; exact length_resize _ _ _
  · show (forLoop (initSlot S) _ _ _).handleData.length = n
    rw [f6]; exact length_resize _ _ _
  · intro i hi
    show (forLoop (initSlot S) _ _ _).ent i = _
    rw [initLoop_ent, if_neg (by omega)]
    exact getD_resize_lt _ _ _ _ (by omega)
  · intro i h1 h2
    show (forLoop (initSlot S) _ _ _).ent i = _
    rw [initLoop_ent, if_pos]
    refine ⟨h1, by omega, ?_⟩
    show i < (resize m.entities n Entity.zero).length
    rw [length_resize]; exact h2
  · intro j hj
    show (forLoop (initSlot S) _ _ _).hd j = _
    rw [initLoop_hd, if_neg (by omega)]
    exact getD_resize_lt _ _ _ _ (by omega)
  · intro j h1 h2
    show (forLoop (initSlot S) _ _ _).hd j = _
    rw [initLoop_hd, if_pos]
    refine ⟨h1, by omega, ?_⟩
    show j < (resize m.handleData n HandleData.zero).length
    rw [length_resize]; exact h2

/-- Reading a component vector after all of them were resized to `n`. -/
theorem getD_map_resize [Inhabited Val] (cs : List (List Val)) (n c i : Nat) (hi : i < n) :
    ((cs.map (fun v => resize v n default)).getD c []).getD i default =
      (cs.getD c []).getD i default := by
  by_cases hc : c < cs.length
  · have e1 : (cs.map (fun v => resize v n default)).getD c [] =
        resize (cs.getD c []) n default := by
      rw [List.getD_eq_getElem _ _ (by simpa using hc), List.getD_eq_getElem _ _ hc,
        List.getElem_map]
    rw [e1]
    exact getD_resize_lt _ _ _ _ hi
  · have e1 : (cs.map (fun v => resize v n default)).getD c [] = [] :=
      List.getD_eq_default _ _ (by simpa using hc)
    have e2 : cs.getD c [] = [] := List.getD_eq_default _ _ (by omega)
    rw [e1, e2]

theorem growIfNeeded_capacity [Inhabited Val] {S : Settings} {m g : Manager Val}
    (e : growIfNeeded S m = some g) :
    (m.sizeNext < m.capacity → g = m) ∧
      (¬ m.sizeNext < m.capacity → g.capacity = (m.capacity + 10) * 2) := by
  simp only [growIfNeeded] at e
  split at e
  · next c =>
    cases e
    exact ⟨fun _ => rfl, fun c2 => absurd c c2⟩
  · next c =>
    exact ⟨fun c2 => absurd c2 c, fun _ => (growTo_capacity e).2⟩

/-- The component values after `growIfNeeded`. -/
theorem growIfNeeded_components [Inhabited Val] {S : Settings} {m g : Manager Val}
    (e : growIfNeeded S m = some g) (c i : Nat) (hi : i < m.capacity) :
    (g.components.getD c []).getD i default = (m.components.getD c []).getD i default := by
  simp only [growIfNeeded] at e
  split at e
  · cases e; rfl
  · obtain ⟨hn, _⟩ := growTo_capacity e
    obtain ⟨m1, e1, _, _, _, _, _, hc, _⟩ := growTo_tables S m _ hn
    rw [e] at e1
    cases e1
    rw [hc]
    exact getD_map_resize _ _ _ _ (by omega)

theorem createIndex_capacity [Inhabited Val] {S : Settings} {m m1 : Manager Val} {i : Nat}
    (e : createIndex S m = some (i, m1)) :
    ∃ g, growIfNeeded S m = some g ∧ m1.capacity = g.capacity ∧
      m1.components = g.components ∧ m1.handleData = g.handleData := by
  simp only [createIndex] at e
  cases hg : growIfNeeded S m with
  | none => rw [hg] at e; cases e
  | some g =>
    rw [hg] at e
    simp only at e
    split at e
    · cases e
      exact ⟨g, rfl, rfl, rfl, rfl⟩
    · cases e

theorem testFull_run : testNew.run testSettings testFullOps = some testFull := by rfl

set_option maxRecDepth 100000 in
theorem testFull_fields : testFull.capacity = 100 ∧ testFull.sizeNext = 100 := by
  constructor <;> rfl

theorem testFull_reachable : Reachable testSettings testFull :=
  Reachable.ofRun testFullOps testNew _ testNew_eq testFull_run

end Manager

open Manager

variable {Val : Type}

/-- C21: a new manager has capacity 100, size 0 and sizeNext 0; in every reachable state
`createIndex()` succeeds, leaves `capacity` unchanged when `sizeNext < capacity` held before
the call and sets it to `(capacity + 10) * 2` when `sizeNext = capacity` held; and no call
makes `capacity` smaller. -/
theorem capacity_growth [Inhabited Val] (S : Settings) (m : Manager Val) (h : Reachable S m) :
    (∃ m0 : Manager Val, Manager.new S = some m0 ∧ m0.getCapacity = 100 ∧ m0.size = 0 ∧
      m0.sizeNext = 0) ∧
    (∃ i m1, createIndex S m = some (i, m1) ∧
      (m.sizeNext < m.capacity → m1.capacity = m.capacity) ∧
      (m.sizeNext = m.capacity → m1.capacity = (m.capacity + 10) * 2)) ∧
    (∀ op m1, m.step S op = some m1 → m.capacity ≤ m1.capacity) := by
  refine ⟨new_eq_some S, ?_, ?_⟩
  · obtain ⟨m1, e, _⟩ := createIndex_fields h.inv
    obtain ⟨g, eg, hcap, _⟩ := createIndex_capacity e
    obtain ⟨c1, c2⟩ := growIfNeeded_capacity eg
    refine ⟨_, m1, e, fun c => ?_, fun c => ?_⟩
    · rw [hcap, c1 c]
    · rw [hcap, c2 (by omega)]
  · intro op m1 e
    exact step_capacity_le h.inv e

/-- The 101st creation on a new test manager raises the capacity from 100 to 220. -/
theorem capacity_growth_witness :
    testFull.sizeNext = 100 ∧ testFull.capacity = 100 ∧
      ∃ i m1, createIndex testSettings testFull = some (i, m1) ∧ m1.capacity = 220 := by
  obtain ⟨i, m1, e, _, c⟩ := (capacity_growth testSettings testFull testFull_reachable).2.1
  refine ⟨testFull_fields.2, testFull_fields.1, i, m1, e, ?_⟩
  rw [c (by rw [testFull_fields.1, testFull_fields.2]), testFull_fields.1]

/-- C22: for every state and every `n > capacity`, `growTo(n)` succeeds, sets `capacity` to `n`,
leaves every entity record, handle slot and stored component value at an index below the old
capacity unchanged, extends the entity table, the handle table and every component vector to
length `n`, and initialises each new index `i` with `dataIndex = i`, `handleDataIndex = i`, an
empty bitset, `alive = false`, handle counter `0` and handle `entityIndex = i`. -/
theorem growTo_extends [Inhabited Val] (S : Settings) (m : Manager Val) (n : Nat)
    (hn : n > m.capacity) :
    ∃ m1, growTo S m n = some m1 ∧ m1.capacity = n ∧
      (∀ i, i < m.capacity → m1.ent i = m.ent i ∧ m1.hd i = m.hd i ∧
        (∀ c, (m1.components.getD c []).getD i default =
          (m.components.getD c []).getD i default) ∧
        ∀ T, readComponent S m1 T i = readComponent S m T i) ∧
      m1.entities.length = n ∧ m1.handleData.length = n ∧
      m1.components.length = m.components.length ∧ (∀ v ∈ m1.components, v.length = n) ∧
      (∀ i, m.capacity ≤ i → i < n →
        m1.ent i = { dataIndex := i, handleDataIndex := i, bitset := Bitset.reset S.bitCount,
                     alive := false } ∧
        m1.hd i = { entityIndex := i, counter := 0 }) := by
  obtain ⟨m1, e, hcap, _, _, hel, hhl, hc, h1, h2, h3, h4⟩ := growTo_tables S m n hn
  refine ⟨m1, e, hcap, fun i hi => ⟨h1 i hi, h3 i hi, fun c => ?_, fun T => ?_⟩, hel, hhl,
    ?_, ?_, fun i c1 c2 => ⟨h2 i c1 c2, h4 i c1 c2⟩⟩
  · rw [hc]
    exact getD_map_resize _ _ _ _ (by omega)
  · simp only [readComponent, hc]
    exact getD_map_resize _ _ _ _ (by omega)
  · rw [hc, List.length_map]
  · intro v hv
    rw [hc] at hv
    obtain ⟨w, _, rfl⟩ := List.mem_map.mp hv
    exact length_resize _ _ _

/-- Growing a new test manager to 220 slots keeps slot 0 and initialises slot 150. -/
theorem growTo_extends_witness :
    ∃ m1, growTo testSettings testNew 220 = some m1 ∧ m1.ent 0 = testNew.ent 0 ∧
      (m1.ent 150).dataIndex = 150 ∧ (m1.hd 150).entityIndex = 150 ∧
      m1.entities.length = 220 := by
  obtain ⟨m1, e, _, h1, h2, _, _, _, h3⟩ :=
    growTo_extends testSettings testNew 220 (by decide)
  refine ⟨m1, e, (h1 0 (by decide)).1, ?_, ?_, h2⟩
  · rw [(h3 150 (by decide) (by decide)).1]
  · rw [(h3 150 (by decide) (by decide)).2]

/-- For every `n` there is a reachable state with `sizeNext = n`: the state after `n` calls of
`createIndex()` on a new manager. -/
theorem reachable_sizeNext [Inhabited Val] (S : Settings) (n : Nat) :
    ∃ m : Manager Val, Reachable S m ∧ m.sizeNext = n := by
  induction n with
  | zero =>
    obtain ⟨m0, e, _, _, hs⟩ := @new_eq_some Val _ S
    exact ⟨m0, Reachable.init m0 e, hs⟩
  | succ n ih =>
    obtain ⟨m, hm, hn⟩ := ih
    obtain ⟨m1, e, _, hnx, _⟩ := createIndex_fields hm.inv
    refine ⟨m1, Reachable.step m m1 Op.createIndex hm ?_, by omega⟩
    simp only [Manager.step, e, Option.map_some']

/-- C23: in a reachable state `clear()` returns exactly if `capacity` is below `2^32`, the range
of its 32-bit loop counter.  When it returns, the counts `size` and `sizeNext` are 0 (so
`getEntityCount()` is 0), `capacity` is unchanged, and for every `i < capacity` the entity
record has `dataIndex = i`, `handleDataIndex = i`, an empty bitset and `alive = false`, and
handle slot `i` has `entityIndex = i` and counter `0`.  With `capacity` at `2^32` or above the
loop counter wraps to 0 before it reaches `capacity` and the call does not return; such a
state is reachable. -/
theorem clear_resets [Inhabited Val] (S : Settings) (m : Manager Val) (h : Reachable S m) :
    (m.capacity < 4294967296 →
      ∃ m1, m.step S Op.clear = some m1 ∧
        m1.size = 0 ∧ m1.sizeNext = 0 ∧ m1.getEntityCount = 0 ∧ m1.capacity = m.capacity ∧
        ∀ i, i < m.capacity →
          m1.ent i = { dataIndex := i, handleDataIndex := i,
                       bitset := Bitset.reset S.bitCount, alive := false } ∧
          m1.hd i = { entityIndex := i, counter := 0 }) ∧
    (4294967296 ≤ m.capacity → m.step S Op.clear = none) ∧
    ∃ mb : Manager Val, Reachable S mb ∧ 4294967296 ≤ mb.capacity ∧
      mb.step S Op.clear = none := by
  have hbig : ∀ a : Manager Val, 4294967296 ≤ a.capacity → a.step S Op.clear = none := by
    intro a c
    simp only [Manager.step]
    rw [clear_eq, if_neg (by omega)]
  refine ⟨fun c => ⟨m.cleared S, ?_, rfl, rfl, rfl, cleared_capacity S m, fun i hi => ⟨?_, ?_⟩⟩,
    hbig m, ?_⟩
  · simp only [Manager.step]
    exact clear_of_lt S c
  · rw [cleared_ent, if_pos ⟨hi, by rw [h.inv.hinv.entLen]; exact hi⟩]
    rfl
  · rw [cleared_hd, if_pos ⟨hi, by rw [h.inv.hinv.hdLen]; exact hi⟩]
    rfl
  · obtain ⟨mb, hb, hn⟩ := @reachable_sizeNext Val _ S 4294967296
    have hc : 4294967296 ≤ mb.capacity := by
      have := hb.inv.nextLe
      omega
    exact ⟨mb, hb, hc, hbig mb hc⟩

/-- After five creations and two kills, `clear()` returns an empty manager of capacity 100
whose record 3 is back in its initial state. -/
theorem clear_resets_witness :
    ∃ m1, testFive.step testSettings Op.clear = some m1 ∧ m1.getEntityCount = 0 ∧
      m1.capacity = 100 ∧ m1.ent 3 = Entity.init testSettings 3 := by
  have h := clear_resets testSettings testFive
    (Reachable.ofRun testFiveOps testNew _ (by rfl) (by rfl))
  obtain ⟨m1, e, _, _, h3, h4, h5⟩ := h.1 (by decide)
  exact ⟨m1, e, h3, h4, (h5 3 (by decide)).1⟩

end ecs

namespace ecs

theorem mem_of_indexOf_lt {α : Type} [BEq α] [LawfulBEq α] {a : α} {l : List α}
    (h : l.indexOf a < l.length) : a ∈ l := by
  simp only [List.indexOf] at h
  obtain ⟨x, hx, e⟩ := List.findIdx_lt_length.mp h
  have : x = a := by simpa using e
  rw [← this]; exact hx

theorem indexOf_ne_of_mem {α : Type} [BEq α] [LawfulBEq α] {a b : α} {l : List α}
    (ha : a ∈ l) (hne : a ≠ b) : l.indexOf a ≠ l.indexOf b := by
  intro e
  have hb : b ∈ l := mem_of_indexOf_lt (by rw [← e]; exact indexOf_lt_of_mem ha)
  exact hne (indexOf_inj_of_mem ha hb e)

namespace Manager

variable {Val : Type}

/-! ## Components and tags of one entity -/

theorem readComponent_write [Inhabited Val] (S : Settings) (m : Manager Val) (T U : Kind)
    (di dj : Nat) (v : Val) :
    readComponent S (writeComponent S m T di v) U dj =
      if (S.componentID T = S.componentID U ∧ S.componentID T < m.components.length) ∧
          (di = dj ∧ di < (m.components.getD (S.componentID T) []).length) then v
      else readComponent S m U dj := by
  show ((m.components.set (S.componentID T)
      ((m.components.getD (S.componentID T) []).set di v)).getD (S.componentID U) []).getD dj
        default = _
  rw [getD_set]
  by_cases c1 : S.componentID T = S.componentID U ∧ S.componentID T < m.components.length
  · rw [if_pos c1, getD_set]
    by_cases c2 : di = dj ∧ di < (m.components.getD (S.componentID T) []).length
    · rw [if_pos c2, if_pos ⟨c1, c2⟩]
    · rw [if_neg c2, if_neg (fun c => c2 c.2), c1.1]
      rfl
  · rw [if_neg c1, if_neg (fun c => c1 c.1)]
    rfl

theorem hasComponent_bit (S : Settings) (m : Manager Val) (U : Kind) (j : Nat) :
    hasComponent S m U j =
      if S.isComponent U = true ∧ j < m.sizeNext then
        some ((m.ent j).bitset.getD (S.componentBit U) false)
      else none := by
  simp only [hasComponent, getEntity]
  by_cases c1 : S.isComponent U = true
  · by_cases c2 : j < m.sizeNext
    · simp [c1, c2]
    · simp [c1, c2]
  · simp [c1]

theorem hasTag_bit (S : Settings) (m : Manager Val) (U : Kind) (j : Nat) :
    hasTag S m U j =
      if S.isTag U = true ∧ j < m.sizeNext then
        some ((m.ent j).bitset.getD (S.tagBit U) false)
      else none := by
  simp only [hasTag, getEntity]
  by_cases c1 : S.isTag U = true
  · by_cases c2 : j < m.sizeNext
    · simp [c1, c2]
    · simp [c1, c2]
  · simp [c1]

theorem addComponent_of_lt (S : Settings) {m : Manager Val} {T : Kind} {i : Nat} (v : Val)
    (hT : S.isComponent T = true) (hi : i < m.sizeNext) :
    addComponent S m T i v =
      some (writeComponent S
        (m.setEnt i { m.ent i with bitset := (m.ent i).bitset.set (S.componentBit T) true })
        T (m.ent i).dataIndex v) := by
  simp only [addComponent, hT, if_true, getEntity_of_lt hi]

theorem addTag_of_lt (S : Settings) {m : Manager Val} {T : Kind} {i : Nat}
    (hT : S.isTag T = true) (hi : i < m.sizeNext) :
    addTag S m T i =
      some (m.setEnt i { m.ent i with bitset := (m.ent i).bitset.set (S.tagBit T) true }) := by
  simp only [addTag, hT, if_true, getEntity_of_lt hi]

theorem delTag_of_lt (S : Settings) {m : Manager Val} {T : Kind} {i : Nat}
    (hT : S.isTag T = true) (hi : i < m.sizeNext) :
    delTag S m T i =
      some (m.setEnt i { m.ent i with bitset := (m.ent i).bitset.set (S.tagBit T) false }) := by
  simp only [delTag, hT, if_true, getEntity_of_lt hi]

/-- The records after one bit of record `i` was written. -/
theorem setBit_ent {S : Settings} {m : Manager Val} (h : Inv S m) {i : Nat}
    (hi : i < m.sizeNext) (k : Nat) (b : Bool) (j : Nat) :
    ((m.setEnt i { m.ent i with bitset := (m.ent i).bitset.set k b }).ent j).dataIndex =
        (m.ent j).dataIndex ∧
    ((m.setEnt i { m.ent i with bitset := (m.ent i).bitset.set k b }).ent j).alive =
        (m.ent j).alive ∧
    (∀ k2, ((m.setEnt i { m.ent i with bitset := (m.ent i).bitset.set k b }).ent j).bitset.getD
        k2 false =
      if (i = j ∧ k = k2) ∧ k < S.bitCount then b else (m.ent j).bitset.getD k2 false) := by
  have hl : i < m.entities.length := by
    rw [h.hinv.entLen]; have := h.nextLe; omega
  have hb : (m.ent i).bitset.length = S.bitCount := h.bits_len (by have := h.nextLe; omega)
  rw [setEnt_ent]
  by_cases c : i = j
  · subst c
    rw [if_pos ⟨rfl, hl⟩]
    refine ⟨rfl, rfl, fun k2 => ?_⟩
    show ((m.ent i).bitset.set k b).getD k2 false = _
    rw [getD_set, hb]
    by_cases c2 : k = k2 ∧ k < S.bitCount
    · rw [if_pos c2, if_pos ⟨⟨rfl, c2.1⟩, c2.2⟩]
    · rw [if_neg c2, if_neg (fun c3 => c2 ⟨c3.1.2, c3.2⟩)]
  · rw [if_neg (fun c2 => c c2.1)]
    exact ⟨rfl, rfl, fun k2 => by rw [if_neg (fun c3 => c c3.1.1)]⟩

end Manager

open Manager

variable {Val : Type}

/-- C24: in every reachable state, for every index `i < sizeNext`, component kind `T` and value
`v`, `addComponent<T>(i, v)` succeeds; afterwards `hasComponent<T>(i)` is true and
`getComponent<T>(i)` returns `v`; and for every index `j` and kind `U` with `j ≠ i` or `U ≠ T`,
`hasComponent<U>(j)`, the data slot of record `j` and the value stored for `U` in that data slot
are unchanged. -/
theorem addComponent_isolated [Inhabited Val] (S : Settings) (m : Manager Val)
    (h : Reachable S m) (T : Kind) (hT : S.isComponent T = true) (i : Nat)
    (hi : i < m.sizeNext) (v : Val) :
    ∃ m1, addComponent S m T i v = some m1 ∧ m1.sizeNext = m.sizeNext ∧
      hasComponent S m1 T i = some true ∧ getComponent S m1 T i = some v ∧
      ∀ j U, j < m.sizeNext → (j ≠ i ∨ U ≠ T) →
        hasComponent S m1 U j = hasComponent S m U j ∧
        (m1.ent j).dataIndex = (m.ent j).dataIndex ∧
        readComponent S m1 U (m1.ent j).dataIndex =
          readComponent S m U (m.ent j).dataIndex := by
  have hv := h.inv
  have hcap : i < m.capacity := by have := hv.nextLe; omega
  have hbit : S.componentBit T < S.bitCount := Settings.componentBit_lt hT
  have hmem : T ∈ S.componentList := Settings.mem_of_isComponent hT
  have hcid : S.componentID T < m.components.length := by
    rw [hv.compCount]; exact indexOf_lt_of_mem hmem
  have hvec : (m.components.getD (S.componentID T) []).length = m.capacity :=
    hv.compLen _ (getD_mem _ _ _ hcid)
  have hdi : (m.ent i).dataIndex < m.capacity := hv.data_lt hcap
  obtain ⟨m1, hm1⟩ : ∃ m1 : Manager Val, m1 = writeComponent S
      (m.setEnt i { m.ent i with bitset := (m.ent i).bitset.set (S.componentBit T) true })
      T (m.ent i).dataIndex v := ⟨_, rfl⟩
  have hsz : m1.sizeNext = m.sizeNext := by rw [hm1]; rfl
  have hent : ∀ j, (m1.ent j).dataIndex = (m.ent j).dataIndex ∧
      ∀ k2, (m1.ent j).bitset.getD k2 false =
        if (i = j ∧ S.componentBit T = k2) ∧ S.componentBit T < S.bitCount then true
        else (m.ent j).bitset.getD k2 false := by
    intro j
    have e2 := setBit_ent hv hi (S.componentBit T) true j
    rw [hm1]
    exact ⟨e2.1, e2.2.2⟩
  have hread : ∀ U d, readComponent S m1 U d =
      if (S.componentID T = S.componentID U ∧ S.componentID T < m.components.length) ∧
          ((m.ent i).dataIndex = d ∧
            (m.ent i).dataIndex < (m.components.getD (S.componentID T) []).length) then v
      else readComponent S m U d := by
    intro U d
    rw [hm1]
    exact readComponent_write S _ T U _ d v
  have hhas : hasComponent S m1 T i = some true := by
    rw [hasComponent_bit, if_pos ⟨hT, by rw [hsz]; exact hi⟩, (hent i).2,
      if_pos ⟨⟨rfl, rfl⟩, hbit⟩]
  refine ⟨m1, by rw [hm1]; exact addComponent_of_lt S v hT hi, hsz, hhas, ?_, ?_⟩
  · simp only [getComponent, hT, if_true, hhas]
    rw [getEntity_of_lt (by rw [hsz]; exact hi)]
    show some (readComponent S m1 T (m1.ent i).dataIndex) = _
    rw [hread, if_pos ⟨⟨rfl, hcid⟩, (hent i).1.symm, by rw [hvec]; exact hdi⟩]
  · intro j U hj hne
    have hjc : j < m.capacity := by have := hv.nextLe; omega
    refine ⟨?_, (hent j).1, ?_⟩
    · have hb : (m1.ent j).bitset.getD (S.componentBit U) false =
          (m.ent j).bitset.getD (S.componentBit U) false := by
        rw [(hent j).2, if_neg]
        rintro ⟨⟨c1, c2⟩, _⟩
        rcases hne with c | c
        · exact c c1.symm
        · exact indexOf_ne_of_mem hmem (Ne.symm c) c2
      rw [hasComponent_bit, hasComponent_bit, hsz, hb]
    · rw [hread, (hent j).1, if_neg]
      rintro ⟨⟨c1, _⟩, c2, _⟩
      rcases hne with c | c
      · exact c (hv.data_inj hcap hjc c2).symm
      · exact indexOf_ne_of_mem hmem (Ne.symm c) c1

/-- Adding `C1` with value `7` to the first of two new entities: it reads back as `7`, and the
second entity still has no `C1`. -/
theorem addComponent_isolated_witness :
    ∃ m1, addComponent testSettings testTwo 1 0 7 = some m1 ∧
      getComponent testSettings m1 1 0 = some 7 ∧
      hasComponent testSettings m1 1 1 = some false := by
  obtain ⟨m1, e, _, _, h2, h3⟩ := addComponent_isolated testSettings testTwo
    (Reachable.ofRun [Op.createIndex, Op.createIndex] testNew _ (by rfl) (by rfl)) 1
    (by decide) 0 (by decide) 7
  refine ⟨m1, e, h2, ?_⟩
  rw [(h3 1 1 (by decide) (Or.inl (by decide))).1]
  rfl

end ecs

namespace ecs
namespace Manager

variable {Val : Type}

/-- What writing the bit of tag `T` of record `i` leaves alone. -/
theorem setTagBit_frame {S : Settings} {m : Manager Val} (h : Inv S m) {T : Kind} {i : Nat}
    (hT : S.isTag T = true) (hi : i < m.sizeNext) (b : Bool) :
    hasTag S (m.setEnt i { m.ent i with bitset := (m.ent i).bitset.set (S.tagBit T) b }) T i =
      some b ∧
    (∀ U j, (U ≠ T ∨ j ≠ i) →
      hasTag S (m.setEnt i { m.ent i with bitset := (m.ent i).bitset.set (S.tagBit T) b }) U j =
        hasTag S m U j) ∧
    (∀ C j,
      hasComponent S
          (m.setEnt i { m.ent i with bitset := (m.ent i).bitset.set (S.tagBit T) b }) C j =
        hasComponent S m C j) ∧
    (∀ j,
      ((m.setEnt i { m.ent i with bitset := (m.ent i).bitset.set (S.tagBit T) b }).ent j).alive =
        (m.ent j).alive) := by
  have hbit : S.tagBit T < S.bitCount := Settings.tagBit_lt hT
  have hmem : T ∈ S.tagList := Settings.mem_of_isTag hT
  obtain ⟨m1, hm1⟩ : ∃ m1 : Manager Val, m1 =
      m.setEnt i { m.ent i with bitset := (m.ent i).bitset.set (S.tagBit T) b } := ⟨_, rfl⟩
  rw [← hm1]
  have hsz : m1.sizeNext = m.sizeNext := by rw [hm1]; rfl
  have hent : ∀ j, (m1.ent j).alive = (m.ent j).alive ∧
      ∀ k2, (m1.ent j).bitset.getD k2 false =
        if (i = j ∧ S.tagBit T = k2) ∧ S.tagBit T < S.bitCount then b
        else (m.ent j).bitset.getD k2 false := by
    intro j
    have e2 := setBit_ent h hi (S.tagBit T) b j
    rw [hm1]
    exact ⟨e2.2.1, e2.2.2⟩
  refine ⟨?_, fun U j hne => ?_, fun C j => ?_, fun j => (hent j).1⟩
  · rw [hasTag_bit, if_pos ⟨hT, by rw [hsz]; exact hi⟩, (hent i).2, if_pos ⟨⟨rfl, rfl⟩, hbit⟩]
  · by_cases hU : S.isTag U = true
    · have hb : (m1.ent j).bitset.getD (S.tagBit U) false =
          (m.ent j).bitset.getD (S.tagBit U) false := by
        rw [(hent j).2, if_neg]
        rintro ⟨⟨c1, c2⟩, _⟩
        rcases hne with c | c
        · simp only [Settings.tagBit, Settings.tagID] at c2
          exact indexOf_ne_of_mem hmem (Ne.symm c) (by omega)
        · exact c c1.symm
      rw [hasTag_bit, hasTag_bit, hsz, hb]
    · rw [hasTag_bit, hasTag_bit, if_neg (fun c => hU c.1), if_neg (fun c => hU c.1)]
  · by_cases hC : S.isComponent C = true
    · have hb : (m1.ent j).bitset.getD (S.componentBit C) false =
          (m.ent j).bitset.getD (S.componentBit C) false := by
        rw [(hent j).2, if_neg]
        rintro ⟨⟨_, c2⟩, _⟩
        have := indexOf_lt_of_mem (Settings.mem_of_isComponent hC)
        simp only [Settings.tagBit, Settings.componentBit, Settings.componentID,
          Settings.componentCount] at c2
        omega
      rw [hasComponent_bit, hasComponent_bit, hsz, hb]
    · rw [hasComponent_bit, hasComponent_bit, if_neg (fun c => hC c.1),
        if_neg (fun c => hC c.1)]

theorem isAlive_congr {m m1 : Manager Val} {j : Nat} (hs : m1.sizeNext = m.sizeNext)
    (ha : (m1.ent j).alive = (m.ent j).alive) : m1.isAlive j = m.isAlive j := by
  simp only [isAlive, getEntity, hs]
  by_cases c : m.sizeNext > j
  · simp only [if_pos c, ha]
  · simp only [if_neg c]

theorem getEntityIndex_eq_none {m : Manager Val} {x : Handle}
    (hx : x.handleDataIndex < m.handleData.length) :
    m.getEntityIndex x = none ↔ x.counter ≠ (m.hd x.handleDataIndex).counter := by
  simp only [getEntityIndex, isHandleValid_of_lt hx, getHandleData, if_pos hx]
  by_cases c : x.counter = (m.hd x.handleDataIndex).counter
  · simp [c]
  · simp [c]

theorem getComponent_of_has [Inhabited Val] (S : Settings) {m : Manager Val} {T : Kind} {i : Nat}
    (hi : i < m.sizeNext) (hc : hasComponent S m T i = some true) :
    getComponent S m T i = some (readComponent S m T (m.ent i).dataIndex) := by
  have hT : S.isComponent T = true := by
    rw [hasComponent_bit] at hc
    split at hc
    · rename_i c; exact c.1
    · cases hc
  simp only [getComponent, hT, if_true, hc, getEntity_of_lt hi]

theorem testTagged_run : testNew.run testSettings testTaggedOps = some testTagged := by rfl

end Manager

open Manager

variable {Val : Type}

/-- C25: in every reachable state, for every index `i < sizeNext` and tag kind `T`,
`addTag<T>(i)` and `delTag<T>(i)` succeed; after `addTag<T>(i)` `hasTag<T>(i)` is true, after
`delTag<T>(i)` it is false; and both calls leave `hasTag<U>(j)` unchanged for every pair
`(U, j)` different from `(T, i)`, leave every `hasComponent` result unchanged, and leave the
alive flags, `size` and `sizeNext` unchanged. -/
theorem tag_ops_isolated [Inhabited Val] (S : Settings) (m : Manager Val) (h : Reachable S m)
    (T : Kind) (hT : S.isTag T = true) (i : Nat) (hi : i < m.sizeNext) :
    ∃ m1 m2, addTag S m T i = some m1 ∧ delTag S m T i = some m2 ∧
      hasTag S m1 T i = some true ∧ hasTag S m2 T i = some false ∧
      ∀ m3, m3 = m1 ∨ m3 = m2 →
        (∀ U j, (U ≠ T ∨ j ≠ i) → hasTag S m3 U j = hasTag S m U j) ∧
        (∀ C j, hasComponent S m3 C j = hasComponent S m C j) ∧
        (∀ j, (m3.ent j).alive = (m.ent j).alive) ∧ (∀ j, m3.isAlive j = m.isAlive j) ∧
        m3.size = m.size ∧ m3.sizeNext = m.sizeNext := by
  obtain ⟨a1, a2, a3, a4⟩ := setTagBit_frame h.inv hT hi true
  obtain ⟨d1, d2, d3, d4⟩ := setTagBit_frame h.inv hT hi false
  refine ⟨_, _, addTag_of_lt S hT hi, delTag_of_lt S hT hi, a1, d1, ?_⟩
  rintro m3 (rfl | rfl)
  · refine ⟨a2, a3, a4, fun j => isAlive_congr rfl (a4 j), rfl, rfl⟩
  · refine ⟨d2, d3, d4, fun j => isAlive_congr rfl (d4 j), rfl, rfl⟩

/-- Adding `T0` to entity 0 of two fresh entities makes `hasTag<T0>(0)` true and leaves
`hasTag<T0>(1)` false, also after a refresh. -/
theorem tag_ops_isolated_witness :
    (∃ m1, addTag testSettings testTwo 5 0 = some m1 ∧ hasTag testSettings m1 5 0 = some true ∧
      hasTag testSettings m1 5 1 = some false) ∧
    hasTag testSettings testTagged 5 0 = some true ∧
    hasTag testSettings testTagged 5 1 = some false := by
  obtain ⟨m1, _, e, _, h1, _, h2⟩ := tag_ops_isolated testSettings testTwo
    (Reachable.ofRun [Op.createIndex, Op.createIndex] testNew _ (by rfl) (by rfl)) 5
    (by decide) 0 (by decide)
  refine ⟨⟨m1, e, h1, ?_⟩, by rfl, by rfl⟩
  rw [((h2 m1 (Or.inl rfl)).1 5 1 (Or.inr (by decide)))]
  rfl

/-- C26: in every reachable state and for every handle `h` with
`h.handleDataIndex < capacity`, `isHandleValid(h)` compares `h.counter` with the counter of
handle slot `h.handleDataIndex`; `getEntityIndex(h)` fails if and only if the two differ, and
returns the `entityIndex` of the slot otherwise; and on a handle whose counter differs every
handle form of `isAlive`, `kill`, `hasTag`, `addTag`, `delTag`, `hasComponent`, `addComponent`,
`getComponent` and `delComponent` fails, so that the call produces no new state. -/
theorem invalid_handle_fails [Inhabited Val] (S : Settings) (m : Manager Val)
    (h : Reachable S m) (x : Handle) (hx : x.handleDataIndex < m.capacity) :
    m.isHandleValid x = some (decide (x.counter = (m.hd x.handleDataIndex).counter)) ∧
    (m.getEntityIndex x = none ↔ x.counter ≠ (m.hd x.handleDataIndex).counter) ∧
    (x.counter = (m.hd x.handleDataIndex).counter →
      m.getEntityIndex x = some (m.hd x.handleDataIndex).entityIndex) ∧
    (x.counter ≠ (m.hd x.handleDataIndex).counter →
      m.isHandleValid x = some false ∧
      m.isAliveH x = none ∧ m.killH x = none ∧ m.step S (Op.killH x) = none ∧
      ∀ T, hasTagH S m T x = none ∧ addTagH S m T x = none ∧ delTagH S m T x = none ∧
        hasComponentH S m T x = none ∧ getComponentH S m T x = none ∧
        delComponentH S m T x = none ∧ m.step S (Op.addTagH T x) = none ∧
        m.step S (Op.delTagH T x) = none ∧ m.step S (Op.delComponentH T x) = none ∧
        ∀ v, addComponentH S m T x v = none ∧ m.step S (Op.addComponentH T x v) = none) := by
  have hl : x.handleDataIndex < m.handleData.length := by rw [h.inv.hinv.hdLen]; exact hx
  have hiff := getEntityIndex_eq_none hl
  refine ⟨isHandleValid_of_lt hl, hiff, fun c => ?_, fun c => ?_⟩
  · apply getEntityIndex_of_valid
    rw [isHandleValid_of_lt hl]
    simp [c]
  · have e := hiff.mpr c
    refine ⟨by rw [isHandleValid_of_lt hl]; simp [c], ?_, ?_, ?_, fun T => ?_⟩
    · simp only [isAliveH, e]
    · simp only [killH, e]
    · simp only [Manager.step, killH, e]
    · refine ⟨?_, ?_, ?_, ?_, ?_, ?_, ?_, ?_, ?_, fun v => ⟨?_, ?_⟩⟩
      · simp only [hasTagH, e]
      · simp only [addTagH, e]
      · simp only [delTagH, e]
      · simp only [hasComponentH, e]
      · simp only [getComponentH, e]
      · simp only [delComponentH, e]
      · simp only [Manager.step, addTagH, e]
      · simp only [Manager.step, delTagH, e]
      · simp only [Manager.step, delComponentH, e]
      · simp only [addComponentH, e]
      · simp only [Manager.step, addComponentH, e]

/-- The handle of an entity that was killed and reclaimed: its counter `0` differs from the
counter `1` of slot 0, and `getEntityIndex` and `kill` fail on it. -/
theorem invalid_handle_fails_witness :
    (testStale.hd 0).counter = 1 ∧
      testStale.getEntityIndex { handleDataIndex := 0, counter := 0 } = none ∧
      testStale.killH { handleDataIndex := 0, counter := 0 } = none ∧
      testStale.getEntityIndex { handleDataIndex := 0, counter := 1 } = some 0 := by
  have h := invalid_handle_fails testSettings testStale
    (Reachable.ofRun testStaleOps testNew _ (by rfl) (by rfl))
    { handleDataIndex := 0, counter := 0 } (by decide)
  have h2 := invalid_handle_fails testSettings testStale
    (Reachable.ofRun testStaleOps testNew _ (by rfl) (by rfl))
    { handleDataIndex := 0, counter := 1 } (by decide)
  exact ⟨by rfl, h.2.1.mpr (by decide), (h.2.2.2 (by decide)).2.2.1, h2.2.2.1 (by rfl)⟩

/-- C27: for every state (reachable or not), entity index `i` and component kind `T`, `getComponent<T>(i)` fails
if and only if `i >= sizeNext` or `hasComponent<T>(i)` is false, and otherwise it returns the
value stored for `T` at the data slot `entities[i].dataIndex`; the call is a read that
produces no new state. -/
theorem getComponent_fails_iff [Inhabited Val] (S : Settings) (m : Manager Val)
    (T : Kind) (hT : S.isComponent T = true) (i : Nat) :
    (getComponent S m T i = none ↔ (m.sizeNext ≤ i ∨ hasComponent S m T i = some false)) ∧
    (getComponent S m T i ≠ none →
      getComponent S m T i = some (readComponent S m T (m.ent i).dataIndex)) := by
  by_cases c1 : i < m.sizeNext
  · cases hb : (m.ent i).bitset.getD (S.componentBit T) false with
    | true =>
      have hc : hasComponent S m T i = some true := by
        rw [hasComponent_bit, if_pos ⟨hT, c1⟩, hb]
      rw [getComponent_of_has S c1 hc, hc]
      refine ⟨⟨fun c => Option.noConfusion c, fun c => ?_⟩, fun _ => rfl⟩
      rcases c with c | c
      · omega
      · cases c
    | false =>
      have hc : hasComponent S m T i = some false := by
        rw [hasComponent_bit, if_pos ⟨hT, c1⟩, hb]
      have e : getComponent S m T i = none := by
        simp only [getComponent, hT, if_true, hc]
      rw [e]
      exact ⟨⟨fun _ => Or.inr hc, fun _ => rfl⟩, fun c => absurd rfl c⟩
  · have hc : hasComponent S m T i = none := by
      rw [hasComponent_bit, if_neg (fun c => c1 c.2)]
    have e : getComponent S m T i = none := by
      simp only [getComponent, hT, if_true, hc]
    rw [e]
    exact ⟨⟨fun _ => Or.inl (by omega), fun _ => rfl⟩, fun c => absurd rfl c⟩

/-- One entity with component `C1` of value `5`: `getComponent<C1>(0)` returns `5`, while
`getComponent<C0>(0)` and `getComponent<C1>(1)` fail. -/
theorem getComponent_fails_iff_witness :
    getComponent testSettings testOne 1 0 = some 5 ∧
      getComponent testSettings testOne 0 0 = none ∧
      getComponent testSettings testOne 1 1 = none := by
  refine ⟨by rfl, ?_, ?_⟩
  · exact (getComponent_fails_iff testSettings testOne 0 (by decide) 0).1.mpr (Or.inr (by rfl))
  · exact (getComponent_fails_iff testSettings testOne 1 (by decide) 1).1.mpr
      (Or.inl (by decide))

end ecs

namespace ecs
namespace Manager

variable {Val : Type}

/-! ## What creation and `refresh` leave alone -/

theorem getComponent_eq_of [Inhabited Val] (S : Settings) {m m1 : Manager Val} {k : Nat}
    (hk : k < m.sizeNext) (hk1 : k < m1.sizeNext) (e : m1.ent k = m.ent k) (T : Kind)
    (hr : readComponent S m1 T (m.ent k).dataIndex = readComponent S m T (m.ent k).dataIndex) :
    getComponent S m1 T k = getComponent S m T k := by
  simp only [getComponent, hasComponent_congr S hk hk1 e, getEntity_of_lt hk,
    getEntity_of_lt hk1, e, hr]

theorem testPayload_reachable : Reachable testSettings testPayload :=
  Reachable.ofRun testPayloadOps testNew _ (by rfl) (by rfl)

end Manager

open Manager

variable {Val : Type}

/-- C28: in every reachable state `createIndex()` and `createHandle()` succeed and end in the
same state, in which every entity record at an index below the old `sizeNext` (in particular
below `size`), every stored component value and every handle counter are what they were before
the call, also when the call makes `capacity` grow; so `hasComponent` and `getComponent` give
the same results for the old entities. -/
theorem create_keeps_old [Inhabited Val] (S : Settings) (m : Manager Val) (h : Reachable S m) :
    ∃ m1 x, createIndex S m = some (m.sizeNext, m1) ∧ createHandle S m = some (x, m1) ∧
      m.capacity ≤ m1.capacity ∧
      (∀ k, k < m.sizeNext → m1.ent k = m.ent k) ∧
      (∀ c d, d < m.capacity →
        (m1.components.getD c []).getD d default = (m.components.getD c []).getD d default) ∧
      (∀ j, (m1.hd j).counter = (m.hd j).counter) ∧
      (∀ T k, k < m.sizeNext → hasComponent S m1 T k = hasComponent S m T k ∧
        getComponent S m1 T k = getComponent S m T k) := by
  have hv := h.inv
  obtain ⟨m1, e, _, hnx, _, _, _, _, hent⟩ := createIndex_fields hv
  obtain ⟨g, eg, hcap, hcomp, hhd⟩ := createIndex_capacity e
  obtain ⟨g2, eg2, _, _, _, _, hle, _, _, hctr⟩ := growIfNeeded_spec hv
  rw [eg] at eg2
  cases eg2
  have hE : ∀ k, k < m.sizeNext → m1.ent k = m.ent k := fun k hk =>
    hent k (by have := hv.nextLe; omega) (by omega)
  have hC : ∀ c d, d < m.capacity →
      (m1.components.getD c []).getD d default = (m.components.getD c []).getD d default := by
    intro c d hd
    rw [hcomp]
    exact growIfNeeded_components eg c d hd
  refine ⟨m1, _, e, createHandle_spec hv e, by rw [hcap]; exact hle, hE, hC, fun j => ?_,
    fun T k hk => ?_⟩
  · rw [← hctr j]
    simp only [hd, hhd]
  · have hk1 : k < m1.sizeNext := by omega
    refine ⟨hasComponent_congr S hk hk1 (hE k hk) T, getComponent_eq_of S hk hk1 (hE k hk) T ?_⟩
    exact hC _ _ (hv.data_lt (by have := hv.nextLe; omega))

/-- The 101st creation on a new test manager grows the capacity to 220 and keeps record 99. -/
theorem create_keeps_old_witness :
    ∃ m1, createIndex testSettings testFull = some (100, m1) ∧ m1.capacity = 220 ∧
      m1.ent 99 = testFull.ent 99 := by
  obtain ⟨m1, _, e, _, _, h1, _⟩ := create_keeps_old testSettings testFull testFull_reachable
  obtain ⟨g, eg, hcap, _⟩ := createIndex_capacity e
  have hg := (growIfNeeded_capacity eg).2 (by rw [testFull_fields.1, testFull_fields.2]; decide)
  rw [testFull_fields.2] at e
  refine ⟨m1, e, ?_, h1 99 (by rw [testFull_fields.2]; decide)⟩
  rw [hcap, hg, testFull_fields.1]

/-- C29: in every reachable state `refresh()` succeeds and leaves every component vector and
`capacity` unchanged; the entity table afterwards is a rearrangement of the records before
(the record that carries a given `handleDataIndex` is the same record, with the same
`dataIndex`, bitset and alive flag), and an entity that was alive is found at an index below
the new `size` with its data slot and every component as before. -/
theorem refresh_keeps_payload [Inhabited Val] (S : Settings) (m : Manager Val)
    (h : Reachable S m) :
    ∃ m1, m.refresh = some m1 ∧ m1.components = m.components ∧ m1.capacity = m.capacity ∧
      m1.entities.Perm m.entities ∧
      (∀ i k, i < m.capacity → k < m.capacity →
        (m1.ent k).handleDataIndex = (m.ent i).handleDataIndex → m1.ent k = m.ent i) ∧
      (∀ i, i < m.sizeNext → (m.ent i).alive = true →
        ∃ k, k < m1.size ∧ m1.ent k = m.ent i ∧
          ∀ T, readComponent S m1 T (m1.ent k).dataIndex =
              readComponent S m T (m.ent i).dataIndex ∧
            hasComponent S m1 T k = hasComponent S m T i ∧
            getComponent S m1 T k = getComponent S m T i) := by
  have hv := h.inv
  obtain ⟨m1, e, r⟩ := refresh_spec hv.hinv hv.nextLe
  refine ⟨m1, e, r.compEq, r.capEq, r.perm, fun i k hi hk c => r.same_record hv hi hk c,
    fun i hi ha => ?_⟩
  obtain ⟨k, hk, ek⟩ := r.exists_after hv hi
  have hks : k < m1.size := by
    by_contra c
    have := r.deadR k (by omega) hk
    rw [ek, ha] at this
    cases this
  have hk1 : k < m1.sizeNext := by rw [← r.sizeEq]; exact hks
  refine ⟨k, hks, ek, fun T => ⟨?_, hasComponent_congr S hi hk1 ek T,
    getComponent_congr S hi hk1 ek r.compEq T⟩⟩
  simp only [readComponent, r.compEq, ek]

/-- Three entities, the last one with `C1 = 9`, the first one killed: after the refresh the
capacity is still 100 and the surviving entity still reads `C1 = 9`. -/
theorem refresh_keeps_payload_witness :
    ∃ m1, testPayload.refresh = some m1 ∧ m1.capacity = 100 ∧
      ∃ k, k < m1.size ∧ getComponent testSettings m1 1 k = some 9 := by
  obtain ⟨m1, e, _, hcap, _, _, h2⟩ :=
    refresh_keeps_payload testSettings testPayload testPayload_reachable
  obtain ⟨k, hk, _, h3⟩ := h2 2 (by decide) (by rfl)
  refine ⟨m1, e, by rw [hcap]; rfl, k, hk, ?_⟩
  rw [(h3 1).2.2]
  rfl

/-- C30: for every schema and signature, `SignatureComponents` is a subsequence of the
signature (its kinds in the order the signature declares them), it holds exactly the kinds of
the signature that are in the component list, and every subsequence of the signature made of
component kinds is a subsequence of it; likewise `SignatureTags` with the tag list. -/
theorem signature_parts_filter (S : Settings) (T : List Kind) :
    ((S.signatureComponents T).Sublist T ∧
      (∀ K, K ∈ S.signatureComponents T ↔ K ∈ T ∧ K ∈ S.componentList) ∧
      ∀ L : List Kind, L.Sublist T → (∀ K ∈ L, K ∈ S.componentList) →
        L.Sublist (S.signatureComponents T)) ∧
    ((S.signatureTags T).Sublist T ∧
      (∀ K, K ∈ S.signatureTags T ↔ K ∈ T ∧ K ∈ S.tagList) ∧
      ∀ L : List Kind, L.Sublist T → (∀ K ∈ L, K ∈ S.tagList) →
        L.Sublist (S.signatureTags T)) := by
  refine ⟨⟨List.filter_sublist _, fun K => ?_, fun L hL hK => ?_⟩,
    ⟨List.filter_sublist _, fun K => ?_, fun L hL hK => ?_⟩⟩
  · simp [Settings.signatureComponents, Settings.isComponent]
  · have e : L.filter S.isComponent = L :=
      List.filter_eq_self.mpr (fun K hm => by simpa [Settings.isComponent] using hK K hm)
    rw [← e]
    exact hL.filter _
  · simp [Settings.signatureTags, Settings.isTag]
  · have e : L.filter S.isTag = L :=
      List.filter_eq_self.mpr (fun K hm => by simpa [Settings.isTag] using hK K hm)
    rw [← e]
    exact hL.filter _

/-- For `S3 = <C1, T0, C3, T2>` the components are `<C1, C3>` and the tags `<T0, T2>`; for the
empty signature both lists are empty. -/
theorem signature_parts_filter_witness :
    testSettings.signatureComponents [1, 5, 3, 7] = [1, 3] ∧
      testSettings.signatureTags [1, 5, 3, 7] = [5, 7] ∧
      testSettings.signatureComponents [] = [] ∧ testSettings.signatureTags [] = [] ∧
      [1, 3].Sublist (testSettings.signatureComponents [1, 5, 3, 7]) :=
  ⟨by decide, by decide, by decide, by decide,
    (signature_parts_filter testSettings [1, 5, 3, 7]).1.2.2 [1, 3] (by decide) (by decide)⟩

end ecs

namespace ecs

/-! ## The trace of `refreshImpl` -/

theorem outers_append (l1 l2 : List Event) : outers (l1 ++ l2) = outers l1 ++ outers l2 := by
  induction l1 with
  | nil => rfl
  | cons a l ih => cases a <;> simp [outers, ih]

theorem chain_inward_weaken {l : List (Nat × Nat)} {a b c d : Nat}
    (h : List.Chain (fun p q : Nat × Nat => p.1 < q.1 ∧ q.2 < p.2) (a, b) l) (h1 : c ≤ a)
    (h2 : b ≤ d) : List.Chain (fun p q : Nat × Nat => p.1 < q.1 ∧ q.2 < p.2) (c, d) l := by
  cases l with
  | nil => exact List.Chain.nil
  | cons x l =>
    rw [List.chain_cons] at h ⊢
    obtain ⟨⟨h3, h4⟩, h5⟩ := h
    exact ⟨⟨Nat.lt_of_le_of_lt h1 h3, Nat.lt_of_lt_of_le h4 h2⟩, h5⟩

/-- A chain of index pairs that move inwards is a chain of strictly decreasing distances. -/
theorem chain_inward_distance {l : List (Nat × Nat)} {a : Nat × Nat}
    (h : List.Chain (fun p q : Nat × Nat => p.1 < q.1 ∧ q.2 < p.2) a l) :
    List.Chain (fun p q : Nat × Nat => (q.2 : Int) - q.1 < (p.2 : Int) - p.1) a l := by
  refine List.Chain.imp ?_ h
  intro p q hpq
  have h1 := hpq.1
  have h2 := hpq.2
  omega

namespace Manager

variable {Val : Type}

theorem mem_handleAccess_entity (m : Manager Val) (x i : Nat) :
    Event.entity i ∈ handleAccess m x ↔ i = x := by
  simp [handleAccess]

theorem mem_handleAccess_handle (m : Manager Val) (x j : Nat) :
    Event.handle j ∈ handleAccess m x ↔ j = (m.ent x).handleDataIndex := by
  simp [handleAccess]

theorem outers_handleAccess (m : Manager Val) (x : Nat) : outers (handleAccess m x) = [] := rfl

/-- The traced run of `refreshImpl` returns from every state of the loops, with the result of
the plain run; the returned index is between `iD` and `iA + 1`, the subscripts used on
`entities` are at most `iA`, and the outer-loop iterations start with indices that moved
inwards. -/
theorem refreshLoopTraced_spec :
    ∀ (fuel : Nat) (ph : Phase) (m : Manager Val) (iD iA : Nat) (log : List Event),
      iD ≤ iA + 1 →
      (ph = Phase.scanAlive → iD ≤ iA ∧ (m.ent iD).alive = false) →
      budget ph iD iA ≤ fuel →
      ∃ r m1 ev, refreshLoopTraced fuel ph m iD iA log = some (r, m1, log ++ ev) ∧
        refreshLoop fuel ph m iD iA = some (r, m1) ∧ iD ≤ r ∧ r ≤ iA + 1 ∧
        (∀ i, Event.entity i ∈ ev → i ≤ iA) ∧
        List.Chain (fun p q : Nat × Nat => p.1 < q.1 ∧ q.2 < p.2) (iD, iA) (outers ev) := by
  intro fuel
  induction fuel with
  | zero =>
    intro ph m iD iA log _ hph hb
    cases ph with
    | scanDead => simp [budget] at hb
    | scanAlive =>
      have := (hph rfl).1
      simp only [budget] at hb
      omega
  | succ fuel ih =>
    intro ph m iD iA log hle hph hb
    cases ph with
    | scanDead =>
      simp only [budget] at hb
      by_cases h1 : iD > iA
      · exact ⟨iD, m, [], by simp [refreshLoopTraced, h1], by simp [refreshLoop, h1],
          Nat.le_refl _, hle, by simp, List.Chain.nil⟩
      · by_cases h2 : (m.ent iD).alive = true
        · obtain ⟨r, m1, ev, e1, e2, r1, r2, hE, hC⟩ := ih Phase.scanDead m (iD + 1) iA
            (log ++ [Event.entity iD]) (by omega) (by simp) (by simp only [budget]; omega)
          refine ⟨r, m1, Event.entity iD :: ev, ?_, by simp [refreshLoop, h1, h2, e2],
            by omega, r2, ?_, ?_⟩
          · simp only [refreshLoopTraced, h1, if_false, h2, Bool.not_true]
            rw [e1]; simp
          · intro i hi
            rcases List.mem_cons.mp hi with c | c
            · cases c; omega
            · exact hE i c
          · exact chain_inward_weaken hC (by omega) (Nat.le_refl _)
        · have h2f : (m.ent iD).alive = false := by simpa using h2
          obtain ⟨r, m1, ev, e1, e2, r1, r2, hE, hC⟩ := ih Phase.scanAlive m iD iA
            (log ++ [Event.entity iD]) hle (fun _ => ⟨by omega, h2f⟩)
            (by simp only [budget]; omega)
          refine ⟨r, m1, Event.entity iD :: ev, ?_, by simp [refreshLoop, h1, h2f, e2],
            r1, r2, ?_, hC⟩
          · simp only [refreshLoopTraced, h1, if_false, h2f, Bool.not_false, if_true]
            rw [e1]; simp
          · intro i hi
            rcases List.mem_cons.mp hi with c | c
            · cases c; omega
            · exact hE i c
    | scanAlive =>
      obtain ⟨hle2, hdead⟩ := hph rfl
      simp only [budget] at hb
      by_cases h1 : (m.ent iA).alive = true
      · have hlt : iD < iA := by
          rcases Nat.lt_or_ge iD iA with h | h
          · exact h
          · have e : iD = iA := by omega
            rw [e, h1] at hdead
            exact absurd hdead (by simp)
        have hne : iA ≠ 0 := by omega
        obtain ⟨r, m1, ev, e1, e2, r1, r2, hE, hC⟩ := ih Phase.scanDead
          ((((m.swapEnt iA iD).refreshHandle iD).invalidateHandle iA).refreshHandle iA)
          (iD + 1) (iA - 1)
          (log ++ [Event.entity iA, Event.entity iA, Event.entity iD, Event.entity iA,
              Event.entity iD] ++ handleAccess (m.swapEnt iA iD) iD ++
            handleAccess ((m.swapEnt iA iD).refreshHandle iD) iA ++
            handleAccess (((m.swapEnt iA iD).refreshHandle iD).invalidateHandle iA) iA ++
            [Event.outer (iD + 1) (iA - 1)])
          (by omega) (by simp) (by simp only [budget]; omega)
        refine ⟨r, m1,
          [Event.entity iA, Event.entity iA, Event.entity iD, Event.entity iA,
              Event.entity iD] ++ handleAccess (m.swapEnt iA iD) iD ++
            handleAccess ((m.swapEnt iA iD).refreshHandle iD) iA ++
            handleAccess (((m.swapEnt iA iD).refreshHandle iD).invalidateHandle iA) iA ++
            [Event.outer (iD + 1) (iA - 1)] ++ ev, ?_, ?_, by omega, by omega, ?_, ?_⟩
        · simp only [refreshLoopTraced, h1, hdead, if_true, Bool.not_false, Bool.and_self,
            hne, if_false]
          rw [e1]; simp only [List.append_assoc]
        · simp only [refreshLoop, h1, if_true, hne, if_false]
          exact e2
        · intro i hi
          simp only [List.mem_append, List.mem_cons, List.mem_singleton, Event.entity.injEq,
            mem_handleAccess_entity, List.not_mem_nil, or_false, reduceCtorEq] at hi
          rcases hi with ((((c | c | c | c | c) | c) | c) | c) | c
          all_goals first
            | omega
            | (have h3 := hE i c; omega)
        · simp only [outers_append, outers_handleAccess, outers, List.nil_append,
            List.append_nil, List.singleton_append]
          exact List.Chain.cons ⟨by simp, by show iA - 1 < iA; omega⟩ hC
      · have h1f : (m.ent iA).alive = false := by simpa using h1
        by_cases h3 : iA ≤ iD
        · refine ⟨iD, m.invalidateHandle iA, [Event.entity iA] ++ handleAccess m iA, ?_,
            by simp [refreshLoop, h1f, h3], Nat.le_refl _, by omega, ?_, List.Chain.nil⟩
          · simp only [refreshLoopTraced, h1f, Bool.false_eq_true, if_false, h3, if_true,
              List.append_assoc]
          · intro i hi
            simp only [List.mem_append, List.mem_singleton, Event.entity.injEq,
              mem_handleAccess_entity] at hi
            omega
        · have hdead2 : ((m.invalidateHandle iA).ent iD).alive = false := by
            simpa using hdead
          obtain ⟨r, m1, ev, e1, e2, r1, r2, hE, hC⟩ := ih Phase.scanAlive
            (m.invalidateHandle iA) iD (iA - 1) (log ++ [Event.entity iA] ++ handleAccess m iA)
            (by omega) (fun _ => ⟨by omega, hdead2⟩) (by simp only [budget]; omega)
          refine ⟨r, m1, [Event.entity iA] ++ handleAccess m iA ++ ev, ?_,
            by simp [refreshLoop, h1f, h3, e2], r1, by omega, ?_, ?_⟩
          · simp only [refreshLoopTraced, h1f, Bool.false_eq_true, if_false, h3]
            rw [e1]; simp only [List.append_assoc]
          · intro i hi
            simp only [List.mem_append, List.mem_singleton, Event.entity.injEq,
              mem_handleAccess_entity] at hi
            rcases hi with (c | c) | c
            · omega
            · omega
            · have h4 := hE i c; omega
          · simp only [outers_append, outers_handleAccess, outers, List.nil_append]
            exact chain_inward_weaken hC (Nat.le_refl _) (by omega)

end Manager
end ecs

namespace ecs
namespace Manager

variable {Val : Type}

/-- The subscripts used on `handleData` by a run of `refreshImpl` from a state of its loops are
below `capacity`. -/
theorem refreshLoopTraced_handles (m0 : Manager Val) :
    ∀ (fuel : Nat) (ph : Phase) (m : Manager Val) (iD iA : Nat) (log : List Event) (r : Nat)
      (m1 : Manager Val) (log1 : List Event),
      Part m0 m iD (iA + 1) →
      (ph = Phase.scanAlive → iD ≤ iA ∧ (m.ent iD).alive = false) →
      refreshLoopTraced fuel ph m iD iA log = some (r, m1, log1) →
      (∀ j, Event.handle j ∈ log → j < m0.capacity) →
      ∀ j, Event.handle j ∈ log1 → j < m0.capacity := by
  intro fuel
  induction fuel with
  | zero =>
    intro ph m iD iA log r m1 log1 _ _ e
    simp [refreshLoopTraced] at e
  | succ fuel ih =>
    intro ph m iD iA log r m1 log1 p hph e hlog
    have hcap := p.capEq
    have hnl := p.nextLe
    have hhi := p.hiLe
    have hA : iA < m.capacity := by omega
    cases ph with
    | scanDead =>
      by_cases h1 : iD > iA
      · simp only [refreshLoopTraced, h1, if_true, Option.some.injEq, Prod.mk.injEq] at e
        rw [← e.2.2]; exact hlog
      · have hlog2 : ∀ j, Event.handle j ∈ log ++ [Event.entity iD] → j < m0.capacity := by
          intro j hj
          simp only [List.mem_append, List.mem_singleton, reduceCtorEq, or_false] at hj
          exact hlog j hj
        by_cases h2 : (m.ent iD).alive = true
        · simp only [refreshLoopTraced, h1, if_false, h2, Bool.not_true] at e
          exact ih Phase.scanDead m (iD + 1) iA _ r m1 log1 (p.aliveStep (by omega) h2)
            (by simp) e hlog2
        · have h2f : (m.ent iD).alive = false := by simpa using h2
          simp only [refreshLoopTraced, h1, if_false, h2f, Bool.not_false, if_true] at e
          exact ih Phase.scanAlive m iD iA _ r m1 log1 p (fun _ => ⟨by omega, h2f⟩) e hlog2
    | scanAlive =>
      obtain ⟨hle2, hdead⟩ := hph rfl
      have hD : iD < m.capacity := by omega
      have hlA : iA < m.entities.length := by rw [p.hinv.entLen]; exact hA
      have hlD : iD < m.entities.length := by rw [p.hinv.entLen]; exact hD
      by_cases h1 : (m.ent iA).alive = true
      · have hlt : iD < iA := by
          rcases Nat.lt_or_ge iD iA with h | h
          · exact h
          · have e2 : iD = iA := by omega
            rw [e2, h1] at hdead
            exact absurd hdead (by simp)
        have hne : iA ≠ 0 := by omega
        have p2 : Part m0 (m.swapStep iD iA) (iD + 1) (iA - 1 + 1) := by
          have e2 : iA - 1 + 1 = iA := by omega
          rw [e2]
          exact p.swapped hlt h1 hdead
        simp only [refreshLoopTraced, h1, hdead, if_true, Bool.not_false, Bool.and_self,
          hne, if_false] at e
        refine ih Phase.scanDead _ (iD + 1) (iA - 1) _ r m1 log1 p2 (by simp) e ?_
        intro j hj
        simp only [List.mem_append, List.mem_cons, List.mem_singleton, mem_handleAccess_handle,
          List.not_mem_nil, or_false, reduceCtorEq, false_or, refreshHandle_ent,
          invalidateHandle_ent] at hj
        have s1 : (m.swapEnt iA iD).ent iD = m.ent iA := by
          rw [swapEnt_ent m iA iD iD hlA hlD, if_pos rfl]
        have s2 : (m.swapEnt iA iD).ent iA = m.ent iD := by
          rw [swapEnt_ent m iA iD iA hlA hlD, if_neg (by omega), if_pos rfl]
        rw [s1, s2] at hj
        rcases hj with ((c | c) | c) | c
        · exact hlog j c
        · rw [c, ← hcap]; exact p.hinv.hdiLt iA hA
        · rw [c, ← hcap]; exact p.hinv.hdiLt iD hD
        · rw [c, ← hcap]; exact p.hinv.hdiLt iD hD
      · have h1f : (m.ent iA).alive = false := by simpa using h1
        have hlog2 : ∀ j, Event.handle j ∈ log ++ [Event.entity iA] ++ handleAccess m iA →
            j < m0.capacity := by
          intro j hj
          simp only [List.mem_append, List.mem_singleton, mem_handleAccess_handle,
            reduceCtorEq, or_false] at hj
          rcases hj with c | c
          · exact hlog j c
          · rw [c, ← hcap]; exact p.hinv.hdiLt iA hA
        have p2 := p.invalidated hle2 h1f
        by_cases h3 : iA ≤ iD
        · simp only [refreshLoopTraced, h1f, Bool.false_eq_true, if_false, h3, if_true,
            Option.some.injEq, Prod.mk.injEq] at e
          rw [← e.2.2]; exact hlog2
        · simp only [refreshLoopTraced, h1f, Bool.false_eq_true, if_false, h3] at e
          have e2 : iA - 1 + 1 = iA := by omega
          have hdead2 : ((m.invalidateHandle iA).ent iD).alive = false := by
            simpa using hdead
          exact ih Phase.scanAlive (m.invalidateHandle iA) iD (iA - 1) _ r m1 log1
            (by rw [e2]; exact p2) (fun _ => ⟨by omega, hdead2⟩) e hlog2

/-- The traced run of `refreshImpl` from a state with `sizeNext > 0`. -/
theorem refreshImplTraced_spec (m : Manager Val) (hpos : 0 < m.sizeNext) :
    ∃ r m1 ev, refreshImplTraced m = some (r, m1, Event.outer 0 (m.sizeNext - 1) :: ev) ∧
      m.refreshImpl = some (r, m1) ∧ r ≤ m.sizeNext ∧
      (∀ i, Event.entity i ∈ ev → i < m.sizeNext) ∧
      List.Chain (fun p q : Nat × Nat => p.1 < q.1 ∧ q.2 < p.2) (0, m.sizeNext - 1)
        (outers ev) := by
  obtain ⟨r, m1, ev, e1, e2, _, r2, hE, hC⟩ := refreshLoopTraced_spec (2 * m.sizeNext + 1)
    Phase.scanDead m 0 (m.sizeNext - 1) [Event.outer 0 (m.sizeNext - 1)] (by omega) (by simp)
    (by simp only [budget]; omega)
  exact ⟨r, m1, ev, e1, e2, by omega, fun i hi => by have := hE i hi; omega, hC⟩

theorem testOrphan_reachable : Reachable testSettings testOrphan :=
  Reachable.ofRun testOrphanOps testNew _ (by rfl) (by rfl)

end Manager

open Manager

variable {Val : Type}

/-- C34, what the code does instead: the subscripts that `refreshImpl` uses on `handleData`
are `handleDataIndex` values, which are below `capacity` but not always below `sizeNext`.  After
two creations, `kill(0)`, `refresh()` and `kill(0)` the only record below `sizeNext = 1` refers
to handle slot 1, and the second inner loop invalidates that slot. -/
theorem refresh_handle_subscript_not_below_sizeNext :
    ¬ (∀ m : Manager Int, Reachable testSettings m → 0 < m.sizeNext →
        ∀ r m1 log, refreshImplTraced m = some (r, m1, log) →
          ∀ j, Event.handle j ∈ log → j < m.sizeNext) := by
  intro H
  obtain ⟨r, m1, ev, e, _⟩ := refreshImplTraced_spec testOrphan (by decide)
  have hlog : (refreshImplTraced testOrphan).map (fun p => p.2.2) =
      some [Event.outer 0 0, Event.entity 0, Event.entity 0, Event.entity 0,
        Event.handle 1] := by rfl
  rw [e] at hlog
  have hlog2 : Event.outer 0 (testOrphan.sizeNext - 1) :: ev =
      [Event.outer 0 0, Event.entity 0, Event.entity 0, Event.entity 0, Event.handle 1] :=
    Option.some.inj hlog
  have hmem : Event.handle 1 ∈ Event.outer 0 (testOrphan.sizeNext - 1) :: ev := by
    rw [hlog2]
    decide
  have h := H testOrphan testOrphan_reachable (by decide) r m1 _ e 1 hmem
  exact absurd h (by decide)

/-- C34, amended: in every reachable state `refresh()` is safe.  With `sizeNext = 0` it only
sets `size` to 0.  With `sizeNext > 0` the run of `refreshImpl` returns with both assertions
before each swap true and without decrementing `iA` at 0; every subscript used on `entities`
is below `sizeNext <= capacity`, the length of the entity table; and every subscript used on
`handleData` is below `capacity`, the length of the handle table. -/
theorem refresh_safe [Inhabited Val] (S : Settings) (m : Manager Val) (h : Reachable S m) :
    (m.sizeNext = 0 → m.refresh = some { m with size := 0 }) ∧
    (0 < m.sizeNext →
      ∃ r m1 log, refreshImplTraced m = some (r, m1, log) ∧ m.refreshImpl = some (r, m1) ∧
        m.refresh = some { m1 with size := r, sizeNext := r } ∧
        m.sizeNext ≤ m.capacity ∧ m.entities.length = m.capacity ∧
        m.handleData.length = m.capacity ∧
        (∀ i, Event.entity i ∈ log → i < m.sizeNext) ∧
        (∀ j, Event.handle j ∈ log → j < m.capacity)) := by
  have hv := h.inv
  refine ⟨fun c => by simp [refresh, c], fun hpos => ?_⟩
  obtain ⟨r, m1, ev, e1, e2, _, hE, _⟩ := refreshImplTraced_spec m hpos
  refine ⟨r, m1, _, e1, e2, ?_, hv.nextLe, hv.hinv.entLen, hv.hinv.hdLen, ?_, ?_⟩
  · simp only [refresh, if_neg (by omega : ¬ m.sizeNext = 0), e2]
  · intro i hi
    simp only [List.mem_cons, reduceCtorEq, false_or] at hi
    exact hE i hi
  · have p : Part m m 0 (m.sizeNext - 1 + 1) := by
      have e : m.sizeNext - 1 + 1 = m.sizeNext := by omega
      rw [e]
      exact Part.init hv.hinv hv.nextLe
    exact refreshLoopTraced_handles m (2 * m.sizeNext + 1) Phase.scanDead m 0 (m.sizeNext - 1)
      [Event.outer 0 (m.sizeNext - 1)] r m1 _ p (by simp) e1 (by simp)

/-- Five entities with the ones at indices 1 and 3 killed: the run of `refreshImpl` returns 3
and uses no subscript on `entities` above 4. -/
theorem refresh_safe_witness :
    ∃ r m1 log, refreshImplTraced testFive = some (r, m1, log) ∧
      testFive.refreshImpl = some (r, m1) ∧ ∀ i, Event.entity i ∈ log → i < 5 := by
  obtain ⟨r, m1, log, e1, e2, _, _, _, _, h1, _⟩ :=
    (refresh_safe testSettings testFive
      (Reachable.ofRun testFiveOps testNew _ (by rfl) (by rfl))).2 (by decide)
  exact ⟨r, m1, log, e1, e2, h1⟩

/-- C35: for every state with `sizeNext > 0`, `refreshImpl()` returns: the nested loops reach a
`return` within `2 * sizeNext + 1` loop iterations, the returned value is at most `sizeNext`,
and over the iterations of the outer loop the distance `iA - iD` at the start of the iteration
is strictly decreasing, `iD` growing and `iA` falling. -/
theorem refreshImpl_terminates (m : Manager Val) (hpos : 0 < m.sizeNext) :
    ∃ r m1 log, m.refreshImpl = some (r, m1) ∧ r ≤ m.sizeNext ∧
      refreshImplTraced m = some (r, m1, log) ∧
      List.Chain' (fun p q : Nat × Nat => p.1 < q.1 ∧ q.2 < p.2) (outers log) ∧
      List.Chain' (fun p q : Nat × Nat => (q.2 : Int) - q.1 < (p.2 : Int) - p.1)
        (outers log) := by
  obtain ⟨r, m1, ev, e1, e2, r2, _, hC⟩ := refreshImplTraced_spec m hpos
  exact ⟨r, m1, _, e2, r2, e1, hC, chain_inward_distance hC⟩

/-- Five entities with the ones at indices 1 and 3 killed: `refreshImpl` returns 3, and its
outer loop starts two iterations, with `(iD, iA) = (0, 4)` and `(2, 3)`. -/
theorem refreshImpl_terminates_witness :
    (∃ r m1 log, testFive.refreshImpl = some (r, m1) ∧ r ≤ 5 ∧
      refreshImplTraced testFive = some (r, m1, log)) ∧
    (refreshImplTraced testFive).map (fun p => (p.1, outers p.2.2)) =
      some (3, [(0, 4), (2, 3)]) := by
  obtain ⟨r, m1, log, e1, e2, e3, _⟩ := refreshImpl_terminates testFive (by decide)
  exact ⟨⟨r, m1, log, e1, e2, e3⟩, by rfl⟩

end ecs

namespace ecs
namespace Manager

variable {Val : Type}

/-! ## Which records `refresh` moves -/

theorem Kept.start (m : Manager Val) : Kept m m 0 m.sizeNext where
  len := rfl
  mid := fun _ _ _ => rfl
  left := fun _ hi _ => absurd hi (Nat.not_lt_zero _)
  right := fun _ h1 h2 _ => absurd h2 (Nat.not_lt.mpr h1)

/-- The run of `refreshImpl` from a state of its loops keeps the alive records on the left in
place and moves the alive records on the right to the left. -/
theorem refreshLoop_kept (m0 : Manager Val) :
    ∀ (fuel : Nat) (ph : Phase) (m : Manager Val) (iD iA r : Nat) (m1 : Manager Val),
      Kept m0 m iD (iA + 1) → iD ≤ iA + 1 → iA < m.entities.length →
      (ph = Phase.scanAlive → iD ≤ iA ∧ (m.ent iD).alive = false) →
      refreshLoop fuel ph m iD iA = some (r, m1) → Kept m0 m1 r r := by
  intro fuel
  induction fuel with
  | zero =>
    intro ph m iD iA r m1 _ _ _ _ e
    simp [refreshLoop] at e
  | succ fuel ih =>
    intro ph m iD iA r m1 k hle hlA hph e
    cases ph with
    | scanDead =>
      by_cases h1 : iD > iA
      · simp only [refreshLoop, h1, if_true, Option.some.injEq, Prod.mk.injEq] at e
        obtain ⟨rfl, rfl⟩ := e
        have e2 : iA + 1 = iD := by omega
        rw [e2] at k
        exact k
      · by_cases h2 : (m.ent iD).alive = true
        · simp only [refreshLoop, h1, if_false, h2, Bool.not_true] at e
          refine ih Phase.scanDead m (iD + 1) iA r m1 ?_ (by omega) hlA (by simp) e
          exact
            { len := k.len
              mid := fun i c1 c2 => k.mid i (by omega) c2
              left := by
                intro i c1 c2
                by_cases c3 : i = iD
                · rw [c3]; exact k.mid iD (Nat.le_refl _) (by omega)
                · exact k.left i (by omega) c2
              right := by
                intro i c1 c2 c3
                obtain ⟨x, x1, x2⟩ := k.right i c1 c2 c3
                exact ⟨x, by omega, x2⟩ }
        · have h2f : (m.ent iD).alive = false := by simpa using h2
          simp only [refreshLoop, h1, if_false, h2f, Bool.not_false, if_true] at e
          exact ih Phase.scanAlive m iD iA r m1 k hle hlA (fun _ => ⟨by omega, h2f⟩) e
    | scanAlive =>
      obtain ⟨hle2, hdead⟩ := hph rfl
      have hlD : iD < m.entities.length := by omega
      have hmD : m.ent iD = m0.ent iD := k.mid iD (Nat.le_refl _) (by omega)
      have hmA : m.ent iA = m0.ent iA := k.mid iA hle2 (by omega)
      by_cases h1 : (m.ent iA).alive = true
      · have hlt : iD < iA := by
          rcases Nat.lt_or_ge iD iA with h | h
          · exact h
          · have e2 : iD = iA := by omega
            rw [e2, h1] at hdead
            exact absurd hdead (by simp)
        have hne : iA ≠ 0 := by omega
        simp only [refreshLoop, h1, if_true, hne, if_false] at e
        have e4 : ∀ i, ((((m.swapEnt iA iD).refreshHandle iD).invalidateHandle iA).refreshHandle
            iA).ent i = if i = iD then m.ent iA else if i = iA then m.ent iD else m.ent i :=
          fun i => swapEnt_ent m iA iD i hlA hlD
        have e5 : iA - 1 + 1 = iA := by omega
        refine ih Phase.scanDead _ (iD + 1) (iA - 1) r m1 ?_ (by omega) (by simp; omega)
          (by simp) e
        rw [e5]
        exact
          { len := by simp [k.len]
            mid := by
              intro i c1 c2
              rw [e4, if_neg (by omega), if_neg (by omega)]
              exact k.mid i (by omega) (by omega)
            left := by
              intro i c1 c2
              by_cases c3 : i = iD
              · rw [c3, ← hmD, hdead] at c2
                cases c2
              · rw [e4, if_neg c3, if_neg (by omega)]
                exact k.left i (by omega) c2
            right := by
              intro i c1 c2 c3
              by_cases c4 : i = iA
              · refine ⟨iD, by omega, ?_⟩
                rw [e4, if_pos rfl, c4, hmA]
              · obtain ⟨x, x1, x2⟩ := k.right i (by omega) c2 c3
                refine ⟨x, by omega, ?_⟩
                rw [e4, if_neg (by omega), if_neg (by omega)]
                exact x2 }
      · have h1f : (m.ent iA).alive = false := by simpa using h1
        have k2 : Kept m0 (m.invalidateHandle iA) iD iA :=
          { len := k.len
            mid := fun i c1 c2 => k.mid i c1 (by omega)
            left := k.left
            right := by
              intro i c1 c2 c3
              by_cases c4 : i = iA
              · rw [c4, ← hmA, h1f] at c3
                cases c3
              · exact k.right i (by omega) c2 c3 }
        by_cases h3 : iA ≤ iD
        · simp only [refreshLoop, h1f, Bool.false_eq_true, if_false, h3, if_true,
            Option.some.injEq, Prod.mk.injEq] at e
          obtain ⟨rfl, rfl⟩ := e
          have e2 : iA = iD := by omega
          rw [e2] at k2
          rw [e2]
          exact k2
        · simp only [refreshLoop, h1f, Bool.false_eq_true, if_false, h3] at e
          have e5 : iA - 1 + 1 = iA := by omega
          have hdead2 : ((m.invalidateHandle iA).ent iD).alive = false := by
            simpa using hdead
          exact ih Phase.scanAlive (m.invalidateHandle iA) iD (iA - 1) r m1
            (by rw [e5]; exact k2) (by omega) (by simp; omega)
            (fun _ => ⟨by omega, hdead2⟩) e

/-- When no record below `sizeNext` is dead, `refresh` only sets `size`. -/
theorem refresh_all_alive (m : Manager Val)
    (ha : ∀ i, i < m.sizeNext → (m.ent i).alive = true) :
    m.refresh = some { m with size := m.sizeNext } := by
  by_cases c : m.sizeNext = 0
  · simp only [refresh, if_pos c]
    rw [c]
  · have e := refreshLoop_all_alive m (2 * m.sizeNext + 1) 0 (m.sizeNext - 1)
      (fun i _ hi => ha i (by omega)) (by omega) (by omega)
    have e2 : m.sizeNext - 1 + 1 = m.sizeNext := by omega
    rw [e2] at e
    simp only [refresh, if_neg c, refreshImpl, e]

theorem testTags_reachable : Reachable testSettings testTags :=
  Reachable.ofRun testTagsOps testNew _ (by rfl) (by rfl)

end Manager

open Manager

variable {Val : Type}

/-- C31: `refresh()` does not keep the relative order of the alive entities.  In the reachable
state with five entities of which the ones at indices 1 and 3 were killed, the entities at
indices 2 and 4 are alive, and after the refresh the first one is at index 2 and the second one
at index 1; the data slots of the three survivors are then in the order 0, 4, 2. -/
theorem refresh_reorders :
    Reachable testSettings testFive ∧
    ∃ (m1 : Manager Int) (a b a2 b2 : Nat),
      testFive.refresh = some m1 ∧ a < b ∧ b < testFive.sizeNext ∧
      (testFive.ent a).alive = true ∧ (testFive.ent b).alive = true ∧
      m1.ent a2 = testFive.ent a ∧ m1.ent b2 = testFive.ent b ∧ b2 < a2 ∧ a2 < m1.size ∧
      (testFive.ent a).dataIndex ≠ (testFive.ent b).dataIndex ∧
      (m1.entities.take m1.size).map Entity.dataIndex = [0, 4, 2] := by
  have e : testFive.refresh = some testFiveRefreshed := by rfl
  have h1 : testFive.sizeNext = 5 := by rfl
  have h2 : (testFive.ent 2).alive = true := by rfl
  have h3 : (testFive.ent 4).alive = true := by rfl
  have h4 : testFiveRefreshed.ent 2 = testFive.ent 2 := by decide
  have h5 : testFiveRefreshed.ent 1 = testFive.ent 4 := by decide
  have h6 : testFiveRefreshed.size = 3 := by rfl
  have h7 : (testFive.ent 2).dataIndex ≠ (testFive.ent 4).dataIndex := by decide
  have h8 : (testFiveRefreshed.entities.take testFiveRefreshed.size).map Entity.dataIndex =
      [0, 4, 2] := by rfl
  exact ⟨Reachable.ofRun testFiveOps testNew _ (by rfl) (by rfl), testFiveRefreshed, 2, 4, 2, 1,
    e, by decide, by rw [h1]; decide, h2, h3, h4, h5, by decide, by rw [h6]; decide, h7, h8⟩

/-- C32: in every reachable state `refresh()` succeeds; an alive record at an index below the
new `size` stays at its index, every alive record below `sizeNext` is afterwards at an index
that is not higher and below the new `size`, and when no record below `sizeNext` is dead the
call changes nothing but `size`, which becomes `sizeNext`. -/
theorem refresh_moves_left [Inhabited Val] (S : Settings) (m : Manager Val)
    (h : Reachable S m) :
    ∃ m1, m.refresh = some m1 ∧
      (∀ i, i < m1.size → (m.ent i).alive = true → m1.ent i = m.ent i) ∧
      (∀ i, i < m.sizeNext → (m.ent i).alive = true →
        ∃ k, k ≤ i ∧ k < m1.size ∧ m1.ent k = m.ent i) ∧
      ((∀ i, i < m.sizeNext → (m.ent i).alive = true) →
        m1 = { m with size := m.sizeNext }) := by
  have hv := h.inv
  by_cases c : m.sizeNext = 0
  · refine ⟨{ m with size := 0 }, by simp [refresh, c],
      fun i hi => absurd hi (Nat.not_lt_zero _), fun i hi => by omega, fun _ => by rw [c]⟩
  · obtain ⟨r, m2, e, p⟩ := refreshImpl_spec hv.hinv hv.nextLe (by omega)
    have k0 : Kept m m 0 (m.sizeNext - 1 + 1) := by
      have e2 : m.sizeNext - 1 + 1 = m.sizeNext := by omega
      rw [e2]; exact Kept.start m
    have k := refreshLoop_kept m (2 * m.sizeNext + 1) Phase.scanDead m 0 (m.sizeNext - 1) r m2
      k0 (by omega) (by rw [hv.hinv.entLen]; have := hv.nextLe; omega) (by simp) e
    have hr : m.refresh = some { m2 with size := r, sizeNext := r } := by
      simp only [refresh, if_neg c, e]
    refine ⟨_, hr, fun i hi ha => k.left i hi ha, fun i hi ha => ?_, fun ha => ?_⟩
    · by_cases c2 : i < r
      · exact ⟨i, Nat.le_refl _, c2, k.left i c2 ha⟩
      · obtain ⟨x, x1, x2⟩ := k.right i (by omega) hi ha
        exact ⟨x, by omega, x1, x2⟩
    · have e3 := refresh_all_alive m ha
      rw [hr] at e3
      exact Option.some.inj e3

/-- The test of p4.cpp: two fresh entities, `T1` on the second one, keep their indices and
tags across `refresh()`. -/
theorem refresh_moves_left_witness :
    ∃ m1, testTags.refresh = some m1 ∧ m1.ent 0 = testTags.ent 0 ∧
      m1.ent 1 = testTags.ent 1 ∧ m1.size = 2 ∧
      hasTag testSettings m1 5 0 = some false ∧ hasTag testSettings m1 6 1 = some true := by
  obtain ⟨m1, e, _, _, h3⟩ := refresh_moves_left testSettings testTags testTags_reachable
  have e1 := h3 (by decide)
  refine ⟨m1, e, ?_, ?_, ?_, ?_, ?_⟩
  all_goals rw [e1]; rfl

end ecs

namespace ecs
namespace Manager

variable {Val : Type}

/-! ## Counters and handles over runs -/

end Manager

open Manager

variable {Val : Type}

/-- C33: in every reachable state `size <= sizeNext <= capacity` and every record at an index
in `[sizeNext, capacity)` is dead; so in `createIndex()` the assertion `!isAlive(freeIndex)`
holds after `growIfNeeded()` and `sizeNext++`, and in `createHandle()` the assertions
`isAlive(freeIndex)` and `isHandleValid(h)` hold: both calls return. -/
theorem create_asserts_hold [Inhabited Val] (S : Settings) (m : Manager Val)
    (h : Reachable S m) :
    m.size ≤ m.sizeNext ∧ m.sizeNext ≤ m.capacity ∧
    (∀ i, m.sizeNext ≤ i → i < m.capacity → (m.ent i).alive = false) ∧
    ∃ g i x m1, growIfNeeded S m = some g ∧
      ({ g with sizeNext := g.sizeNext + 1 } : Manager Val).isAlive g.sizeNext = some false ∧
      createIndex S m = some (i, m1) ∧ m1.isAlive i = some true ∧
      createHandle S m = some (x, m1) ∧ m1.isHandleValid x = some true := by
  have hv := h.inv
  obtain ⟨m1, e, hv1, hnx, _, hlt, hal, _⟩ := createIndex_fields hv
  obtain ⟨g, eg, hg, _, hgn, hglt, _⟩ := growIfNeeded_spec hv
  refine ⟨hv.sizeLe, hv.nextLe, hv.deadTail, g, m.sizeNext, _, m1, eg, ?_, e, ?_,
    createHandle_spec hv e, ?_⟩
  · have hd : (g.ent g.sizeNext).alive = false := hg.deadTail _ (Nat.le_refl _) hglt
    have e2 : ({ g with sizeNext := g.sizeNext + 1 } : Manager Val).isAlive g.sizeNext =
        some (g.ent g.sizeNext).alive := by
      simp [isAlive, getEntity, ent]
    rw [e2, hd]
  · rw [isAlive_of_lt (by omega), hal]
  · have hx : (m1.ent m.sizeNext).handleDataIndex < m1.handleData.length := by
      rw [hv1.hinv.hdLen]; exact hv1.hinv.hdiLt _ hlt
    rw [isHandleValid_of_lt hx]
    simp

/-- On a full test manager (`sizeNext = capacity = 100`) `createHandle()` returns a valid
handle. -/
theorem create_asserts_hold_witness :
    testFull.sizeNext = 100 ∧ testFull.capacity = 100 ∧
      ∃ x m1, createHandle testSettings testFull = some (x, m1) ∧
        m1.isHandleValid x = some true := by
  obtain ⟨_, _, _, _, _, x, m1, _, _, _, _, e, hx⟩ :=
    create_asserts_hold testSettings testFull testFull_reachable
  exact ⟨testFull_fields.2, testFull_fields.1, x, m1, e, hx⟩

/-- C37: in every reachable state, a valid handle resolves to a record whose `handleDataIndex`
is the slot of the handle, and two valid handles that resolve to the same entity index are
the same value: same slot and same counter. -/
theorem valid_handles_injective [Inhabited Val] (S : Settings) (m : Manager Val)
    (h : Reachable S m) (x1 x2 : Handle) (h1 : m.isHandleValid x1 = some true)
    (h2 : m.isHandleValid x2 = some true) :
    (∃ i, m.getEntityIndex x1 = some i ∧ i < m.capacity ∧
      (m.ent i).handleDataIndex = x1.handleDataIndex) ∧
    (m.getEntityIndex x1 = m.getEntityIndex x2 →
      x1.handleDataIndex = x2.handleDataIndex ∧ x1.counter = x2.counter ∧ x1 = x2) := by
  have hv := h.inv
  obtain ⟨l1, c1⟩ := isHandleValid_true h1
  obtain ⟨l2, c2⟩ := isHandleValid_true h2
  rw [hv.hinv.hdLen] at l1 l2
  have f1 := hv.hinv.fwd _ l1
  have f2 := hv.hinv.fwd _ l2
  refine ⟨⟨_, getEntityIndex_of_valid h1, hv.hinv.eiLt _ l1, f1⟩, fun e => ?_⟩
  rw [getEntityIndex_of_valid h1, getEntityIndex_of_valid h2] at e
  have e2 := Option.some.inj e
  have e3 : x1.handleDataIndex = x2.handleDataIndex := by
    rw [← f1, ← f2, e2]
  have e4 : x1.counter = x2.counter := by
    rw [c1, c2, e3]
  refine ⟨e3, e4, ?_⟩
  cases x1
  cases x2
  simp only at e3 e4
  rw [e3, e4]

/-- The handles of the second and third of three entities are valid and resolve to different
indices; the first of them resolves to a record that refers back to slot 1. -/
theorem valid_handles_injective_witness :
    (∃ i, testHandles.getEntityIndex { handleDataIndex := 1, counter := 0 } = some i ∧
      i < testHandles.capacity ∧ (testHandles.ent i).handleDataIndex = 1) ∧
    testHandles.getEntityIndex { handleDataIndex := 1, counter := 0 } ≠
      testHandles.getEntityIndex { handleDataIndex := 2, counter := 0 } := by
  have h := valid_handles_injective testSettings testHandles
    (Reachable.ofRun testHandlesOps testNew _ (by rfl) (by rfl))
    { handleDataIndex := 1, counter := 0 } { handleDataIndex := 2, counter := 0 } (by rfl)
    (by rfl)
  refine ⟨h.1, fun c => ?_⟩
  have := (h.2 c).1
  exact absurd this (by decide)

end ecs

namespace ecs

/-! ## The compaction with and without handles -/

theorem getD_map_forget (es : List Entity) (i : Nat) :
    (es.map Entity.forget).getD i P5.Entity.zero = (es.getD i Entity.zero).forget := by
  simp only [List.getD_eq_getElem?_getD, List.getElem?_map]
  cases es[i]? <;> rfl

theorem swapEnt_forget {Val : Type} (m : Manager Val) (a b : Nat) :
    (m.swapEnt a b).entities.map Entity.forget =
      P5.swapEnt (m.entities.map Entity.forget) a b := by
  simp only [Manager.swapEnt, Manager.setEnt, Manager.ent, P5.swapEnt, List.map_set,
    getD_map_forget]

namespace Manager

variable {Val : Type}

/-- A run of the loops of `refreshImpl` of p7.cpp, with the handle table and the
`handleDataIndex` fields dropped, is the run of the loops of p5.cpp. -/
theorem refreshLoop_forget :
    ∀ (fuel : Nat) (ph : Phase) (m : Manager Val) (iD iA : Nat),
      (refreshLoop fuel ph m iD iA).map (fun p => (p.1, p.2.entities.map Entity.forget)) =
        P5.refreshLoop fuel ph (m.entities.map Entity.forget) iD iA := by
  intro fuel
  induction fuel with
  | zero => intro ph m iD iA; rfl
  | succ fuel ih =>
    intro ph m iD iA
    have hal : ∀ i, ((m.entities.map Entity.forget).getD i P5.Entity.zero).alive =
        (m.ent i).alive := fun i => by rw [getD_map_forget]; rfl
    cases ph with
    | scanDead =>
      simp only [refreshLoop, P5.refreshLoop, hal]
      by_cases h1 : iD > iA
      · simp [h1]
      · by_cases h2 : (m.ent iD).alive = true
        · simp only [h1, if_false, h2, Bool.not_true]
          exact ih Phase.scanDead m (iD + 1) iA
        · have h2f : (m.ent iD).alive = false := by simpa using h2
          simp only [h1, if_false, h2f, Bool.not_false, if_true]
          exact ih Phase.scanAlive m iD iA
    | scanAlive =>
      simp only [refreshLoop, P5.refreshLoop, hal]
      by_cases h1 : (m.ent iA).alive = true
      · simp only [h1, if_true]
        by_cases h3 : iA = 0
        · simp [h3]
        · simp only [h3, if_false]
          rw [← swapEnt_forget]
          exact ih Phase.scanDead _ (iD + 1) (iA - 1)
      · have h1f : (m.ent iA).alive = false := by simpa using h1
        simp only [h1f, Bool.false_eq_true, if_false]
        by_cases h3 : iA ≤ iD
        · simp [h3]
        · simp only [h3, if_false]
          exact ih Phase.scanAlive (m.invalidateHandle iA) iD (iA - 1)

theorem delComponent_of_lt (S : Settings) {m : Manager Val} {T : Kind} {i : Nat}
    (hT : S.isComponent T = true) (hi : i < m.sizeNext) :
    delComponent S m T i =
      some (m.setEnt i
        { m.ent i with bitset := (m.ent i).bitset.set (S.componentBit T) false }) := by
  simp only [delComponent, hT, if_true, getEntity_of_lt hi]

/-- What writing the bit of component `C` of record `i` leaves alone. -/
theorem setComponentBit_frame {S : Settings} {m : Manager Val} (h : Inv S m) {C : Kind}
    {i : Nat} (hC : S.isComponent C = true) (hi : i < m.sizeNext) (b : Bool) :
    (∀ U j, (U ≠ C ∨ j ≠ i) →
      hasComponent S
          (m.setEnt i { m.ent i with bitset := (m.ent i).bitset.set (S.componentBit C) b })
          U j = hasComponent S m U j) ∧
    (∀ T j,
      hasTag S (m.setEnt i { m.ent i with bitset := (m.ent i).bitset.set (S.componentBit C) b })
          T j = hasTag S m T j) := by
  have hmem : C ∈ S.componentList := Settings.mem_of_isComponent hC
  obtain ⟨m1, hm1⟩ : ∃ m1 : Manager Val, m1 =
      m.setEnt i { m.ent i with bitset := (m.ent i).bitset.set (S.componentBit C) b } :=
    ⟨_, rfl⟩
  rw [← hm1]
  have hsz : m1.sizeNext = m.sizeNext := by rw [hm1]; rfl
  have hent : ∀ j k2, (m1.ent j).bitset.getD k2 false =
      if (i = j ∧ S.componentBit C = k2) ∧ S.componentBit C < S.bitCount then b
      else (m.ent j).bitset.getD k2 false := by
    intro j
    have e2 := setBit_ent h hi (S.componentBit C) b j
    rw [hm1]
    exact e2.2.2
  refine ⟨fun U j hne => ?_, fun T j => ?_⟩
  · have hb : (m1.ent j).bitset.getD (S.componentBit U) false =
        (m.ent j).bitset.getD (S.componentBit U) false := by
      rw [hent, if_neg]
      rintro ⟨⟨c1, c2⟩, _⟩
      rcases hne with c | c
      · exact indexOf_ne_of_mem hmem (Ne.symm c) c2
      · exact c c1.symm
    rw [hasComponent_bit, hasComponent_bit, hsz, hb]
  · by_cases hT : S.isTag T = true
    · have hb : (m1.ent j).bitset.getD (S.tagBit T) false =
          (m.ent j).bitset.getD (S.tagBit T) false := by
        rw [hent, if_neg]
        rintro ⟨⟨_, c2⟩, _⟩
        have := indexOf_lt_of_mem hmem
        simp only [Settings.tagBit, Settings.componentBit, Settings.componentID,
          Settings.componentCount] at c2
        omega
      rw [hasTag_bit, hasTag_bit, hsz, hb]
    · rw [hasTag_bit, hasTag_bit, if_neg (fun c => hT c.1), if_neg (fun c => hT c.1)]

end Manager

namespace Settings

/-- The bit indices of the components and of the tags, in the order of the two lists. -/
theorem bits_nodup (S : Settings) (hc : S.componentList.Nodup) (ht : S.tagList.Nodup) :
    (S.componentList.map S.componentBit ++ S.tagList.map S.tagBit).Nodup := by
  rw [List.nodup_append]
  refine ⟨?_, ?_, ?_⟩
  · exact List.Nodup.map_on (fun x hx y hy e => indexOf_inj_of_mem hx hy e) hc
  · refine List.Nodup.map_on (fun x hx y hy e => ?_) ht
    simp only [tagBit, tagID] at e
    exact indexOf_inj_of_mem hx hy (by omega)
  · intro k h1 h2
    obtain ⟨C, hC, rfl⟩ := List.mem_map.mp h1
    obtain ⟨T, _, e⟩ := List.mem_map.mp h2
    have := indexOf_lt_of_mem hC
    simp only [tagBit, componentBit, componentID, componentCount] at e
    omega

end Settings

open Manager

variable {Val : Type}

/-- C38: for every entity array of p5.cpp and every p7.cpp state whose records are those of the
array once `handleDataIndex` is dropped, with `sizeNext > 0`: `refreshImpl` of p7.cpp and
`refreshImpl` of p5.cpp both return, they return the same index, and the entity array that
p5.cpp leaves is the one that p7.cpp leaves, with `handleDataIndex` dropped. -/
theorem refreshImpl_refines (es : List P5.Entity) (m : Manager Val)
    (he : m.entities.map Entity.forget = es) (hpos : 0 < m.sizeNext) :
    ∃ r m1, m.refreshImpl = some (r, m1) ∧
      P5.refreshImpl es m.sizeNext = some (r, m1.entities.map Entity.forget) := by
  obtain ⟨r, m1, _, _, e, _⟩ := refreshImplTraced_spec m hpos
  refine ⟨r, m1, e, ?_⟩
  have k := refreshLoop_forget (2 * m.sizeNext + 1) Phase.scanDead m 0 (m.sizeNext - 1)
  rw [he] at k
  rw [P5.refreshImpl, ← k]
  simp only [refreshImpl] at e
  rw [e]
  rfl

/-- Five entities with the ones at indices 1 and 3 killed: both compactions return 3 and
leave the data slots in the order 0, 4, 2, 3, 1. -/
theorem refreshImpl_refines_witness :
    (∃ r m1, testFive.refreshImpl = some (r, m1) ∧
      P5.refreshImpl (testFive.entities.map Entity.forget) testFive.sizeNext =
        some (r, m1.entities.map Entity.forget)) ∧
    (P5.refreshImpl (testFive.entities.map Entity.forget) 5).map
        (fun p => (p.1, (p.2.take 5).map (fun e => e.dataIndex))) =
      some (3, [0, 4, 2, 3, 1]) :=
  ⟨refreshImpl_refines _ testFive rfl (by decide), by rfl⟩

/-- C39: for every schema whose component list and tag list have no duplicate kind, the bit
indices `componentBit<C>()` of the components and `tagBit<T>()` of the tags are pairwise
distinct, there are `componentCount() + tagCount()` of them and each is below that number,
the width of every entity bitset; and in every reachable state `addTag`, `delTag`,
`addComponent` and `delComponent` on an entity below `sizeNext` write a bit inside the bitset
and change no `hasTag` or `hasComponent` result other than the one of their own kind and
entity.  A kind that is in both lists has two bits and does no harm. -/
theorem bits_pairwise_distinct [Inhabited Val] (S : Settings) (hc : S.componentList.Nodup)
    (ht : S.tagList.Nodup) :
    (S.componentList.map S.componentBit ++ S.tagList.map S.tagBit).Nodup ∧
    (S.componentList.map S.componentBit ++ S.tagList.map S.tagBit).length = S.bitCount ∧
    (∀ k ∈ S.componentList.map S.componentBit ++ S.tagList.map S.tagBit, k < S.bitCount) ∧
    ∀ (m : Manager Val), Reachable S m → ∀ i, i < m.sizeNext →
      (m.ent i).bitset.length = S.bitCount ∧
      (∀ T, S.isTag T = true → S.tagBit T < (m.ent i).bitset.length ∧
        ∀ m1, addTag S m T i = some m1 ∨ delTag S m T i = some m1 →
          (∀ U j, (U ≠ T ∨ j ≠ i) → hasTag S m1 U j = hasTag S m U j) ∧
          (∀ C j, hasComponent S m1 C j = hasComponent S m C j)) ∧
      (∀ C, S.isComponent C = true → S.componentBit C < (m.ent i).bitset.length ∧
        ∀ m1, (∃ v, addComponent S m C i v = some m1) ∨ delComponent S m C i = some m1 →
          (∀ U j, (U ≠ C ∨ j ≠ i) → hasComponent S m1 U j = hasComponent S m U j) ∧
          (∀ T j, hasTag S m1 T j = hasTag S m T j)) := by
  refine ⟨S.bits_nodup hc ht, by simp [Settings.bitCount, Settings.componentCount,
    Settings.tagCount], ?_, ?_⟩
  · intro k hk
    rcases List.mem_append.mp hk with c | c
    · obtain ⟨C, hC, rfl⟩ := List.mem_map.mp c
      exact Settings.componentBit_lt (by simpa [Settings.isComponent] using hC)
    · obtain ⟨T, hT, rfl⟩ := List.mem_map.mp c
      exact Settings.tagBit_lt (by simpa [Settings.isTag] using hT)
  · intro m h i hi
    have hv := h.inv
    have hlen : (m.ent i).bitset.length = S.bitCount :=
      hv.bits_len (by have := hv.nextLe; omega)
    refine ⟨hlen, fun T hT => ⟨by rw [hlen]; exact Settings.tagBit_lt hT, ?_⟩,
      fun C hC => ⟨by rw [hlen]; exact Settings.componentBit_lt hC, ?_⟩⟩
    · rintro m1 (e | e)
      · rw [addTag_of_lt S hT hi] at e
        cases e
        obtain ⟨_, a2, a3, _⟩ := setTagBit_frame hv hT hi true
        exact ⟨a2, a3⟩
      · rw [delTag_of_lt S hT hi] at e
        cases e
        obtain ⟨_, a2, a3, _⟩ := setTagBit_frame hv hT hi false
        exact ⟨a2, a3⟩
    · rintro m1 (⟨v, e⟩ | e)
      · rw [addComponent_of_lt S v hC hi] at e
        cases e
        exact setComponentBit_frame hv hC hi true
      · rw [delComponent_of_lt S hC hi] at e
        cases e
        exact setComponentBit_frame hv hC hi false

/-- The bits of the settings of the tests are `0..7`, and adding `C1` to the first of two
entities leaves its `hasTag<T0>` result and the `hasComponent<C1>` result of the second entity
as they were. -/
theorem bits_pairwise_distinct_witness :
    testSettings.componentList.map testSettings.componentBit ++
        testSettings.tagList.map testSettings.tagBit = [0, 1, 2, 3, 4, 5, 6, 7] ∧
      ∀ m1, addComponent testSettings testTwo 1 0 7 = some m1 →
        hasTag testSettings m1 5 0 = some false ∧
        hasComponent testSettings m1 1 1 = some false := by
  refine ⟨by decide, fun m1 e => ?_⟩
  have h := ((bits_pairwise_distinct testSettings (by decide) (by decide)).2.2.2 testTwo
    (Reachable.ofRun [Op.createIndex, Op.createIndex] testNew _ (by rfl) (by rfl)) 0
    (by decide)).2.2 1 (by decide)
  have h2 := h.2 m1 (Or.inl ⟨7, e⟩)
  rw [h2.2 5 0, h2.1 1 1 (Or.inr (by decide))]
  exact ⟨by rfl, by rfl⟩

end ecs
